import Mathlib

/-!
# Advent of Go 2025, day 02: sums of repeated-block integers

A shallow embedding of `2025/02/code.go` and proofs about it.

Conventions of the embedding.

* Go `int64` values are integers (`Int`).  Every `int64` operation of the source
  is followed by a normalisation `w : Int → Int`.  With `w = id` the arithmetic is
  exact; with `w = wrap64` it is the two's complement arithmetic of Go.
* Go `int` values (digit counts, block lengths, loop counters) are integers; they
  stay below 20 in this program, so no normalisation is applied to them.
* Go `/` and `%` truncate towards zero (`Int.tdiv`, `Int.tmod`).  A division whose
  divisor is zero is a run-time fault: functions that divide return an `Option`,
  and `none` is the fault.
* A Go `map[int]int64` is a function `Int → Int`; a missing key reads as `0`.
* `solvePart1` and `solvePart2` receive the ranges already split and parsed
  (the work of `strings.SplitSeq`, `strings.SplitN` and `strconv.ParseInt`).
-/

namespace Day02

/-! ## Machine arithmetic -/

/-- Two's complement reduction of an integer to the signed 64-bit range. -/
def wrap64 (x : Int) : Int := (x + 2 ^ 63) % 2 ^ 64 - 2 ^ 63

/-- Quotient of Go's `/`: a fault when the divisor is zero, else truncated. -/
def quo (a b : Int) : Option Int :=
  if b = 0 then none else some (Int.tdiv a b)

/-- Remainder of Go's `%`: a fault when the divisor is zero. -/
def rem (a b : Int) : Option Int :=
  if b = 0 then none else some (Int.tmod a b)

/-! ## Leaf utilities -/

/-- The table `pow10Table`: index equals exponent, up to `10^18`. -/
def pow10Table : List Int :=
  [1, 10, 100, 1000, 10000, 100000, 1000000, 10000000, 100000000, 1000000000,
   10000000000, 100000000000, 1000000000000, 10000000000000, 100000000000000,
   1000000000000000, 10000000000000000, 100000000000000000, 1000000000000000000]

/-- The function `pow10`: table lookup, `0` outside the table. -/
def pow10 (e : Int) : Int :=
  if e < 0 ∨ e ≥ (pow10Table.length : Int) then 0 else pow10Table.getD e.toNat 0

/-- The loop `for v := x; v > 0; v /= 10 { n++ }` of `countDigits`, with a bound
on the number of iterations. -/
def countDigitsLoop : Nat → Int → Int → Int
  | 0, _, n => n
  | fuel + 1, v, n => if v > 0 then countDigitsLoop fuel (Int.tdiv v 10) (n + 1) else n

/-- The function `countDigits`.  The loop runs at most `x` times for `x > 0`
(see `countDigitsLoop_fuel`), so the bound `x.toNat` never cuts it short. -/
def countDigits (x : Int) : Int :=
  if x = 0 then 1 else countDigitsLoop x.toNat x 0

/-- The function `ceilDiv`: `(a + b - 1) / b`. -/
def ceilDiv (w : Int → Int) (a b : Int) : Option Int :=
  (quo (w (w (a + b) - 1)) b).map w

/-- The trial-division loop of `divisors`, `for i := 1; i*i <= n; i++`, run over
the candidates `i = 1, 2, ...`; it stops at the first `i` with `i*i > n`. -/
def divisorsScan (n : Int) : List Int → List Int → Option (List Int)
  | [], ds => some ds
  | i :: rest, ds =>
    if i * i ≤ n then
      (rem n i).bind fun r =>
        if r ≠ 0 then divisorsScan n rest ds
        else
          (quo n i).bind fun q =>
            if i ≠ q then divisorsScan n rest (ds ++ [i] ++ [q])
            else divisorsScan n rest (ds ++ [i])
    else some ds

/-- The swap `ds[j-1], ds[j] = ds[j], ds[j-1]`. -/
def swapAt (ds : List Int) (j : Nat) : List Int :=
  (ds.set (j - 1) (ds.getD j 0)).set j (ds.getD (j - 1) 0)

/-- The inner loop of the insertion sort, `for j > 0 && ds[j-1] > ds[j]`,
started at index `j`. -/
def sortInner : Nat → List Int → List Int
  | 0, ds => ds
  | j + 1, ds =>
    if ds.getD j 0 > ds.getD (j + 1) 0 then sortInner j (swapAt ds (j + 1)) else ds

/-- The insertion sort at the end of `divisors`: `for i := 1; i < len(ds); i++`. -/
def insertionSort (ds : List Int) : List Int :=
  (List.range' 1 (ds.length - 1)).foldl (fun acc i => sortInner i acc) ds

/-- The function `divisors`. -/
def divisors (n : Int) : Option (List Int) :=
  (divisorsScan n ((List.range' 1 n.toNat).map Int.ofNat) []).map insertionSort

/-! ## The arithmetic-series range summer -/

/-- The function `sumAllRepeats`. -/
def sumAllRepeats (w : Int → Int) (lo hi d m : Int) : Option Int :=
  let pow10d := pow10 d
  if pow10d = 0 then some 0
  else
    let base := pow10 m
    if base = 0 then some 0
    else
      ((quo (w (pow10d - 1)) (w (base - 1))).map w).bind fun repFactor =>
        let minBlock := w (Int.tdiv base 10)
        let maxBlock := w (base - 1)
        (ceilDiv w lo repFactor).bind fun hMin0 =>
          ((quo hi repFactor).map w).bind fun hMax0 =>
            let hMin := if hMin0 < minBlock then minBlock else hMin0
            let hMax := if hMax0 > maxBlock then maxBlock else hMax0
            if hMin > hMax then some 0
            else
              let count := w (w (hMax - hMin) + 1)
              let sumH := w (Int.tdiv (w (w (hMin + hMax) * count)) 2)
              some (w (repFactor * sumH))

/-! ## The exact-double counter -/

/-- The body of the loop of `sumInvalidInRange` for one even digit count `d`;
it returns the updated `total`. -/
def doubleStep (w : Int → Int) (lo hi total d : Int) : Option Int :=
  let k := Int.tdiv d 2
  let base := pow10 k
  let basePlus := w (base + 1)
  let minHalf := w (Int.tdiv base 10)
  let maxHalf := w (base - 1)
  (ceilDiv w lo basePlus).bind fun hMin0 =>
    ((quo hi basePlus).map w).bind fun hMax0 =>
      let hMin := if hMin0 < minHalf then minHalf else hMin0
      let hMax := if hMax0 > maxHalf then maxHalf else hMax0
      if hMin > hMax then some total
      else
        let count := w (w (hMax - hMin) + 1)
        let sumH := w (Int.tdiv (w (w (hMin + hMax) * count)) 2)
        some (w (total + w (basePlus * sumH)))

/-- The digit count of `hi`, clamped to the last index of the table. -/
def clampDigits (hi : Int) : Int :=
  let maxDigits := countDigits hi
  if maxDigits ≥ (pow10Table.length : Int) then (pow10Table.length : Int) - 1 else maxDigits

/-- The function `sumInvalidInRange`; the loop `for d := 2; d <= maxDigits; d += 2`
visits `2, 4, ..., 2 * (maxDigits / 2)`. -/
def sumInvalidInRange (w : Int → Int) (lo hi : Int) : Option Int :=
  ((List.range' 2 (Int.tdiv (clampDigits hi) 2).toNat 2).map Int.ofNat).foldlM
    (fun total d => doubleStep w lo hi total d) 0

/-! ## The repeated-block counter -/

/-- The first loop over `divs` in `sumInvalidAtLeastTwice`: it fills `raw`. -/
def rawLoop (w : Int → Int) (lo hi d : Int) : List Int → (Int → Int) → Option (Int → Int)
  | [], raw => some raw
  | m :: rest, raw =>
    (quo d m).bind fun r =>
      if r < 2 then rawLoop w lo hi d rest raw
      else
        (sumAllRepeats w lo hi d m).bind fun v =>
          rawLoop w lo hi d rest (Function.update raw m v)

/-- The innermost loop `for _, sub := range divs` with its `break`. -/
def subLoop (w : Int → Int) (d m : Int) (exact : Int → Int) : List Int → Int → Option Int
  | [], val => some val
  | sub :: rest, val =>
    if sub ≥ m then some val
    else
      (rem m sub).bind fun a =>
        if a = 0 then
          (rem d sub).bind fun b =>
            if b = 0 then
              (quo d sub).bind fun c =>
                if c ≥ 2 then subLoop w d m exact rest (w (val - exact sub))
                else subLoop w d m exact rest val
            else subLoop w d m exact rest val
        else subLoop w d m exact rest val

/-- The second loop over `divs`: it fills `exact` and accumulates `total`. -/
def exactLoop (w : Int → Int) (d : Int) (divs : List Int) (raw : Int → Int) :
    List Int → (Int → Int) → Int → Option ((Int → Int) × Int)
  | [], exact, total => some (exact, total)
  | m :: rest, exact, total =>
    (quo d m).bind fun r =>
      if r < 2 then exactLoop w d divs raw rest exact total
      else
        (subLoop w d m exact divs (raw m)).bind fun val =>
          exactLoop w d divs raw rest (Function.update exact m val) (w (total + val))

/-- The body of the loop of `sumInvalidAtLeastTwice` for one digit count `d`;
it returns the updated `total`. -/
def blockStep (w : Int → Int) (lo hi total d : Int) : Option Int :=
  (divisors d).bind fun divs =>
    (rawLoop w lo hi d divs (fun _ => 0)).bind fun raw =>
      (exactLoop w d divs raw divs (fun _ => 0) total).map Prod.snd

/-- The function `sumInvalidAtLeastTwice`; the loop `for d := 2; d <= maxDigits; d++`
visits `2, 3, ..., maxDigits`. -/
def sumInvalidAtLeastTwice (w : Int → Int) (lo hi : Int) : Option Int :=
  ((List.range' 2 (clampDigits hi - 1).toNat).map Int.ofNat).foldlM
    (fun total d => blockStep w lo hi total d) 0

/-! ## The two solvers, over parsed ranges -/

/-- The normalisation `if lo > hi { lo, hi = hi, lo }`. -/
def normalise (r : Int × Int) : Int × Int :=
  if r.1 > r.2 then (r.2, r.1) else r

/-- The function `solvePart1` on the parsed ranges of the line. -/
def solvePart1 (w : Int → Int) (ranges : List (Int × Int)) : Option Int :=
  ranges.foldlM
    (fun total r =>
      (sumInvalidInRange w (normalise r).1 (normalise r).2).map fun s => w (total + s)) 0

/-- The function `solvePart2` on the parsed ranges of the line. -/
def solvePart2 (w : Int → Int) (ranges : List (Int × Int)) : Option Int :=
  ranges.foldlM
    (fun total r =>
      (sumInvalidAtLeastTwice w (normalise r).1 (normalise r).2).map fun s => w (total + s)) 0

/-! ## Definitions used to state and prove the properties

None of the following is code of the program: these are the mathematical
objects of the specification and the fragments of the functions above that the
proofs name. -/

/-- The clamped arithmetic progression shared by `sumAllRepeats` and
`sumInvalidInRange`, in exact arithmetic, for a multiplier `R` and the block
domain `[minB, maxB]`. -/
def series (R lo hi minB maxB : Int) : Int :=
  let hMin0 := Int.tdiv (lo + R - 1) R
  let hMax0 := Int.tdiv hi R
  let hMin := if hMin0 < minB then minB else hMin0
  let hMax := if hMax0 > maxB then maxB else hMax0
  if hMin > hMax then 0 else R * Int.tdiv ((hMin + hMax) * (hMax - hMin + 1)) 2

/-- The repeat factor `(10^d - 1) / (10^m - 1)` of digit length `d` and block
length `m`. -/
def repFactor (d m : Nat) : Int := (10 ^ d - 1) / (10 ^ m - 1)

/-- An integer that is a `k`-digit block written twice: `h * (10^k + 1)` with
`10^(k-1) ≤ h ≤ 10^k - 1`. -/
def IsDoubleOf (k : Nat) (n : Int) : Prop :=
  ∃ h : Int, 10 ^ (k - 1) ≤ h ∧ h ≤ 10 ^ k - 1 ∧ n = h * (10 ^ k + 1)

/-- An integer that is some block of `k ≥ 1` digits written exactly twice. -/
def IsDouble (n : Int) : Prop := ∃ k : Nat, 1 ≤ k ∧ IsDoubleOf k n

/-- An integer that is an `m`-digit block `h` (no leading zero) multiplied by the
repeat factor of `(d, m)`: the block written `d / m` times. -/
def Blk (d m : Nat) (n : Int) : Prop :=
  ∃ h : Int, 10 ^ (m - 1) ≤ h ∧ h ≤ 10 ^ m - 1 ∧ n = repFactor d m * h

/-- An integer of `d` digits that is a block of `m` digits repeated `d / m ≥ 2`
times, for some divisor `m` of `d`. -/
def Rep (d : Nat) (n : Int) : Prop :=
  ∃ m : Nat, 1 ≤ m ∧ m < d ∧ m ∣ d ∧ Blk d m n

/-- Reference predicate, following the words of the specification: the decimal
string of `n` (digits `Nat.digits 10 n`, of length `d`) equals some block of `m`
digits repeated `d / m ≥ 2` times, for some divisor `m` of `d`. -/
def isRepeatedBlock (n : Nat) : Bool :=
  let s := Nat.digits 10 n
  (List.range s.length).any fun m =>
    decide (1 ≤ m ∧ s.length % m = 0 ∧ 2 ≤ s.length / m ∧
      s = (List.replicate (s.length / m) (s.take m)).flatten)

/-- A normalisation that leaves the signed 64-bit integers unchanged: exact
arithmetic (`id`) and Go's arithmetic (`wrap64`) both qualify. -/
def Faithful (w : Int → Int) : Prop :=
  ∀ x : Int, -2 ^ 63 ≤ x → x < 2 ^ 63 → w x = x

/-- The lower end of the block interval in `sumAllRepeats` and `sumInvalidInRange`. -/
def lowBlock (w : Int → Int) (R lo minB : Int) : Int :=
  if w (Int.tdiv (w (w (lo + R) - 1)) R) < minB then minB
  else w (Int.tdiv (w (w (lo + R) - 1)) R)

/-- The upper end of the block interval in `sumAllRepeats` and `sumInvalidInRange`. -/
def highBlock (w : Int → Int) (R hi maxB : Int) : Int :=
  if w (Int.tdiv hi R) > maxB then maxB else w (Int.tdiv hi R)

/-- The product `R * sumH` of the arithmetic progression step. -/
def progression (w : Int → Int) (R hMin hMax : Int) : Int :=
  w (R * w (Int.tdiv (w (w (hMin + hMax) * w (w (hMax - hMin) + 1))) 2))

/-- The block lengths `m` for which the first loop over `divs` in
`sumInvalidAtLeastTwice` calls `sumAllRepeats(lo, hi, d, m)`: the control flow of
`rawLoop`, recording each call instead of making it. -/
def rawCalls (d : Int) : List Int → Option (List Int)
  | [] => some []
  | m :: rest =>
    (quo d m).bind fun r =>
      if r < 2 then rawCalls d rest
      else (rawCalls d rest).map fun ms => m :: ms

/-- The argument pairs `(d, m)` of the calls of `sumAllRepeats` made by
`sumInvalidAtLeastTwice`, for the digit lengths `2, ..., count + 1`. -/
def repeatCallsUpTo (count : Nat) : Option (List (Int × Int)) :=
  ((List.range' 2 count).map Int.ofNat).foldlM
    (fun acc d =>
      (divisors d).bind fun divs =>
        (rawCalls d divs).map fun ms => acc ++ ms.map fun m => (d, m)) []

/-- The argument pairs `(d, m)` of all calls of `sumAllRepeats` made by
`sumInvalidAtLeastTwice(lo, hi)`. -/
def repeatCalls (hi : Int) : Option (List (Int × Int)) :=
  repeatCallsUpTo (clampDigits hi - 1).toNat

/-- The state `(exact, total)` at the end of the body of the loop of
`sumInvalidAtLeastTwice` for the digit count `d`, entered with `total`. -/
def blockState (w : Int → Int) (lo hi total d : Int) : Option ((Int → Int) × Int) :=
  (divisors d).bind fun divs =>
    (rawLoop w lo hi d divs (fun _ => 0)).bind fun raw =>
      exactLoop w d divs raw divs (fun _ => 0) total

/-- Reference predicate: the digit string `s` is its first `m` digits repeated,
`m ≥ 1` dividing the length of `s`. -/
def hasBlock (s : List Nat) (m : Nat) : Bool :=
  decide (1 ≤ m ∧ s.length % m = 0 ∧ s = (List.replicate (s.length / m) (s.take m)).flatten)

/-- Reference predicate, following the words of the specification: the minimal
repeating block length of the decimal string of `n` is exactly `m`. -/
def minimalBlock (n m : Nat) : Bool :=
  hasBlock (Nat.digits 10 n) m && (List.range m).all fun t => !hasBlock (Nat.digits 10 n) t

/-- An integer of `d` digits that is a repeated block of `m` digits and of no
shorter block length. -/
def MinBlk (d m : Nat) (n : Int) : Prop :=
  Blk d m n ∧ ∀ t : Nat, 1 ≤ t → t < m → t ∣ d → ¬ Blk d t n

end Day02

/-!
# Advent of Go 2025, day 01: the dial

A shallow embedding of `2025/01/code.go`.  The conventions are those of day 02:
every operation on a Go `int` is followed by a normalisation `w` (`id` for exact
arithmetic, `Day02.wrap64` for a 64-bit `int`), `%` and `/` truncate and fault on
a zero divisor (`none`), and the solvers receive the parsed rotations.  The
direction byte of a rotation is a character.
-/

namespace Day01

/-- The type `rotation`: a direction and a distance. -/
structure rotation where
  /-- The direction byte. -/
  dir : Char
  /-- The number of clicks. -/
  steps : Int

/-- The function `applyRotation`. -/
def applyRotation (w : Int → Int) (pos : Int) (r : rotation) (size : Int) : Option Int :=
  ((Day02.rem r.steps size).map w).bind fun steps =>
    if r.dir = 'R' ∨ r.dir = 'r' then (Day02.rem (w (pos + steps)) size).map w
    else if r.dir = 'L' ∨ r.dir = 'l' then (Day02.rem (w (w (pos - steps) + size)) size).map w
    else some pos

/-- The function `countZeroHitsDuringRotation`. -/
def countZeroHitsDuringRotation (w : Int → Int) (pos : Int) (r : rotation) (size : Int) :
    Option Int :=
  let steps := r.steps
  if steps = 0 then some 0
  else if r.dir = 'R' ∨ r.dir = 'r' then
    ((Day02.rem (w (size - pos)) size).map w).bind fun firstHit0 =>
      let firstHit := if firstHit0 = 0 then size else firstHit0
      if steps < firstHit then some 0
      else ((Day02.quo (w (steps - firstHit)) size).map w).map fun q => w (1 + q)
  else if r.dir = 'L' ∨ r.dir = 'l' then
    ((Day02.rem pos size).map w).bind fun firstHit0 =>
      let firstHit := if firstHit0 = 0 then size else firstHit0
      if steps < firstHit then some 0
      else ((Day02.quo (w (steps - firstHit)) size).map w).map fun q => w (1 + q)
  else some 0

/-- One pass of the loop of `solvePart1` on the state `(pos, hitsAtZero)`. -/
def step1 (w : Int → Int) (dialSize : Int) (st : Int × Int) (r : rotation) :
    Option (Int × Int) :=
  (applyRotation w st.1 r dialSize).map fun pos =>
    if pos = 0 then (pos, w (st.2 + 1)) else (pos, st.2)

/-- One pass of the loop of `solvePart2` on the state `(pos, totalHits)`. -/
def step2 (w : Int → Int) (dialSize : Int) (st : Int × Int) (r : rotation) :
    Option (Int × Int) :=
  (countZeroHitsDuringRotation w st.1 r dialSize).bind fun hits =>
    (applyRotation w st.1 r dialSize).map fun pos => (pos, w (st.2 + hits))

/-- The function `solvePart1` on the parsed rotations. -/
def solvePart1 (w : Int → Int) (rotations : List rotation) (startPos dialSize : Int) :
    Option Int :=
  (rotations.foldlM (step1 w dialSize) (startPos, 0)).map Prod.snd

/-- The function `solvePart2` on the parsed rotations. -/
def solvePart2 (w : Int → Int) (rotations : List rotation) (startPos dialSize : Int) :
    Option Int :=
  (rotations.foldlM (step2 w dialSize) (startPos, 0)).map Prod.snd

/-- The count computed by `countZeroHitsDuringRotation` from the first hit. -/
def hitsFrom (size steps firstHit0 : Int) : Int :=
  if steps < (if firstHit0 = 0 then size else firstHit0) then 0
  else 1 + (steps - (if firstHit0 = 0 then size else firstHit0)) / size

end Day01

namespace Day02

/-! ## Facts about the leaf utilities -/

theorem pow10_eq (e : Nat) (he : e ≤ 18) : pow10 (e : Int) = 10 ^ e := by
  interval_cases e <;> decide

theorem pow10_of_neg (e : Int) (he : e < 0) : pow10 e = 0 := by
  simp [pow10, he]

theorem pow10_of_large (e : Int) (he : 19 ≤ e) : pow10 e = 0 := by
  have : (pow10Table.length : Int) = 19 := by decide
  simp [pow10, this, he]

theorem pow10_eq_zero_iff (e : Int) : pow10 e = 0 ↔ (e < 0 ∨ 19 ≤ e) := by
  constructor
  · intro h
    by_contra hc
    push_neg at hc
    obtain ⟨n, rfl⟩ := Int.eq_ofNat_of_zero_le hc.1
    have hn : n ≤ 18 := by omega
    rw [pow10_eq n hn] at h
    exact absurd h (by positivity)
  · rintro (h | h)
    · exact pow10_of_neg e h
    · exact pow10_of_large e h

/-- The loop of `countDigits` adds `k` when `v` has `k` decimal digits, provided
the iteration bound is at least `v`. -/
theorem countDigitsLoop_fuel (k : Nat) : ∀ (fuel : Nat) (v n : Int), 0 ≤ v → v < 10 ^ k →
    (k = 0 ∨ 10 ^ (k - 1) ≤ v) → v.toNat ≤ fuel → countDigitsLoop fuel v n = n + k := by
  induction k with
  | zero =>
    intro fuel v n h0 h1 _ _
    have hv : v = 0 := by simp at h1; omega
    subst hv
    cases fuel <;> simp [countDigitsLoop]
  | succ k ih =>
    intro fuel v n h0 h1 h2 h3
    have h2' : (10 : Int) ^ k ≤ v := by simpa using h2
    have hk : (0 : Int) < 10 ^ k := by positivity
    have hvpos : 0 < v := lt_of_lt_of_le hk h2'
    cases fuel with
    | zero => omega
    | succ f =>
      have hdiv : Int.tdiv v 10 = v / 10 := Int.tdiv_eq_ediv h0 (by norm_num)
      simp only [countDigitsLoop, hvpos, if_true, hdiv]
      have e := ih f (v / 10) (n + 1) (by omega) (by
          rw [pow_succ] at h1; omega) (by
          rcases Nat.eq_zero_or_pos k with hk0 | hk0
          · left; exact hk0
          · right
            have : (10 : Int) ^ k = 10 ^ (k - 1) * 10 := by
              rw [← pow_succ]; congr 1; omega
            omega) (by omega)
      rw [e]; push_cast; ring

/-- For a positive argument `countDigits` is the number of decimal digits. -/
theorem countDigits_eq (x : Int) (k : Nat) (h1 : 10 ^ (k - 1) ≤ x)
    (h2 : x < 10 ^ k) : countDigits x = k := by
  have hp : (0 : Int) < 10 ^ (k - 1) := by positivity
  have hx : x ≠ 0 := by omega
  simp only [countDigits, hx, if_false]
  rw [countDigitsLoop_fuel k x.toNat x 0 (by omega) h2 (Or.inr h1) le_rfl]
  simp

/-- Every positive integer has a digit count. -/
theorem exists_digit_count (x : Int) (hx : 1 ≤ x) :
    ∃ k : Nat, 1 ≤ k ∧ (10 : Int) ^ (k - 1) ≤ x ∧ x < 10 ^ k := by
  have hex : ∃ k : Nat, x < 10 ^ k := by
    refine ⟨x.toNat, ?_⟩
    have h1 : x.toNat < 10 ^ x.toNat := Nat.lt_pow_self (by norm_num) _
    have h2 : ((x.toNat : Nat) : Int) < ((10 ^ x.toNat : Nat) : Int) := by exact_mod_cast h1
    have h3 : ((x.toNat : Nat) : Int) = x := Int.toNat_of_nonneg (by omega)
    rw [h3] at h2
    exact_mod_cast h2
  classical
  let k := Nat.find hex
  have hk : x < 10 ^ k := Nat.find_spec hex
  have hk0 : k ≠ 0 := by
    intro h0
    rw [h0] at hk
    simp at hk
    omega
  refine ⟨k, by omega, ?_, hk⟩
  by_contra hc
  push_neg at hc
  have := Nat.find_min hex (m := k - 1) (by omega)
  exact this hc

theorem countDigits_nonpos (x : Int) (hx : x < 0) : countDigits x = 0 := by
  have h : x ≠ 0 := by omega
  have ht : x.toNat = 0 := by omega
  simp [countDigits, h, ht, countDigitsLoop]

/-! ## The arithmetic progression -/

/-- Gauss: twice the sum of `a, a+1, ..., a+n`. -/
theorem sum_Icc_mul_two (n : Nat) (a : Int) :
    (∑ h ∈ Finset.Icc a (a + n), h) * 2 = (a + (a + n)) * (n + 1) := by
  induction n with
  | zero => simp; ring
  | succ n ih =>
    have hins : Finset.Icc a (a + ((n + 1 : Nat) : Int))
        = insert (a + ((n + 1 : Nat) : Int)) (Finset.Icc a (a + n)) := by
      ext x
      simp only [Finset.mem_Icc, Finset.mem_insert]
      push_cast
      omega
    rw [hins, Finset.sum_insert (by simp), add_mul, ih]
    push_cast
    ring

/-- The closed form `(hMin + hMax) * count / 2` is the sum of the blocks. -/
theorem sum_Icc_closed (a b : Int) (hab : a ≤ b) :
    Int.tdiv ((a + b) * (b - a + 1)) 2 = ∑ h ∈ Finset.Icc a b, h := by
  obtain ⟨n, hn⟩ := Int.eq_ofNat_of_zero_le (show 0 ≤ b - a by omega)
  have hb : b = a + n := by omega
  subst hb
  have h := sum_Icc_mul_two n a
  have e : (a + (a + (n : Int))) * (a + n - a + 1) = (∑ h ∈ Finset.Icc a (a + n), h) * 2 := by
    rw [h]; ring
  rw [e]
  exact Int.mul_tdiv_cancel _ (by norm_num)

/-- The blocks `h` of `[minB, maxB]` with `lo ≤ R * h ≤ hi` form the interval that
the code computes by a ceiling division and a floor division. -/
theorem filter_blocks_eq (R lo hi minB maxB : Int) (hR : 0 < R) :
    (Finset.Icc minB maxB).filter (fun h => lo ≤ R * h ∧ R * h ≤ hi)
      = Finset.Icc (max minB ((lo + R - 1) / R)) (min maxB (hi / R)) := by
  ext h
  simp only [Finset.mem_filter, Finset.mem_Icc, max_le_iff, le_min_iff]
  have h1 : (lo + R - 1) / R ≤ h ↔ lo ≤ R * h := by
    constructor
    · intro hh
      have := Int.lt_mul_of_ediv_lt hR (show (lo + R - 1) / R < h + 1 by omega)
      nlinarith
    · intro hh
      have h2 : (lo + R - 1) / R < h + 1 := by
        apply Int.ediv_lt_of_lt_mul hR
        nlinarith
      omega
  have h2 : h ≤ hi / R ↔ R * h ≤ hi := by
    rw [Int.le_ediv_iff_mul_le hR, mul_comm]
  rw [h1, h2]
  tauto

theorem tdiv_nonpos_of_neg (a b : Int) (ha : a < 0) (hb : 0 < b) : Int.tdiv a b ≤ 0 := by
  have h1 := Int.neg_tdiv a b
  have h2 : 0 ≤ Int.tdiv (-a) b := Int.tdiv_nonneg (by omega) (by omega)
  omega

/-- The lower clamp of the code is `max minB ⌈lo / R⌉`. -/
theorem clamp_low (R lo minB : Int) (hR : 0 < R) (hmin : 1 ≤ minB) :
    (if Int.tdiv (lo + R - 1) R < minB then minB else Int.tdiv (lo + R - 1) R)
      = max minB ((lo + R - 1) / R) := by
  rcases le_or_lt 0 (lo + R - 1) with h | h
  · rw [Int.tdiv_eq_ediv h (by omega)]
    split_ifs with hc
    · exact (max_eq_left (by omega)).symm
    · exact (max_eq_right (by omega)).symm
  · have h1 := tdiv_nonpos_of_neg _ R h hR
    have h2 := Int.ediv_neg' h hR
    rw [if_pos (by omega)]
    exact (max_eq_left (by omega)).symm

/-- The upper clamp of the code is `min maxB ⌊hi / R⌋` when `hi` is not negative. -/
theorem clamp_high (R hi maxB : Int) (hR : 0 < R) (hhi : 0 ≤ hi) :
    (if Int.tdiv hi R > maxB then maxB else Int.tdiv hi R) = min maxB (hi / R) := by
  rw [Int.tdiv_eq_ediv hhi (by omega)]
  split_ifs with hc
  · exact (min_eq_left (by omega)).symm
  · exact (min_eq_right (by omega)).symm

/-- The clamped progression is the sum of `R * h` over the blocks `h` of
`[minB, maxB]` whose multiple `R * h` lies in `[lo, hi]`. -/
theorem series_eq_sum (R lo hi minB maxB : Int) (hR : 0 < R) (hmin : 1 ≤ minB) :
    series R lo hi minB maxB
      = ∑ h ∈ (Finset.Icc minB maxB).filter (fun h => lo ≤ R * h ∧ R * h ≤ hi), R * h := by
  rw [filter_blocks_eq R lo hi minB maxB hR]
  unfold series
  simp only
  rw [clamp_low R lo minB hR hmin]
  rcases lt_or_le hi 0 with hneg | hpos
  · have h1 := tdiv_nonpos_of_neg hi R hneg hR
    have h2 := Int.ediv_neg' hneg hR
    have h3 : minB ≤ max minB ((lo + R - 1) / R) := le_max_left _ _
    have h4 : (if Int.tdiv hi R > maxB then maxB else Int.tdiv hi R) ≤ 0 := by
      split_ifs with hc <;> omega
    have h5 : min maxB (hi / R) < 0 := lt_of_le_of_lt (min_le_right _ _) h2
    rw [if_pos (by omega), Finset.Icc_eq_empty (by omega)]
    simp
  · rw [clamp_high R hi maxB hR hpos]
    split_ifs with hc
    · rw [Finset.Icc_eq_empty (by omega)]
      simp
    · rw [sum_Icc_closed _ _ (by omega), Finset.mul_sum]

theorem pow10_sub_one_pos (m : Nat) (hm : 1 ≤ m) : (0 : Int) < 10 ^ m - 1 := by
  have : (10 : Int) ^ 1 ≤ 10 ^ m := pow_le_pow_right₀ (by norm_num) hm
  omega

theorem repFactor_pos (d m : Nat) (hm : 1 ≤ m) (hmd : m ≤ d) : 0 < repFactor d m := by
  have h1 := pow10_sub_one_pos m hm
  have h2 : (10 : Int) ^ m ≤ 10 ^ d := pow_le_pow_right₀ (by norm_num) hmd
  have : 1 ≤ repFactor d m := by
    unfold repFactor
    rw [Int.le_ediv_iff_mul_le h1]
    omega
  omega

theorem tdiv_pow10_ten (m : Nat) (hm : 1 ≤ m) : Int.tdiv ((10 : Int) ^ m) 10 = 10 ^ (m - 1) := by
  have : (10 : Int) ^ m = 10 ^ (m - 1) * 10 := by
    rw [← pow_succ]; congr 1; omega
  rw [this]
  exact Int.mul_tdiv_cancel _ (by norm_num)

/-- In exact arithmetic `sumAllRepeats` returns the clamped progression for the
repeat factor `(10^d - 1) / (10^m - 1)` and the `m`-digit blocks. -/
theorem sumAllRepeats_id (lo hi : Int) (d m : Nat) (hd : d ≤ 18) (hm : 1 ≤ m) (hmd : m ≤ d) :
    sumAllRepeats id lo hi d m
      = some (series (repFactor d m) lo hi (10 ^ (m - 1)) (10 ^ m - 1)) := by
  have hR := repFactor_pos d m hm hmd
  have hb := pow10_sub_one_pos m hm
  have hdpos : (0 : Int) < 10 ^ d := by positivity
  have hmpos : (0 : Int) < 10 ^ m := by positivity
  have hdm : (10 : Int) ^ m ≤ 10 ^ d := pow_le_pow_right₀ (by norm_num) hmd
  have hq : Int.tdiv ((10 : Int) ^ d - 1) (10 ^ m - 1) = repFactor d m :=
    Int.tdiv_eq_ediv (by omega) (by omega)
  unfold sumAllRepeats
  simp only [pow10_eq d hd, pow10_eq m (le_trans hmd hd), id_eq, quo, ceilDiv,
    if_neg (ne_of_gt hdpos), if_neg (ne_of_gt hmpos), if_neg (ne_of_gt hb), Option.map_some',
    Option.some_bind, hq, if_neg (ne_of_gt hR), tdiv_pow10_ten m hm]
  unfold series
  simp only
  split_ifs <;> rfl

section

open Classical

/-- Summing `R * h` over the admissible blocks is summing the members of
`[lo, hi]` that are `R` times a block. -/
theorem sum_blocks_reindex (R lo hi minB maxB : Int) (hR : 0 < R) :
    ∑ h ∈ (Finset.Icc minB maxB).filter (fun h => lo ≤ R * h ∧ R * h ≤ hi), R * h
      = ∑ n ∈ (Finset.Icc lo hi).filter (fun n => ∃ h, minB ≤ h ∧ h ≤ maxB ∧ n = R * h), n := by
  have himg : (Finset.Icc lo hi).filter (fun n => ∃ h, minB ≤ h ∧ h ≤ maxB ∧ n = R * h)
      = ((Finset.Icc minB maxB).filter (fun h => lo ≤ R * h ∧ R * h ≤ hi)).image (fun h => R * h) := by
    ext n
    simp only [Finset.mem_filter, Finset.mem_Icc, Finset.mem_image]
    constructor
    · rintro ⟨⟨h1, h2⟩, h, h3, h4, rfl⟩
      exact ⟨h, ⟨⟨h3, h4⟩, h1, h2⟩, rfl⟩
    · rintro ⟨h, ⟨⟨h3, h4⟩, h1, h2⟩, rfl⟩
      exact ⟨⟨h1, h2⟩, h, h3, h4, rfl⟩
  rw [himg, Finset.sum_image]
  intro a _ b _ hab
  exact mul_left_cancel₀ (ne_of_gt hR) hab

/-- A loop whose body adds `f d` to the running total adds the sum of `f` over
the values visited. -/
theorem foldlM_add (step : Int → Int → Option Int) (f : Int → Int) (l : List Int)
    (h : ∀ d ∈ l, ∀ t, step t d = some (t + f d)) :
    ∀ t, l.foldlM step t = some (t + (l.map f).sum) := by
  induction l with
  | nil => intro t; simp
  | cons a l ih =>
    intro t
    rw [List.foldlM_cons, h a (List.mem_cons_self _ _) t]
    simp only [Option.bind_eq_bind, Option.some_bind]
    rw [ih (fun d hd => h d (List.mem_cons_of_mem _ hd))]
    simp [add_assoc]

theorem isDoubleOf_bounds {k : Nat} {n : Int} (hk : 1 ≤ k) (h : IsDoubleOf k n) :
    10 ^ (2 * k - 1) ≤ n ∧ n < 10 ^ (2 * k) := by
  obtain ⟨b, hb1, hb2, rfl⟩ := h
  have hp : (0 : Int) < 10 ^ (k - 1) := by positivity
  have hq : (0 : Int) < 10 ^ k := by positivity
  have e1 : (10 : Int) ^ (2 * k - 1) = 10 ^ (k - 1) * 10 ^ k := by
    rw [← pow_add]; congr 1; omega
  have e2 : (10 : Int) ^ (2 * k) = 10 ^ k * 10 ^ k := by
    rw [← pow_add]; congr 1; omega
  rw [e1, e2]
  constructor <;> nlinarith

/-- In exact arithmetic one pass of the loop of `sumInvalidInRange` adds a
clamped progression. -/
theorem doubleStep_id (lo hi total d : Int) :
    doubleStep id lo hi total d
      = some (total + series (pow10 (Int.tdiv d 2) + 1) lo hi
          (Int.tdiv (pow10 (Int.tdiv d 2)) 10) (pow10 (Int.tdiv d 2) - 1)) := by
  have hnn : ∀ e : Int, 0 ≤ pow10 e := by
    intro e
    by_cases h : e < 0 ∨ 19 ≤ e
    · rw [(pow10_eq_zero_iff e).2 h]
    · push_neg at h
      obtain ⟨n, rfl⟩ := Int.eq_ofNat_of_zero_le h.1
      rw [pow10_eq n (by omega)]
      positivity
  have hne : pow10 (Int.tdiv d 2) + 1 ≠ 0 := by
    have := hnn (Int.tdiv d 2)
    omega
  unfold doubleStep series
  simp only [id_eq, quo, ceilDiv, if_neg hne, Option.map_some', Option.some_bind]
  split_ifs <;> simp

/-- The contribution of the even digit count `2 * k`. -/
theorem doubleStep_sum (lo hi : Int) (k : Nat) (hk : 1 ≤ k) (hk9 : k ≤ 9) :
    series (pow10 (Int.tdiv ((2 * k : Nat) : Int) 2) + 1) lo hi
        (Int.tdiv (pow10 (Int.tdiv ((2 * k : Nat) : Int) 2)) 10)
        (pow10 (Int.tdiv ((2 * k : Nat) : Int) 2) - 1)
      = ∑ n ∈ (Finset.Icc lo hi).filter (IsDoubleOf k), n := by
  have e : Int.tdiv ((2 * k : Nat) : Int) 2 = (k : Int) := by
    push_cast
    rw [mul_comm]
    exact Int.mul_tdiv_cancel _ (by norm_num)
  have hq : (0 : Int) < 10 ^ k := by positivity
  have hp : (0 : Int) < 10 ^ (k - 1) := by positivity
  rw [e, pow10_eq k (by omega), tdiv_pow10_ten k hk,
    series_eq_sum _ lo hi _ _ (by omega) (by omega),
    sum_blocks_reindex _ lo hi _ _ (by omega)]
  apply Finset.sum_congr _ (fun _ _ => rfl)
  ext n
  simp only [Finset.mem_filter, IsDoubleOf]
  constructor
  · rintro ⟨h1, b, h2, h3, h4⟩
    exact ⟨h1, b, h2, h3, by rw [h4]; ring⟩
  · rintro ⟨h1, b, h2, h3, h4⟩
    exact ⟨h1, b, h2, h3, by rw [h4]; ring⟩

/-- The even digit counts `2, 4, ..., 2 * K` together contribute the doubles of
block length at most `K`. -/
theorem doubleLoop_sum (lo hi : Int) (K : Nat) (hK : K ≤ 9) :
    ((((List.range' 2 K 2).map Int.ofNat).map (fun d : Int =>
        series (pow10 (Int.tdiv d 2) + 1) lo hi (Int.tdiv (pow10 (Int.tdiv d 2)) 10)
          (pow10 (Int.tdiv d 2) - 1))).sum)
      = ∑ n ∈ (Finset.Icc lo hi).filter (fun n => ∃ k : Nat, 1 ≤ k ∧ k ≤ K ∧ IsDoubleOf k n), n := by
  induction K with
  | zero =>
    simp only [List.range'_zero, List.map_nil, List.sum_nil]
    symm
    apply Finset.sum_eq_zero
    intro n hn
    simp only [Finset.mem_filter] at hn
    obtain ⟨_, k, h1, h2, _⟩ := hn
    omega
  | succ K ih =>
    rw [List.range'_concat, List.map_append, List.map_append, List.sum_append, ih (by omega)]
    simp only [List.map_cons, List.map_nil, List.sum_cons, List.sum_nil, add_zero]
    have e : Int.ofNat (2 + 2 * K) = ((2 * (K + 1) : Nat) : Int) := by
      simp only [Int.ofNat_eq_coe]; congr 1; ring
    rw [e, doubleStep_sum lo hi (K + 1) (by omega) hK, Finset.sum_filter, Finset.sum_filter,
      Finset.sum_filter, ← Finset.sum_add_distrib]
    apply Finset.sum_congr rfl
    intro n _
    by_cases hQ : IsDoubleOf (K + 1) n
    · have hP : ¬ ∃ k : Nat, 1 ≤ k ∧ k ≤ K ∧ IsDoubleOf k n := by
        rintro ⟨k, h1, h2, h3⟩
        have b1 := isDoubleOf_bounds h1 h3
        have b2 := isDoubleOf_bounds (by omega) hQ
        have : (10 : Int) ^ (2 * k) ≤ 10 ^ (2 * (K + 1) - 1) :=
          pow_le_pow_right₀ (by norm_num) (by omega)
        omega
      have hR : ∃ k : Nat, 1 ≤ k ∧ k ≤ K + 1 ∧ IsDoubleOf k n := ⟨K + 1, by omega, le_rfl, hQ⟩
      rw [if_neg hP, if_pos hQ, if_pos hR, zero_add]
    · by_cases hP : ∃ k : Nat, 1 ≤ k ∧ k ≤ K ∧ IsDoubleOf k n
      · have hR : ∃ k : Nat, 1 ≤ k ∧ k ≤ K + 1 ∧ IsDoubleOf k n := by
          obtain ⟨k, h1, h2, h3⟩ := hP
          exact ⟨k, h1, by omega, h3⟩
        rw [if_pos hP, if_neg hQ, if_pos hR, add_zero]
      · have hR : ¬ ∃ k : Nat, 1 ≤ k ∧ k ≤ K + 1 ∧ IsDoubleOf k n := by
          rintro ⟨k, h1, h2, h3⟩
          rcases Nat.lt_or_ge k (K + 1) with h | h
          · exact hP ⟨k, h1, by omega, h3⟩
          · have : k = K + 1 := by omega
            subst this
            exact hQ h3
        rw [if_neg hP, if_neg hQ, if_neg hR, add_zero]

/-- For `1 ≤ hi < 10^18` the clamped digit count is the number of digits. -/
theorem clampDigits_eq (hi : Int) (k : Nat) (h1 : 10 ^ (k - 1) ≤ hi) (h2 : hi < 10 ^ k)
    (hk : k ≤ 18) : clampDigits hi = k := by
  have hlen : (pow10Table.length : Int) = 19 := by decide
  unfold clampDigits
  simp only [countDigits_eq hi k h1 h2, hlen]
  rw [if_neg (by omega)]

/-- The digit count of an integer in `[1, 10^18)` is at most 18. -/
theorem digit_count_le (x : Int) (k : Nat) (h1 : 10 ^ (k - 1) ≤ x) (hx : x < 10 ^ 18) :
    k ≤ 18 := by
  by_contra hc
  have : (10 : Int) ^ 18 ≤ 10 ^ (k - 1) := pow_le_pow_right₀ (by norm_num) (by omega)
  omega

/-- The exact-double counter: for `1 ≤ lo ≤ hi < 10^18`, in exact integer
arithmetic, `sumInvalidInRange lo hi` returns the sum of the integers `n` of
`[lo, hi]` of the form `h * (10^k + 1)` with `k ≥ 1` and `10^(k-1) ≤ h ≤ 10^k - 1`. -/
theorem sumInvalidInRange_correct (lo hi : Int) (hlo : 1 ≤ lo) (hle : lo ≤ hi)
    (hhi : hi < 10 ^ 18) :
    sumInvalidInRange id lo hi = some (∑ n ∈ (Finset.Icc lo hi).filter IsDouble, n) := by
  obtain ⟨D, hD1, hD2, hD3⟩ := exists_digit_count hi (by omega)
  have hD18 := digit_count_le hi D hD2 hhi
  have hK : (Int.tdiv (clampDigits hi) 2).toNat = D / 2 := by
    rw [clampDigits_eq hi D hD2 hD3 hD18, Int.tdiv_eq_ediv (by omega) (by norm_num)]
    omega
  unfold sumInvalidInRange
  rw [hK, foldlM_add _ _ _ (fun d _ t => doubleStep_id lo hi t d), zero_add,
    doubleLoop_sum lo hi (D / 2) (by omega)]
  congr 1
  apply Finset.sum_congr _ (fun _ _ => rfl)
  ext n
  simp only [Finset.mem_filter, Finset.mem_Icc, IsDouble]
  constructor
  · rintro ⟨h1, k, h2, _, h3⟩
    exact ⟨h1, k, h2, h3⟩
  · rintro ⟨h1, k, h2, h3⟩
    refine ⟨h1, k, h2, ?_, h3⟩
    have b := isDoubleOf_bounds h2 h3
    have hlt : (10 : Int) ^ (2 * k - 1) < 10 ^ D := by omega
    have := (pow_lt_pow_iff_right₀ (by norm_num : (1 : Int) < 10)).1 hlt
    omega

end

/-! ## Stepping the loops of `sumInvalidAtLeastTwice` -/

theorem rawLoop_nil (w : Int → Int) (lo hi d : Int) (raw : Int → Int) :
    rawLoop w lo hi d [] raw = some raw := rfl

theorem subLoop_nil (w : Int → Int) (d m : Int) (exact : Int → Int) (val : Int) :
    subLoop w d m exact [] val = some val := rfl

theorem exactLoop_nil (w : Int → Int) (d : Int) (divs : List Int) (raw exact : Int → Int)
    (total : Int) : exactLoop w d divs raw [] exact total = some (exact, total) := rfl

theorem rawLoop_skip (w : Int → Int) (lo hi d m : Int) (rest : List Int) (raw : Int → Int)
    (hm : m ≠ 0) (h : Int.tdiv d m < 2) :
    rawLoop w lo hi d (m :: rest) raw = rawLoop w lo hi d rest raw := by
  simp [rawLoop, quo, hm, h]

theorem rawLoop_take (w : Int → Int) (lo hi d m : Int) (rest : List Int) (raw : Int → Int)
    (hm : m ≠ 0) (h : ¬ Int.tdiv d m < 2) :
    rawLoop w lo hi d (m :: rest) raw
      = (sumAllRepeats w lo hi d m).bind fun v =>
          rawLoop w lo hi d rest (Function.update raw m v) := by
  simp [rawLoop, quo, hm, h]

theorem subLoop_break (w : Int → Int) (d m sub : Int) (exact : Int → Int) (rest : List Int)
    (val : Int) (h : sub ≥ m) : subLoop w d m exact (sub :: rest) val = some val := by
  simp [subLoop, h]

theorem subLoop_sub (w : Int → Int) (d m sub : Int) (exact : Int → Int) (rest : List Int)
    (val : Int) (h : ¬ sub ≥ m) (hs : sub ≠ 0)
    (hc : Int.tmod m sub = 0 ∧ Int.tmod d sub = 0 ∧ Int.tdiv d sub ≥ 2) :
    subLoop w d m exact (sub :: rest) val
      = subLoop w d m exact rest (w (val - exact sub)) := by
  simp [subLoop, rem, quo, h, hs, hc.1, hc.2.1, hc.2.2]

theorem subLoop_skip (w : Int → Int) (d m sub : Int) (exact : Int → Int) (rest : List Int)
    (val : Int) (h : ¬ sub ≥ m) (hs : sub ≠ 0)
    (hc : ¬ (Int.tmod m sub = 0 ∧ Int.tmod d sub = 0 ∧ Int.tdiv d sub ≥ 2)) :
    subLoop w d m exact (sub :: rest) val = subLoop w d m exact rest val := by
  simp only [subLoop, rem, quo, if_neg h, if_neg hs, Option.some_bind]
  by_cases h1 : Int.tmod m sub = 0
  · by_cases h2 : Int.tmod d sub = 0
    · have h3 : ¬ Int.tdiv d sub ≥ 2 := fun h3 => hc ⟨h1, h2, h3⟩
      simp [h1, h2, h3]
    · simp [h1, h2]
  · simp [h1]

theorem exactLoop_skip (w : Int → Int) (d m : Int) (divs rest : List Int) (raw exact : Int → Int)
    (total : Int) (hm : m ≠ 0) (h : Int.tdiv d m < 2) :
    exactLoop w d divs raw (m :: rest) exact total = exactLoop w d divs raw rest exact total := by
  simp [exactLoop, quo, hm, h]

theorem exactLoop_take (w : Int → Int) (d m : Int) (divs rest : List Int) (raw exact : Int → Int)
    (total : Int) (hm : m ≠ 0) (h : ¬ Int.tdiv d m < 2) :
    exactLoop w d divs raw (m :: rest) exact total
      = (subLoop w d m exact divs (raw m)).bind fun val =>
          exactLoop w d divs raw rest (Function.update exact m val) (w (total + val)) := by
  simp [exactLoop, quo, hm, h]

section

open Classical

/-! ## Integers made of a repeated block -/

theorem pow10_sub_one_dvd (m d : Nat) (h : m ∣ d) : ((10 : Int) ^ m - 1) ∣ (10 ^ d - 1) := by
  obtain ⟨r, rfl⟩ := h
  rw [pow_mul]
  exact sub_one_dvd_pow_sub_one _ _

theorem repFactor_mul (d m : Nat) (h : m ∣ d) : repFactor d m * (10 ^ m - 1) = 10 ^ d - 1 :=
  Int.ediv_mul_cancel (pow10_sub_one_dvd m d h)

/-- The repeat factor is the geometric sum `1 + 10^m + ... + 10^((r-1) m)`. -/
theorem repFactor_eq_geom (m r : Nat) (hm : 1 ≤ m) :
    repFactor (m * r) m = ∑ i ∈ Finset.range r, (10 ^ m) ^ i := by
  have h1 := repFactor_mul (m * r) m (dvd_mul_right m r)
  have h2 := geom_sum_mul ((10 : Int) ^ m) r
  rw [← pow_mul, ← h1] at h2
  exact (mul_right_cancel₀ (ne_of_gt (pow10_sub_one_pos m hm)) h2).symm

/-- Membership in `Blk d m` is having `d` digits and being a multiple of the
repeat factor. -/
theorem blk_iff_dvd (d m : Nat) (n : Int) (hm : 1 ≤ m) (hd : 1 ≤ d) (hdvd : m ∣ d) :
    Blk d m n ↔ (10 ^ (d - 1) ≤ n ∧ n < 10 ^ d ∧ repFactor d m ∣ n) := by
  have hmd : m ≤ d := Nat.le_of_dvd (by omega) hdvd
  have hR := repFactor_pos d m hm hmd
  have hRB := repFactor_mul d m hdvd
  have eB : (10 : Int) ^ m = 10 * 10 ^ (m - 1) := by
    rw [← pow_succ']; congr 1; omega
  have eT : (10 : Int) ^ d = 10 * 10 ^ (d - 1) := by
    rw [← pow_succ']; congr 1; omega
  have hb : (0 : Int) < 10 ^ (m - 1) := by positivity
  have ht : (0 : Int) < 10 ^ (d - 1) := by positivity
  rw [eB] at hRB
  rw [eT] at hRB
  unfold Blk
  rw [eB, eT]
  generalize (10 : Int) ^ (m - 1) = b at *
  generalize (10 : Int) ^ (d - 1) = t at *
  generalize repFactor d m = R at *
  constructor
  · rintro ⟨h, h1, h2, rfl⟩
    refine ⟨?_, ?_, Dvd.intro _ rfl⟩
    · nlinarith
    · nlinarith
  · rintro ⟨h1, h2, c, rfl⟩
    refine ⟨c, ?_, ?_, rfl⟩
    · by_contra hc
      push_neg at hc
      nlinarith
    · by_contra hc
      push_neg at hc
      nlinarith

/-- A block of `m` digits repeated is also a block of `a` digits repeated, when
`m` divides `a` and `a` divides `d`. -/
theorem blk_mono (d m a : Nat) (n : Int) (hm : 1 ≤ m) (hd : 1 ≤ d) (hma : m ∣ a) (had : a ∣ d)
    (h : Blk d m n) : Blk d a n := by
  have ha : 1 ≤ a := by
    rcases Nat.eq_zero_or_pos a with h0 | h0
    · subst h0
      have := Nat.eq_zero_of_zero_dvd had
      omega
    · exact h0
  rw [blk_iff_dvd d m n hm hd (dvd_trans hma had)] at h
  rw [blk_iff_dvd d a n ha hd had]
  refine ⟨h.1, h.2.1, dvd_trans ?_ h.2.2⟩
  obtain ⟨c, hc⟩ := pow10_sub_one_dvd m a hma
  have h1 := repFactor_mul d m (dvd_trans hma had)
  have h2 := repFactor_mul d a had
  rw [hc] at h2
  refine ⟨c, ?_⟩
  have h3 : repFactor d m * (10 ^ m - 1) = (repFactor d a * c) * (10 ^ m - 1) := by
    rw [h1, ← h2]; ring
  exact mul_right_cancel₀ (ne_of_gt (pow10_sub_one_pos m hm)) h3

/-- Two block lengths combine into the block length whose repeat factor divides
the least common multiple of theirs. -/
theorem blk_meet (d a b g : Nat) (n : Int) (ha : 1 ≤ a) (hb : 1 ≤ b) (hg : 1 ≤ g) (hd : 1 ≤ d)
    (had : a ∣ d) (hbd : b ∣ d) (hgd : g ∣ d)
    (hl : repFactor d g ∣ (Int.lcm (repFactor d a) (repFactor d b) : Int))
    (h1 : Blk d a n) (h2 : Blk d b n) : Blk d g n := by
  rw [blk_iff_dvd d a n ha hd had] at h1
  rw [blk_iff_dvd d b n hb hd hbd] at h2
  rw [blk_iff_dvd d g n hg hd hgd]
  exact ⟨h1.1, h1.2.1, dvd_trans hl (Int.lcm_dvd h1.2.2 h2.2.2)⟩

/-- In exact arithmetic `sumAllRepeats` returns the sum of the members of
`[lo, hi]` that are an `m`-digit block repeated to `d` digits. -/
theorem sumAllRepeats_blk (lo hi : Int) (d m : Nat) (hd : d ≤ 18) (hm : 1 ≤ m) (hmd : m ≤ d) :
    sumAllRepeats id lo hi d m = some (∑ n ∈ (Finset.Icc lo hi).filter (Blk d m), n) := by
  have hp : (0 : Int) < 10 ^ (m - 1) := by positivity
  rw [sumAllRepeats_id lo hi d m hd hm hmd,
    series_eq_sum _ lo hi _ _ (repFactor_pos d m hm hmd) (by omega),
    sum_blocks_reindex _ lo hi _ _ (repFactor_pos d m hm hmd)]
  rfl

/-! ## One digit length at a time -/

/-- Inclusion and exclusion for two block lengths. -/
theorem sum_filter_two (s : Finset Int) (P A B G : Int → Prop)
    (hP : ∀ n, P n ↔ A n ∨ B n) (hG : ∀ n, G n ↔ A n ∧ B n) :
    ∑ n ∈ s.filter A, n + ∑ n ∈ s.filter B, n - ∑ n ∈ s.filter G, n = ∑ n ∈ s.filter P, n := by
  simp only [Finset.sum_filter]
  rw [← Finset.sum_add_distrib, ← Finset.sum_sub_distrib]
  apply Finset.sum_congr rfl
  intro n _
  by_cases hA : A n <;> by_cases hB : B n <;> simp [hP, hG, hA, hB]

theorem sum_filter_one (s : Finset Int) (P A : Int → Prop) (hP : ∀ n, P n ↔ A n) :
    ∑ n ∈ s.filter A, n = ∑ n ∈ s.filter P, n := by
  apply Finset.sum_congr _ (fun _ _ => rfl)
  ext n
  simp [hP]

/-- Digit length 2: the loop body adds the 2-digit repeated blocks of `[lo, hi]`
(block length 1 covers all). -/
theorem blockStep_d2 (lo hi total : Int) :
    blockStep id lo hi total 2
      = some (total + ∑ n ∈ (Finset.Icc lo hi).filter (Rep 2), n) := by
  have hd : divisors 2 = some [1, 2] := by decide
  have e1 := sumAllRepeats_blk lo hi 2 1 (by decide) (by decide) (by decide)
  simp only [Nat.cast_ofNat, Nat.cast_one] at e1
  have hrep : ∀ n, Rep 2 n ↔ Blk 2 1 n := by
    intro n
    constructor
    · rintro ⟨m, h1, h2, h3, h4⟩
      interval_cases m
      all_goals first
        | exact absurd h3 (by decide)
        | exact blk_mono 2 _ 1 n (by decide) (by decide) (by decide) (by decide) h4
    · intro h
      exact ⟨1, by decide, by decide, by decide, h⟩
  simp (disch := decide) only [blockStep, hd, Option.some_bind, rawLoop_skip, rawLoop_take,
    rawLoop_nil, e1, exactLoop_skip, exactLoop_take, exactLoop_nil,
    subLoop_break, subLoop_sub, subLoop_skip, subLoop_nil, Function.update_same,
    Function.update_noteq, id_eq, Option.map_some']
  rw [← sum_filter_one (Finset.Icc lo hi) (Rep 2) (Blk 2 1) hrep]

/-- Digit length 3: the loop body adds the 3-digit repeated blocks of `[lo, hi]`
(block length 1 covers all). -/
theorem blockStep_d3 (lo hi total : Int) :
    blockStep id lo hi total 3
      = some (total + ∑ n ∈ (Finset.Icc lo hi).filter (Rep 3), n) := by
  have hd : divisors 3 = some [1, 3] := by decide
  have e1 := sumAllRepeats_blk lo hi 3 1 (by decide) (by decide) (by decide)
  simp only [Nat.cast_ofNat, Nat.cast_one] at e1
  have hrep : ∀ n, Rep 3 n ↔ Blk 3 1 n := by
    intro n
    constructor
    · rintro ⟨m, h1, h2, h3, h4⟩
      interval_cases m
      all_goals first
        | exact absurd h3 (by decide)
        | exact blk_mono 3 _ 1 n (by decide) (by decide) (by decide) (by decide) h4
    · intro h
      exact ⟨1, by decide, by decide, by decide, h⟩
  simp (disch := decide) only [blockStep, hd, Option.some_bind, rawLoop_skip, rawLoop_take,
    rawLoop_nil, e1, exactLoop_skip, exactLoop_take, exactLoop_nil,
    subLoop_break, subLoop_sub, subLoop_skip, subLoop_nil, Function.update_same,
    Function.update_noteq, id_eq, Option.map_some']
  rw [← sum_filter_one (Finset.Icc lo hi) (Rep 3) (Blk 3 1) hrep]

/-- Digit length 4: the loop body adds the 4-digit repeated blocks of `[lo, hi]`
(block length 2 covers all). -/
theorem blockStep_d4 (lo hi total : Int) :
    blockStep id lo hi total 4
      = some (total + ∑ n ∈ (Finset.Icc lo hi).filter (Rep 4), n) := by
  have hd : divisors 4 = some [1, 2, 4] := by decide
  have e1 := sumAllRepeats_blk lo hi 4 1 (by decide) (by decide) (by decide)
  have e2 := sumAllRepeats_blk lo hi 4 2 (by decide) (by decide) (by decide)
  simp only [Nat.cast_ofNat, Nat.cast_one] at e1 e2
  have hrep : ∀ n, Rep 4 n ↔ Blk 4 2 n := by
    intro n
    constructor
    · rintro ⟨m, h1, h2, h3, h4⟩
      interval_cases m
      all_goals first
        | exact absurd h3 (by decide)
        | exact blk_mono 4 _ 2 n (by decide) (by decide) (by decide) (by decide) h4
    · intro h
      exact ⟨2, by decide, by decide, by decide, h⟩
  simp (disch := decide) only [blockStep, hd, Option.some_bind, rawLoop_skip, rawLoop_take,
    rawLoop_nil, e1, e2, exactLoop_skip, exactLoop_take, exactLoop_nil,
    subLoop_break, subLoop_sub, subLoop_skip, subLoop_nil, Function.update_same,
    Function.update_noteq, id_eq, Option.map_some']
  rw [← sum_filter_one (Finset.Icc lo hi) (Rep 4) (Blk 4 2) hrep]
  congr 1
  ring

/-- Digit length 5: the loop body adds the 5-digit repeated blocks of `[lo, hi]`
(block length 1 covers all). -/
theorem blockStep_d5 (lo hi total : Int) :
    blockStep id lo hi total 5
      = some (total + ∑ n ∈ (Finset.Icc lo hi).filter (Rep 5), n) := by
  have hd : divisors 5 = some [1, 5] := by decide
  have e1 := sumAllRepeats_blk lo hi 5 1 (by decide) (by decide) (by decide)
  simp only [Nat.cast_ofNat, Nat.cast_one] at e1
  have hrep : ∀ n, Rep 5 n ↔ Blk 5 1 n := by
    intro n
    constructor
    · rintro ⟨m, h1, h2, h3, h4⟩
      interval_cases m
      all_goals first
        | exact absurd h3 (by decide)
        | exact blk_mono 5 _ 1 n (by decide) (by decide) (by decide) (by decide) h4
    · intro h
      exact ⟨1, by decide, by decide, by decide, h⟩
  simp (disch := decide) only [blockStep, hd, Option.some_bind, rawLoop_skip, rawLoop_take,
    rawLoop_nil, e1, exactLoop_skip, exactLoop_take, exactLoop_nil,
    subLoop_break, subLoop_sub, subLoop_skip, subLoop_nil, Function.update_same,
    Function.update_noteq, id_eq, Option.map_some']
  rw [← sum_filter_one (Finset.Icc lo hi) (Rep 5) (Blk 5 1) hrep]

/-- Digit length 6: the loop body adds the 6-digit repeated blocks of `[lo, hi]`
(block lengths 2 and 3 cover all, their overlap is block length 1). -/
theorem blockStep_d6 (lo hi total : Int) :
    blockStep id lo hi total 6
      = some (total + ∑ n ∈ (Finset.Icc lo hi).filter (Rep 6), n) := by
  have hd : divisors 6 = some [1, 2, 3, 6] := by decide
  have e1 := sumAllRepeats_blk lo hi 6 1 (by decide) (by decide) (by decide)
  have e2 := sumAllRepeats_blk lo hi 6 2 (by decide) (by decide) (by decide)
  have e3 := sumAllRepeats_blk lo hi 6 3 (by decide) (by decide) (by decide)
  simp only [Nat.cast_ofNat, Nat.cast_one] at e1 e2 e3
  have hrep : ∀ n, Rep 6 n ↔ Blk 6 2 n ∨ Blk 6 3 n := by
    intro n
    constructor
    · rintro ⟨m, h1, h2, h3, h4⟩
      interval_cases m
      all_goals first
        | exact absurd h3 (by decide)
        | exact Or.inl (blk_mono 6 _ 2 n (by decide) (by decide) (by decide) (by decide) h4)
        | exact Or.inr (blk_mono 6 _ 3 n (by decide) (by decide) (by decide) (by decide) h4)
    · rintro (h | h)
      · exact ⟨2, by decide, by decide, by decide, h⟩
      · exact ⟨3, by decide, by decide, by decide, h⟩
  have hmeet : ∀ n, Blk 6 1 n ↔ Blk 6 2 n ∧ Blk 6 3 n := by
    intro n
    constructor
    · intro h
      exact ⟨blk_mono 6 1 2 n (by decide) (by decide) (by decide) (by decide) h,
        blk_mono 6 1 3 n (by decide) (by decide) (by decide) (by decide) h⟩
    · rintro ⟨h1, h2⟩
      exact blk_meet 6 2 3 1 n (by decide) (by decide) (by decide) (by decide) (by decide)
        (by decide) (by decide) (by decide) h1 h2
  simp (disch := decide) only [blockStep, hd, Option.some_bind, rawLoop_skip, rawLoop_take,
    rawLoop_nil, e1, e2, e3, exactLoop_skip, exactLoop_take, exactLoop_nil,
    subLoop_break, subLoop_sub, subLoop_skip, subLoop_nil, Function.update_same,
    Function.update_noteq, id_eq, Option.map_some']
  rw [← sum_filter_two (Finset.Icc lo hi) (Rep 6) (Blk 6 2) (Blk 6 3) (Blk 6 1) hrep hmeet]
  congr 1
  ring

/-- Digit length 7: the loop body adds the 7-digit repeated blocks of `[lo, hi]`
(block length 1 covers all). -/
theorem blockStep_d7 (lo hi total : Int) :
    blockStep id lo hi total 7
      = some (total + ∑ n ∈ (Finset.Icc lo hi).filter (Rep 7), n) := by
  have hd : divisors 7 = some [1, 7] := by decide
  have e1 := sumAllRepeats_blk lo hi 7 1 (by decide) (by decide) (by decide)
  simp only [Nat.cast_ofNat, Nat.cast_one] at e1
  have hrep : ∀ n, Rep 7 n ↔ Blk 7 1 n := by
    intro n
    constructor
    · rintro ⟨m, h1, h2, h3, h4⟩
      interval_cases m
      all_goals first
        | exact absurd h3 (by decide)
        | exact blk_mono 7 _ 1 n (by decide) (by decide) (by decide) (by decide) h4
    · intro h
      exact ⟨1, by decide, by decide, by decide, h⟩
  simp (disch := decide) only [blockStep, hd, Option.some_bind, rawLoop_skip, rawLoop_take,
    rawLoop_nil, e1, exactLoop_skip, exactLoop_take, exactLoop_nil,
    subLoop_break, subLoop_sub, subLoop_skip, subLoop_nil, Function.update_same,
    Function.update_noteq, id_eq, Option.map_some']
  rw [← sum_filter_one (Finset.Icc lo hi) (Rep 7) (Blk 7 1) hrep]

/-- Digit length 8: the loop body adds the 8-digit repeated blocks of `[lo, hi]`
(block length 4 covers all). -/
theorem blockStep_d8 (lo hi total : Int) :
    blockStep id lo hi total 8
      = some (total + ∑ n ∈ (Finset.Icc lo hi).filter (Rep 8), n) := by
  have hd : divisors 8 = some [1, 2, 4, 8] := by decide
  have e1 := sumAllRepeats_blk lo hi 8 1 (by decide) (by decide) (by decide)
  have e2 := sumAllRepeats_blk lo hi 8 2 (by decide) (by decide) (by decide)
  have e4 := sumAllRepeats_blk lo hi 8 4 (by decide) (by decide) (by decide)
  simp only [Nat.cast_ofNat, Nat.cast_one] at e1 e2 e4
  have hrep : ∀ n, Rep 8 n ↔ Blk 8 4 n := by
    intro n
    constructor
    · rintro ⟨m, h1, h2, h3, h4⟩
      interval_cases m
      all_goals first
        | exact absurd h3 (by decide)
        | exact blk_mono 8 _ 4 n (by decide) (by decide) (by decide) (by decide) h4
    · intro h
      exact ⟨4, by decide, by decide, by decide, h⟩
  simp (disch := decide) only [blockStep, hd, Option.some_bind, rawLoop_skip, rawLoop_take,
    rawLoop_nil, e1, e2, e4, exactLoop_skip, exactLoop_take, exactLoop_nil,
    subLoop_break, subLoop_sub, subLoop_skip, subLoop_nil, Function.update_same,
    Function.update_noteq, id_eq, Option.map_some']
  rw [← sum_filter_one (Finset.Icc lo hi) (Rep 8) (Blk 8 4) hrep]
  congr 1
  ring

/-- Digit length 9: the loop body adds the 9-digit repeated blocks of `[lo, hi]`
(block length 3 covers all). -/
theorem blockStep_d9 (lo hi total : Int) :
    blockStep id lo hi total 9
      = some (total + ∑ n ∈ (Finset.Icc lo hi).filter (Rep 9), n) := by
  have hd : divisors 9 = some [1, 3, 9] := by decide
  have e1 := sumAllRepeats_blk lo hi 9 1 (by decide) (by decide) (by decide)
  have e3 := sumAllRepeats_blk lo hi 9 3 (by decide) (by decide) (by decide)
  simp only [Nat.cast_ofNat, Nat.cast_one] at e1 e3
  have hrep : ∀ n, Rep 9 n ↔ Blk 9 3 n := by
    intro n
    constructor
    · rintro ⟨m, h1, h2, h3, h4⟩
      interval_cases m
      all_goals first
        | exact absurd h3 (by decide)
        | exact blk_mono 9 _ 3 n (by decide) (by decide) (by decide) (by decide) h4
    · intro h
      exact ⟨3, by decide, by decide, by decide, h⟩
  simp (disch := decide) only [blockStep, hd, Option.some_bind, rawLoop_skip, rawLoop_take,
    rawLoop_nil, e1, e3, exactLoop_skip, exactLoop_take, exactLoop_nil,
    subLoop_break, subLoop_sub, subLoop_skip, subLoop_nil, Function.update_same,
    Function.update_noteq, id_eq, Option.map_some']
  rw [← sum_filter_one (Finset.Icc lo hi) (Rep 9) (Blk 9 3) hrep]
  congr 1
  ring

/-- Digit length 10: the loop body adds the 10-digit repeated blocks of `[lo, hi]`
(block lengths 2 and 5 cover all, their overlap is block length 1). -/
theorem blockStep_d10 (lo hi total : Int) :
    blockStep id lo hi total 10
      = some (total + ∑ n ∈ (Finset.Icc lo hi).filter (Rep 10), n) := by
  have hd : divisors 10 = some [1, 2, 5, 10] := by decide
  have e1 := sumAllRepeats_blk lo hi 10 1 (by decide) (by decide) (by decide)
  have e2 := sumAllRepeats_blk lo hi 10 2 (by decide) (by decide) (by decide)
  have e5 := sumAllRepeats_blk lo hi 10 5 (by decide) (by decide) (by decide)
  simp only [Nat.cast_ofNat, Nat.cast_one] at e1 e2 e5
  have hrep : ∀ n, Rep 10 n ↔ Blk 10 2 n ∨ Blk 10 5 n := by
    intro n
    constructor
    · rintro ⟨m, h1, h2, h3, h4⟩
      interval_cases m
      all_goals first
        | exact absurd h3 (by decide)
        | exact Or.inl (blk_mono 10 _ 2 n (by decide) (by decide) (by decide) (by decide) h4)
        | exact Or.inr (blk_mono 10 _ 5 n (by decide) (by decide) (by decide) (by decide) h4)
    · rintro (h | h)
      · exact ⟨2, by decide, by decide, by decide, h⟩
      · exact ⟨5, by decide, by decide, by decide, h⟩
  have hmeet : ∀ n, Blk 10 1 n ↔ Blk 10 2 n ∧ Blk 10 5 n := by
    intro n
    constructor
    · intro h
      exact ⟨blk_mono 10 1 2 n (by decide) (by decide) (by decide) (by decide) h,
        blk_mono 10 1 5 n (by decide) (by decide) (by decide) (by decide) h⟩
    · rintro ⟨h1, h2⟩
      exact blk_meet 10 2 5 1 n (by decide) (by decide) (by decide) (by decide) (by decide)
        (by decide) (by decide) (by decide) h1 h2
  simp (disch := decide) only [blockStep, hd, Option.some_bind, rawLoop_skip, rawLoop_take,
    rawLoop_nil, e1, e2, e5, exactLoop_skip, exactLoop_take, exactLoop_nil,
    subLoop_break, subLoop_sub, subLoop_skip, subLoop_nil, Function.update_same,
    Function.update_noteq, id_eq, Option.map_some']
  rw [← sum_filter_two (Finset.Icc lo hi) (Rep 10) (Blk 10 2) (Blk 10 5) (Blk 10 1) hrep hmeet]
  congr 1
  ring

/-- Digit length 11: the loop body adds the 11-digit repeated blocks of `[lo, hi]`
(block length 1 covers all). -/
theorem blockStep_d11 (lo hi total : Int) :
    blockStep id lo hi total 11
      = some (total + ∑ n ∈ (Finset.Icc lo hi).filter (Rep 11), n) := by
  have hd : divisors 11 = some [1, 11] := by decide
  have e1 := sumAllRepeats_blk lo hi 11 1 (by decide) (by decide) (by decide)
  simp only [Nat.cast_ofNat, Nat.cast_one] at e1
  have hrep : ∀ n, Rep 11 n ↔ Blk 11 1 n := by
    intro n
    constructor
    · rintro ⟨m, h1, h2, h3, h4⟩
      interval_cases m
      all_goals first
        | exact absurd h3 (by decide)
        | exact blk_mono 11 _ 1 n (by decide) (by decide) (by decide) (by decide) h4
    · intro h
      exact ⟨1, by decide, by decide, by decide, h⟩
  simp (disch := decide) only [blockStep, hd, Option.some_bind, rawLoop_skip, rawLoop_take,
    rawLoop_nil, e1, exactLoop_skip, exactLoop_take, exactLoop_nil,
    subLoop_break, subLoop_sub, subLoop_skip, subLoop_nil, Function.update_same,
    Function.update_noteq, id_eq, Option.map_some']
  rw [← sum_filter_one (Finset.Icc lo hi) (Rep 11) (Blk 11 1) hrep]

/-- Digit length 12: the loop body adds the 12-digit repeated blocks of `[lo, hi]`
(block lengths 4 and 6 cover all, their overlap is block length 2). -/
theorem blockStep_d12 (lo hi total : Int) :
    blockStep id lo hi total 12
      = some (total + ∑ n ∈ (Finset.Icc lo hi).filter (Rep 12), n) := by
  have hd : divisors 12 = some [1, 2, 3, 4, 6, 12] := by decide
  have e1 := sumAllRepeats_blk lo hi 12 1 (by decide) (by decide) (by decide)
  have e2 := sumAllRepeats_blk lo hi 12 2 (by decide) (by decide) (by decide)
  have e3 := sumAllRepeats_blk lo hi 12 3 (by decide) (by decide) (by decide)
  have e4 := sumAllRepeats_blk lo hi 12 4 (by decide) (by decide) (by decide)
  have e6 := sumAllRepeats_blk lo hi 12 6 (by decide) (by decide) (by decide)
  simp only [Nat.cast_ofNat, Nat.cast_one] at e1 e2 e3 e4 e6
  have hrep : ∀ n, Rep 12 n ↔ Blk 12 4 n ∨ Blk 12 6 n := by
    intro n
    constructor
    · rintro ⟨m, h1, h2, h3, h4⟩
      interval_cases m
      all_goals first
        | exact absurd h3 (by decide)
        | exact Or.inl (blk_mono 12 _ 4 n (by decide) (by decide) (by decide) (by decide) h4)
        | exact Or.inr (blk_mono 12 _ 6 n (by decide) (by decide) (by decide) (by decide) h4)
    · rintro (h | h)
      · exact ⟨4, by decide, by decide, by decide, h⟩
      · exact ⟨6, by decide, by decide, by decide, h⟩
  have hmeet : ∀ n, Blk 12 2 n ↔ Blk 12 4 n ∧ Blk 12 6 n := by
    intro n
    constructor
    · intro h
      exact ⟨blk_mono 12 2 4 n (by decide) (by decide) (by decide) (by decide) h,
        blk_mono 12 2 6 n (by decide) (by decide) (by decide) (by decide) h⟩
    · rintro ⟨h1, h2⟩
      exact blk_meet 12 4 6 2 n (by decide) (by decide) (by decide) (by decide) (by decide)
        (by decide) (by decide) (by decide) h1 h2
  simp (disch := decide) only [blockStep, hd, Option.some_bind, rawLoop_skip, rawLoop_take,
    rawLoop_nil, e1, e2, e3, e4, e6, exactLoop_skip, exactLoop_take, exactLoop_nil,
    subLoop_break, subLoop_sub, subLoop_skip, subLoop_nil, Function.update_same,
    Function.update_noteq, id_eq, Option.map_some']
  rw [← sum_filter_two (Finset.Icc lo hi) (Rep 12) (Blk 12 4) (Blk 12 6) (Blk 12 2) hrep hmeet]
  congr 1
  ring

/-- Digit length 13: the loop body adds the 13-digit repeated blocks of `[lo, hi]`
(block length 1 covers all). -/
theorem blockStep_d13 (lo hi total : Int) :
    blockStep id lo hi total 13
      = some (total + ∑ n ∈ (Finset.Icc lo hi).filter (Rep 13), n) := by
  have hd : divisors 13 = some [1, 13] := by decide
  have e1 := sumAllRepeats_blk lo hi 13 1 (by decide) (by decide) (by decide)
  simp only [Nat.cast_ofNat, Nat.cast_one] at e1
  have hrep : ∀ n, Rep 13 n ↔ Blk 13 1 n := by
    intro n
    constructor
    · rintro ⟨m, h1, h2, h3, h4⟩
      interval_cases m
      all_goals first
        | exact absurd h3 (by decide)
        | exact blk_mono 13 _ 1 n (by decide) (by decide) (by decide) (by decide) h4
    · intro h
      exact ⟨1, by decide, by decide, by decide, h⟩
  simp (disch := decide) only [blockStep, hd, Option.some_bind, rawLoop_skip, rawLoop_take,
    rawLoop_nil, e1, exactLoop_skip, exactLoop_take, exactLoop_nil,
    subLoop_break, subLoop_sub, subLoop_skip, subLoop_nil, Function.update_same,
    Function.update_noteq, id_eq, Option.map_some']
  rw [← sum_filter_one (Finset.Icc lo hi) (Rep 13) (Blk 13 1) hrep]

/-- Digit length 14: the loop body adds the 14-digit repeated blocks of `[lo, hi]`
(block lengths 2 and 7 cover all, their overlap is block length 1). -/
theorem blockStep_d14 (lo hi total : Int) :
    blockStep id lo hi total 14
      = some (total + ∑ n ∈ (Finset.Icc lo hi).filter (Rep 14), n) := by
  have hd : divisors 14 = some [1, 2, 7, 14] := by decide
  have e1 := sumAllRepeats_blk lo hi 14 1 (by decide) (by decide) (by decide)
  have e2 := sumAllRepeats_blk lo hi 14 2 (by decide) (by decide) (by decide)
  have e7 := sumAllRepeats_blk lo hi 14 7 (by decide) (by decide) (by decide)
  simp only [Nat.cast_ofNat, Nat.cast_one] at e1 e2 e7
  have hrep : ∀ n, Rep 14 n ↔ Blk 14 2 n ∨ Blk 14 7 n := by
    intro n
    constructor
    · rintro ⟨m, h1, h2, h3, h4⟩
      interval_cases m
      all_goals first
        | exact absurd h3 (by decide)
        | exact Or.inl (blk_mono 14 _ 2 n (by decide) (by decide) (by decide) (by decide) h4)
        | exact Or.inr (blk_mono 14 _ 7 n (by decide) (by decide) (by decide) (by decide) h4)
    · rintro (h | h)
      · exact ⟨2, by decide, by decide, by decide, h⟩
      · exact ⟨7, by decide, by decide, by decide, h⟩
  have hmeet : ∀ n, Blk 14 1 n ↔ Blk 14 2 n ∧ Blk 14 7 n := by
    intro n
    constructor
    · intro h
      exact ⟨blk_mono 14 1 2 n (by decide) (by decide) (by decide) (by decide) h,
        blk_mono 14 1 7 n (by decide) (by decide) (by decide) (by decide) h⟩
    · rintro ⟨h1, h2⟩
      exact blk_meet 14 2 7 1 n (by decide) (by decide) (by decide) (by decide) (by decide)
        (by decide) (by decide) (by decide) h1 h2
  simp (disch := decide) only [blockStep, hd, Option.some_bind, rawLoop_skip, rawLoop_take,
    rawLoop_nil, e1, e2, e7, exactLoop_skip, exactLoop_take, exactLoop_nil,
    subLoop_break, subLoop_sub, subLoop_skip, subLoop_nil, Function.update_same,
    Function.update_noteq, id_eq, Option.map_some']
  rw [← sum_filter_two (Finset.Icc lo hi) (Rep 14) (Blk 14 2) (Blk 14 7) (Blk 14 1) hrep hmeet]
  congr 1
  ring

/-- Digit length 15: the loop body adds the 15-digit repeated blocks of `[lo, hi]`
(block lengths 3 and 5 cover all, their overlap is block length 1). -/
theorem blockStep_d15 (lo hi total : Int) :
    blockStep id lo hi total 15
      = some (total + ∑ n ∈ (Finset.Icc lo hi).filter (Rep 15), n) := by
  have hd : divisors 15 = some [1, 3, 5, 15] := by decide
  have e1 := sumAllRepeats_blk lo hi 15 1 (by decide) (by decide) (by decide)
  have e3 := sumAllRepeats_blk lo hi 15 3 (by decide) (by decide) (by decide)
  have e5 := sumAllRepeats_blk lo hi 15 5 (by decide) (by decide) (by decide)
  simp only [Nat.cast_ofNat, Nat.cast_one] at e1 e3 e5
  have hrep : ∀ n, Rep 15 n ↔ Blk 15 3 n ∨ Blk 15 5 n := by
    intro n
    constructor
    · rintro ⟨m, h1, h2, h3, h4⟩
      interval_cases m
      all_goals first
        | exact absurd h3 (by decide)
        | exact Or.inl (blk_mono 15 _ 3 n (by decide) (by decide) (by decide) (by decide) h4)
        | exact Or.inr (blk_mono 15 _ 5 n (by decide) (by decide) (by decide) (by decide) h4)
    · rintro (h | h)
      · exact ⟨3, by decide, by decide, by decide, h⟩
      · exact ⟨5, by decide, by decide, by decide, h⟩
  have hmeet : ∀ n, Blk 15 1 n ↔ Blk 15 3 n ∧ Blk 15 5 n := by
    intro n
    constructor
    · intro h
      exact ⟨blk_mono 15 1 3 n (by decide) (by decide) (by decide) (by decide) h,
        blk_mono 15 1 5 n (by decide) (by decide) (by decide) (by decide) h⟩
    · rintro ⟨h1, h2⟩
      exact blk_meet 15 3 5 1 n (by decide) (by decide) (by decide) (by decide) (by decide)
        (by decide) (by decide) (by decide) h1 h2
  simp (disch := decide) only [blockStep, hd, Option.some_bind, rawLoop_skip, rawLoop_take,
    rawLoop_nil, e1, e3, e5, exactLoop_skip, exactLoop_take, exactLoop_nil,
    subLoop_break, subLoop_sub, subLoop_skip, subLoop_nil, Function.update_same,
    Function.update_noteq, id_eq, Option.map_some']
  rw [← sum_filter_two (Finset.Icc lo hi) (Rep 15) (Blk 15 3) (Blk 15 5) (Blk 15 1) hrep hmeet]
  congr 1
  ring

/-- Digit length 16: the loop body adds the 16-digit repeated blocks of `[lo, hi]`
(block length 8 covers all). -/
theorem blockStep_d16 (lo hi total : Int) :
    blockStep id lo hi total 16
      = some (total + ∑ n ∈ (Finset.Icc lo hi).filter (Rep 16), n) := by
  have hd : divisors 16 = some [1, 2, 4, 8, 16] := by decide
  have e1 := sumAllRepeats_blk lo hi 16 1 (by decide) (by decide) (by decide)
  have e2 := sumAllRepeats_blk lo hi 16 2 (by decide) (by decide) (by decide)
  have e4 := sumAllRepeats_blk lo hi 16 4 (by decide) (by decide) (by decide)
  have e8 := sumAllRepeats_blk lo hi 16 8 (by decide) (by decide) (by decide)
  simp only [Nat.cast_ofNat, Nat.cast_one] at e1 e2 e4 e8
  have hrep : ∀ n, Rep 16 n ↔ Blk 16 8 n := by
    intro n
    constructor
    · rintro ⟨m, h1, h2, h3, h4⟩
      interval_cases m
      all_goals first
        | exact absurd h3 (by decide)
        | exact blk_mono 16 _ 8 n (by decide) (by decide) (by decide) (by decide) h4
    · intro h
      exact ⟨8, by decide, by decide, by decide, h⟩
  simp (disch := decide) only [blockStep, hd, Option.some_bind, rawLoop_skip, rawLoop_take,
    rawLoop_nil, e1, e2, e4, e8, exactLoop_skip, exactLoop_take, exactLoop_nil,
    subLoop_break, subLoop_sub, subLoop_skip, subLoop_nil, Function.update_same,
    Function.update_noteq, id_eq, Option.map_some']
  rw [← sum_filter_one (Finset.Icc lo hi) (Rep 16) (Blk 16 8) hrep]
  congr 1
  ring

/-- Digit length 17: the loop body adds the 17-digit repeated blocks of `[lo, hi]`
(block length 1 covers all). -/
theorem blockStep_d17 (lo hi total : Int) :
    blockStep id lo hi total 17
      = some (total + ∑ n ∈ (Finset.Icc lo hi).filter (Rep 17), n) := by
  have hd : divisors 17 = some [1, 17] := by decide
  have e1 := sumAllRepeats_blk lo hi 17 1 (by decide) (by decide) (by decide)
  simp only [Nat.cast_ofNat, Nat.cast_one] at e1
  have hrep : ∀ n, Rep 17 n ↔ Blk 17 1 n := by
    intro n
    constructor
    · rintro ⟨m, h1, h2, h3, h4⟩
      interval_cases m
      all_goals first
        | exact absurd h3 (by decide)
        | exact blk_mono 17 _ 1 n (by decide) (by decide) (by decide) (by decide) h4
    · intro h
      exact ⟨1, by decide, by decide, by decide, h⟩
  simp (disch := decide) only [blockStep, hd, Option.some_bind, rawLoop_skip, rawLoop_take,
    rawLoop_nil, e1, exactLoop_skip, exactLoop_take, exactLoop_nil,
    subLoop_break, subLoop_sub, subLoop_skip, subLoop_nil, Function.update_same,
    Function.update_noteq, id_eq, Option.map_some']
  rw [← sum_filter_one (Finset.Icc lo hi) (Rep 17) (Blk 17 1) hrep]

/-- Digit length 18: the loop body adds the 18-digit repeated blocks of `[lo, hi]`
(block lengths 6 and 9 cover all, their overlap is block length 3). -/
theorem blockStep_d18 (lo hi total : Int) :
    blockStep id lo hi total 18
      = some (total + ∑ n ∈ (Finset.Icc lo hi).filter (Rep 18), n) := by
  have hd : divisors 18 = some [1, 2, 3, 6, 9, 18] := by decide
  have e1 := sumAllRepeats_blk lo hi 18 1 (by decide) (by decide) (by decide)
  have e2 := sumAllRepeats_blk lo hi 18 2 (by decide) (by decide) (by decide)
  have e3 := sumAllRepeats_blk lo hi 18 3 (by decide) (by decide) (by decide)
  have e6 := sumAllRepeats_blk lo hi 18 6 (by decide) (by decide) (by decide)
  have e9 := sumAllRepeats_blk lo hi 18 9 (by decide) (by decide) (by decide)
  simp only [Nat.cast_ofNat, Nat.cast_one] at e1 e2 e3 e6 e9
  have hrep : ∀ n, Rep 18 n ↔ Blk 18 6 n ∨ Blk 18 9 n := by
    intro n
    constructor
    · rintro ⟨m, h1, h2, h3, h4⟩
      interval_cases m
      all_goals first
        | exact absurd h3 (by decide)
        | exact Or.inl (blk_mono 18 _ 6 n (by decide) (by decide) (by decide) (by decide) h4)
        | exact Or.inr (blk_mono 18 _ 9 n (by decide) (by decide) (by decide) (by decide) h4)
    · rintro (h | h)
      · exact ⟨6, by decide, by decide, by decide, h⟩
      · exact ⟨9, by decide, by decide, by decide, h⟩
  have hmeet : ∀ n, Blk 18 3 n ↔ Blk 18 6 n ∧ Blk 18 9 n := by
    intro n
    constructor
    · intro h
      exact ⟨blk_mono 18 3 6 n (by decide) (by decide) (by decide) (by decide) h,
        blk_mono 18 3 9 n (by decide) (by decide) (by decide) (by decide) h⟩
    · rintro ⟨h1, h2⟩
      exact blk_meet 18 6 9 3 n (by decide) (by decide) (by decide) (by decide) (by decide)
        (by decide) (by decide) (by decide) h1 h2
  simp (disch := decide) only [blockStep, hd, Option.some_bind, rawLoop_skip, rawLoop_take,
    rawLoop_nil, e1, e2, e3, e6, e9, exactLoop_skip, exactLoop_take, exactLoop_nil,
    subLoop_break, subLoop_sub, subLoop_skip, subLoop_nil, Function.update_same,
    Function.update_noteq, id_eq, Option.map_some']
  rw [← sum_filter_two (Finset.Icc lo hi) (Rep 18) (Blk 18 6) (Blk 18 9) (Blk 18 3) hrep hmeet]
  congr 1
  ring

/-- For every digit length `d` from 2 to 18, in exact arithmetic, the body of the
loop of `sumInvalidAtLeastTwice` adds the `d`-digit repeated blocks of `[lo, hi]`,
each once. -/
theorem blockStep_eq (lo hi total : Int) (d : Nat) (hd2 : 2 ≤ d) (hd : d ≤ 18) :
    blockStep id lo hi total d
      = some (total + ∑ n ∈ (Finset.Icc lo hi).filter (Rep d), n) := by
  interval_cases d <;> simp only [Nat.cast_ofNat]
  · exact blockStep_d2 lo hi total
  · exact blockStep_d3 lo hi total
  · exact blockStep_d4 lo hi total
  · exact blockStep_d5 lo hi total
  · exact blockStep_d6 lo hi total
  · exact blockStep_d7 lo hi total
  · exact blockStep_d8 lo hi total
  · exact blockStep_d9 lo hi total
  · exact blockStep_d10 lo hi total
  · exact blockStep_d11 lo hi total
  · exact blockStep_d12 lo hi total
  · exact blockStep_d13 lo hi total
  · exact blockStep_d14 lo hi total
  · exact blockStep_d15 lo hi total
  · exact blockStep_d16 lo hi total
  · exact blockStep_d17 lo hi total
  · exact blockStep_d18 lo hi total

/-! ## All digit lengths together -/

theorem rep_bounds {d : Nat} {n : Int} (h : Rep d n) : 10 ^ (d - 1) ≤ n ∧ n < 10 ^ d := by
  obtain ⟨m, h1, h2, h3, h4⟩ := h
  have := (blk_iff_dvd d m n h1 (by omega) h3).1 h4
  exact ⟨this.1, this.2.1⟩

/-- A repeated block has only one digit length. -/
theorem rep_unique {d e : Nat} {n : Int} (h1 : Rep d n) (h2 : Rep e n) : d = e := by
  have b1 := rep_bounds h1
  have b2 := rep_bounds h2
  have hd : 1 ≤ d := by obtain ⟨m, h, h', _⟩ := h1; omega
  have he : 1 ≤ e := by obtain ⟨m, h, h', _⟩ := h2; omega
  have l1 : (10 : Int) ^ (d - 1) < 10 ^ e := by omega
  have l2 : (10 : Int) ^ (e - 1) < 10 ^ d := by omega
  have := (pow_lt_pow_iff_right₀ (by norm_num : (1 : Int) < 10)).1 l1
  have := (pow_lt_pow_iff_right₀ (by norm_num : (1 : Int) < 10)).1 l2
  omega

/-- The digit lengths `2, ..., K + 1` together contribute the repeated blocks of
at most `K + 1` digits. -/
theorem blockLoop_sum (lo hi : Int) (K : Nat) :
    ((((List.range' 2 K).map Int.ofNat).map (fun d : Int =>
        ∑ n ∈ (Finset.Icc lo hi).filter (Rep d.toNat), n)).sum)
      = ∑ n ∈ (Finset.Icc lo hi).filter (fun n => ∃ d : Nat, d ≤ K + 1 ∧ Rep d n), n := by
  induction K with
  | zero =>
    simp only [List.range'_zero, List.map_nil, List.sum_nil]
    symm
    apply Finset.sum_eq_zero
    intro n hn
    simp only [Finset.mem_filter] at hn
    obtain ⟨_, d, h1, m, h2, h3, _⟩ := hn
    omega
  | succ K ih =>
    rw [List.range'_concat, List.map_append, List.map_append, List.sum_append, ih]
    simp only [List.map_cons, List.map_nil, List.sum_cons, List.sum_nil, add_zero, one_mul,
      Int.ofNat_eq_coe, Int.toNat_ofNat]
    rw [Finset.sum_filter, Finset.sum_filter, Finset.sum_filter, ← Finset.sum_add_distrib]
    apply Finset.sum_congr rfl
    intro n _
    by_cases hQ : Rep (2 + K) n
    · have hP : ¬ ∃ d : Nat, d ≤ K + 1 ∧ Rep d n := by
        rintro ⟨d, h1, h2⟩
        have := rep_unique h2 hQ
        omega
      have hR : ∃ d : Nat, d ≤ K + 1 + 1 ∧ Rep d n := ⟨2 + K, by omega, hQ⟩
      rw [if_neg hP, if_pos hQ, if_pos hR, zero_add]
    · by_cases hP : ∃ d : Nat, d ≤ K + 1 ∧ Rep d n
      · have hR : ∃ d : Nat, d ≤ K + 1 + 1 ∧ Rep d n := by
          obtain ⟨d, h1, h2⟩ := hP
          exact ⟨d, by omega, h2⟩
        rw [if_pos hP, if_neg hQ, if_pos hR, add_zero]
      · have hR : ¬ ∃ d : Nat, d ≤ K + 1 + 1 ∧ Rep d n := by
          rintro ⟨d, h1, h2⟩
          rcases Nat.lt_or_ge d (K + 2) with h | h
          · exact hP ⟨d, by omega, h2⟩
          · have : d = 2 + K := by omega
            subst this
            exact hQ h2
        rw [if_neg hP, if_neg hQ, if_neg hR, add_zero]

/-- In exact arithmetic, for `1 ≤ lo ≤ hi < 10^18`, `sumInvalidAtLeastTwice`
returns the sum of the members of `[lo, hi]` that are a repeated block, each once. -/
theorem sumInvalidAtLeastTwice_rep (lo hi : Int) (hlo : 1 ≤ lo) (hle : lo ≤ hi)
    (hhi : hi < 10 ^ 18) :
    sumInvalidAtLeastTwice id lo hi
      = some (∑ n ∈ (Finset.Icc lo hi).filter (fun n => ∃ d : Nat, Rep d n), n) := by
  obtain ⟨D, hD1, hD2, hD3⟩ := exists_digit_count hi (by omega)
  have hD18 := digit_count_le hi D hD2 hhi
  have hK : (clampDigits hi - 1).toNat = D - 1 := by
    rw [clampDigits_eq hi D hD2 hD3 hD18]
    omega
  unfold sumInvalidAtLeastTwice
  rw [hK, foldlM_add _ (fun d : Int => ∑ n ∈ (Finset.Icc lo hi).filter (Rep d.toNat), n) _ ?_,
    zero_add, blockLoop_sum lo hi (D - 1)]
  · congr 1
    apply Finset.sum_congr _ (fun _ _ => rfl)
    ext n
    simp only [Finset.mem_filter, Finset.mem_Icc]
    constructor
    · rintro ⟨h1, d, _, h3⟩
      exact ⟨h1, d, h3⟩
    · rintro ⟨h1, d, h3⟩
      refine ⟨h1, d, ?_, h3⟩
      have b := rep_bounds h3
      have hlt : (10 : Int) ^ (d - 1) < 10 ^ D := by omega
      have := (pow_lt_pow_iff_right₀ (by norm_num : (1 : Int) < 10)).1 hlt
      omega
  · intro d hd t
    simp only [List.mem_map, List.mem_range'_1] at hd
    obtain ⟨k, ⟨hk1, hk2⟩, rfl⟩ := hd
    have := blockStep_eq lo hi t k hk1 (by omega)
    simpa using this

/-! ## The decimal string of a repeated block -/

/-- The value of a block written `r` times. -/
theorem ofDigits_flatten_replicate (block : List Nat) (r : Nat) :
    Nat.ofDigits 10 (List.replicate r block).flatten
      = Nat.ofDigits 10 block * ∑ i ∈ Finset.range r, (10 ^ block.length) ^ i := by
  induction r with
  | zero => simp
  | succ r ih =>
    rw [List.replicate_succ, List.flatten_cons, Nat.ofDigits_append, ih, Finset.sum_range_succ',
      Finset.mul_sum, Finset.mul_sum, mul_add]
    simp only [pow_zero, mul_one]
    rw [add_comm, Finset.mul_sum]
    congr 1
    apply Finset.sum_congr rfl
    intro i _
    ring

theorem length_flatten_replicate (block : List Nat) (r : Nat) :
    (List.replicate r block).flatten.length = r * block.length := by
  induction r with
  | zero => simp
  | succ r ih =>
    rw [List.replicate_succ, List.flatten_cons, List.length_append, ih]
    ring

theorem getLast_flatten_replicate (block : List Nat) (r : Nat) (hb : block ≠ [])
    (h : (List.replicate (r + 1) block).flatten ≠ []) :
    (List.replicate (r + 1) block).flatten.getLast h = block.getLast hb := by
  have e : (List.replicate (r + 1) block).flatten = (List.replicate r block).flatten ++ block := by
    rw [List.replicate_succ', List.flatten_append, List.flatten_singleton]
  simp only [e]
  exact List.getLast_append_of_ne_nil hb

/-- The number of digits of a positive natural number. -/
theorem digits_length_bounds (N : Nat) (hN : N ≠ 0) :
    10 ^ ((Nat.digits 10 N).length - 1) ≤ N ∧ N < 10 ^ (Nat.digits 10 N).length := by
  have h1 := Nat.base_pow_length_digits_le 10 N (by norm_num) hN
  have h2 : N < 10 ^ (Nat.digits 10 N).length := Nat.lt_base_pow_length_digits (by norm_num)
  have hne : Nat.digits 10 N ≠ [] := Nat.digits_ne_nil_iff_ne_zero.2 hN
  have hpos : 0 < (Nat.digits 10 N).length := List.length_pos.2 hne
  refine ⟨?_, h2⟩
  have e : 10 ^ (Nat.digits 10 N).length = 10 * 10 ^ ((Nat.digits 10 N).length - 1) := by
    rw [← pow_succ']; congr 1; omega
  rw [e] at h1
  omega

theorem digits_length_eq (N m : Nat) (h1 : 10 ^ (m - 1) ≤ N) (h2 : N < 10 ^ m) (hm : 1 ≤ m) :
    (Nat.digits 10 N).length = m := by
  have hp : 0 < 10 ^ (m - 1) := by positivity
  have hN : N ≠ 0 := by omega
  obtain ⟨b1, b2⟩ := digits_length_bounds N hN
  have l1 : 10 ^ (m - 1) < 10 ^ (Nat.digits 10 N).length := by omega
  have l2 : 10 ^ ((Nat.digits 10 N).length - 1) < 10 ^ m := by omega
  have := (Nat.pow_lt_pow_iff_right (by norm_num : 1 < 10)).1 l1
  have := (Nat.pow_lt_pow_iff_right (by norm_num : 1 < 10)).1 l2
  omega

/-- A repeated block in the arithmetic sense has a repeated decimal string. -/
theorem isRepeatedBlock_of_rep (d : Nat) (n : Int) (h : Rep d n) :
    isRepeatedBlock n.toNat = true := by
  obtain ⟨m, hm1, hmd, ⟨r, rfl⟩, b, hb1, hb2, hn⟩ := h
  have hr : 2 ≤ r := by
    by_contra hc
    have : r = 0 ∨ r = 1 := by omega
    rcases this with rfl | rfl <;> simp at hmd
  have hp : (0 : Int) < 10 ^ (m - 1) := by positivity
  obtain ⟨B, rfl⟩ := Int.eq_ofNat_of_zero_le (show 0 ≤ b by omega)
  have hB1 : 10 ^ (m - 1) ≤ B := by exact_mod_cast hb1
  have hB2 : B < 10 ^ m := by
    have : (B : Int) < 10 ^ m := by omega
    exact_mod_cast this
  have hB0 : B ≠ 0 := by
    have : 0 < 10 ^ (m - 1) := by positivity
    omega
  have hlen := digits_length_eq B m hB1 hB2 hm1
  have hne : Nat.digits 10 B ≠ [] := Nat.digits_ne_nil_iff_ne_zero.2 hB0
  -- the value of the repeated string
  have hval : n = ((Nat.ofDigits 10 (List.replicate r (Nat.digits 10 B)).flatten : Nat) : Int) := by
    rw [ofDigits_flatten_replicate, Nat.ofDigits_digits, hlen, hn, repFactor_eq_geom m r hm1]
    push_cast
    ring
  -- the string is the digit string of `n`
  have hdig : Nat.digits 10 n.toNat = (List.replicate r (Nat.digits 10 B)).flatten := by
    rw [hval, Int.toNat_ofNat]
    apply Nat.digits_ofDigits 10 (by norm_num)
    · intro l hl
      rw [List.mem_flatten] at hl
      obtain ⟨bl, hbl, hl⟩ := hl
      rw [List.eq_of_mem_replicate hbl] at hl
      exact Nat.digits_lt_base (by norm_num) hl
    · intro hnil
      obtain ⟨r', rfl⟩ : ∃ r', r = r' + 1 := ⟨r - 1, by omega⟩
      rw [getLast_flatten_replicate _ r' hne]
      exact Nat.getLast_digit_ne_zero 10 hB0
  have hL : (Nat.digits 10 n.toNat).length = r * m := by
    rw [hdig, length_flatten_replicate, hlen]
  have hmpos : 0 < m := by omega
  have htake : (Nat.digits 10 n.toNat).take m = Nat.digits 10 B := by
    obtain ⟨r', rfl⟩ : ∃ r', r = r' + 1 := ⟨r - 1, by omega⟩
    rw [hdig, List.replicate_succ, List.flatten_cons]
    exact List.take_left' hlen
  unfold isRepeatedBlock
  simp only [List.any_eq_true, List.mem_range, decide_eq_true_eq]
  refine ⟨m, ?_, hm1, ?_, ?_, ?_⟩
  · rw [hL]; nlinarith
  · rw [hL]; exact Nat.mul_mod_left r m
  · rw [hL, Nat.mul_div_cancel _ hmpos]; exact hr
  · rw [hL, Nat.mul_div_cancel _ hmpos, htake]; exact hdig

/-- A repeated decimal string is a repeated block in the arithmetic sense. -/
theorem rep_of_isRepeatedBlock (n : Int) (h : isRepeatedBlock n.toNat = true) :
    ∃ d : Nat, Rep d n := by
  unfold isRepeatedBlock at h
  simp only [List.any_eq_true, List.mem_range, decide_eq_true_eq] at h
  obtain ⟨m, hmd, hm1, hmod, hr, hs⟩ := h
  set s := Nat.digits 10 n.toNat with hsdef
  have hN : n.toNat ≠ 0 := by
    intro h0
    rw [hsdef, h0] at hmd
    simp at hmd
  have hn : ((n.toNat : Nat) : Int) = n := Int.toNat_of_nonneg (by omega)
  have hd : s.length = m * (s.length / m) := (Nat.mul_div_cancel' (Nat.dvd_of_mod_eq_zero hmod)).symm
  have hblen : (s.take m).length = m := by
    rw [List.length_take]; omega
  refine ⟨s.length, m, hm1, hmd, Nat.dvd_of_mod_eq_zero hmod, ?_⟩
  rw [blk_iff_dvd s.length m n hm1 (by omega) (Nat.dvd_of_mod_eq_zero hmod)]
  obtain ⟨b1, b2⟩ := digits_length_bounds n.toNat hN
  refine ⟨?_, ?_, ?_⟩
  · rw [← hn]; exact_mod_cast b1
  · rw [← hn]; exact_mod_cast b2
  · have hval : n.toNat = Nat.ofDigits 10 (s.take m) * ∑ i ∈ Finset.range (s.length / m), (10 ^ m) ^ i := by
      have := ofDigits_flatten_replicate (s.take m) (s.length / m)
      rw [← hs, hblen, hsdef, Nat.ofDigits_digits] at this
      exact this
    have hg := repFactor_eq_geom m (s.length / m) hm1
    rw [← hd] at hg
    refine ⟨(Nat.ofDigits 10 (s.take m) : Int), ?_⟩
    rw [← hn, hg]
    conv_lhs => rw [hval]
    push_cast
    ring

/-- The arithmetic and the string descriptions of a repeated block agree. -/
theorem rep_iff_isRepeatedBlock (n : Int) :
    (∃ d : Nat, Rep d n) ↔ isRepeatedBlock n.toNat = true :=
  ⟨fun ⟨d, h⟩ => isRepeatedBlock_of_rep d n h, rep_of_isRepeatedBlock n⟩

end

/-! ## Both arithmetics at once -/

theorem wrap64_of_range (x : Int) (h1 : -2 ^ 63 ≤ x) (h2 : x < 2 ^ 63) : wrap64 x = x := by
  unfold wrap64
  norm_num at h1 h2 ⊢
  omega

theorem faithful_id : Faithful id := fun _ _ _ => rfl

theorem faithful_wrap64 : Faithful wrap64 := wrap64_of_range

theorem faithful_of (w : Int → Int) (hw : w = id ∨ w = wrap64) : Faithful w := by
  rcases hw with rfl | rfl
  · exact faithful_id
  · exact faithful_wrap64

theorem pow10_nat_bounds (e : Nat) (he : e ≤ 18) :
    (1 : Int) ≤ 10 ^ e ∧ (10 : Int) ^ e ≤ 10 ^ 18 :=
  ⟨one_le_pow₀ (by norm_num), pow_le_pow_right₀ (by norm_num) he⟩

theorem repFactor_le (d m : Nat) (hd : d ≤ 18) (hm : 1 ≤ m) :
    repFactor d m < 10 ^ 18 := by
  have h1 := pow10_sub_one_pos m hm
  have h2 := (pow10_nat_bounds d hd).2
  have h3 : repFactor d m ≤ 10 ^ d - 1 := by
    unfold repFactor
    exact Int.ediv_le_self _ (by have := (pow10_nat_bounds d hd).1; omega)
  omega

/-- For a valid pair `(d, m)` the function `sumAllRepeats` does not fault, in
either arithmetic; its value is given by the block interval. -/
theorem sumAllRepeats_unfold (w : Int → Int) (hw : Faithful w) (lo hi : Int) (d m : Nat)
    (hd : d ≤ 18) (hm : 1 ≤ m) (hmd : m ≤ d) :
    sumAllRepeats w lo hi d m
      = some (if lowBlock w (repFactor d m) lo (10 ^ (m - 1))
                > highBlock w (repFactor d m) hi (10 ^ m - 1) then 0
              else progression w (repFactor d m)
                (lowBlock w (repFactor d m) lo (10 ^ (m - 1)))
                (highBlock w (repFactor d m) hi (10 ^ m - 1))) := by
  have hR := repFactor_pos d m hm hmd
  have hR' := repFactor_le d m hd hm
  have hb := pow10_sub_one_pos m hm
  obtain ⟨hd1, hd2⟩ := pow10_nat_bounds d hd
  obtain ⟨hm1, hm2⟩ := pow10_nat_bounds m (le_trans hmd hd)
  obtain ⟨hp1, hp2⟩ := pow10_nat_bounds (m - 1) (by omega)
  have w1 : w (10 ^ d - 1) = 10 ^ d - 1 := hw _ (by omega) (by omega)
  have w2 : w (10 ^ m - 1) = 10 ^ m - 1 := hw _ (by omega) (by omega)
  have w3 : w (repFactor d m) = repFactor d m := hw _ (by omega) (by omega)
  have w4 : w (10 ^ (m - 1)) = 10 ^ (m - 1) := hw _ (by omega) (by omega)
  have hq : Int.tdiv ((10 : Int) ^ d - 1) (10 ^ m - 1) = repFactor d m :=
    Int.tdiv_eq_ediv (by omega) (by omega)
  unfold sumAllRepeats
  simp only [pow10_eq d hd, pow10_eq m (le_trans hmd hd), quo, ceilDiv, w1, w2, w3, w4, hq,
    if_neg (ne_of_gt (lt_of_lt_of_le one_pos hd1)), if_neg (ne_of_gt (lt_of_lt_of_le one_pos hm1)),
    if_neg (ne_of_gt hb), Option.map_some', Option.some_bind, if_neg (ne_of_gt hR),
    tdiv_pow10_ten m hm]
  unfold lowBlock highBlock progression
  split_ifs <;> rfl

/-- For an even digit count `2 * k` with `1 ≤ k ≤ 9` the body of the loop of
`sumInvalidInRange` does not fault, in either arithmetic. -/
theorem doubleStep_unfold (w : Int → Int) (hw : Faithful w) (lo hi total : Int) (k : Nat)
    (hk : 1 ≤ k) (hk9 : k ≤ 9) :
    doubleStep w lo hi total ((2 * k : Nat) : Int)
      = some (if lowBlock w (10 ^ k + 1) lo (10 ^ (k - 1))
                > highBlock w (10 ^ k + 1) hi (10 ^ k - 1) then total
              else w (total + progression w (10 ^ k + 1)
                (lowBlock w (10 ^ k + 1) lo (10 ^ (k - 1)))
                (highBlock w (10 ^ k + 1) hi (10 ^ k - 1)))) := by
  have e : Int.tdiv ((2 * k : Nat) : Int) 2 = (k : Int) := by
    push_cast
    rw [mul_comm]
    exact Int.mul_tdiv_cancel _ (by norm_num)
  obtain ⟨hk1, hk2⟩ := pow10_nat_bounds k (by omega)
  obtain ⟨hp1, hp2⟩ := pow10_nat_bounds (k - 1) (by omega)
  have w1 : w (10 ^ k + 1) = 10 ^ k + 1 := hw _ (by omega) (by omega)
  have w2 : w (10 ^ k - 1) = 10 ^ k - 1 := hw _ (by omega) (by omega)
  have w4 : w (10 ^ (k - 1)) = 10 ^ (k - 1) := hw _ (by omega) (by omega)
  have hne : (10 : Int) ^ k + 1 ≠ 0 := by omega
  unfold doubleStep
  simp only [e, pow10_eq k (by omega), quo, ceilDiv, w1, w2, w4, if_neg hne, Option.map_some',
    Option.some_bind, tdiv_pow10_ten k hk]
  unfold lowBlock highBlock progression
  split_ifs <;> rfl

/-! ## The counters never fault -/

/-- The divisor list of a digit length holds integers between 1 and `d`. -/
theorem divisors_range (d : Nat) (hd2 : 2 ≤ d) (hd : d ≤ 18) :
    ∃ ds, divisors (d : Int) = some ds ∧ ∀ m ∈ ds, 1 ≤ m ∧ m ≤ (d : Int) := by
  have key : (divisors (d : Int)).isSome = true
      ∧ ∀ m ∈ (divisors (d : Int)).getD [], 1 ≤ m ∧ m ≤ (d : Int) := by
    interval_cases d <;> decide
  cases h : divisors (d : Int) with
  | none => simp [h] at key
  | some ds => exact ⟨ds, rfl, by simpa [h] using key.2⟩

theorem foldlM_some (step : Int → Int → Option Int) (l : List Int)
    (h : ∀ d ∈ l, ∀ t, ∃ t', step t d = some t') :
    ∀ t, ∃ t', l.foldlM step t = some t' := by
  induction l with
  | nil => intro t; exact ⟨t, rfl⟩
  | cons a l ih =>
    intro t
    obtain ⟨t', ht⟩ := h a (List.mem_cons_self _ _) t
    rw [List.foldlM_cons, ht]
    exact ih (fun d hd => h d (List.mem_cons_of_mem _ hd)) t'

theorem subLoop_some (w : Int → Int) (d m : Int) (exact : Int → Int) (l : List Int)
    (h : ∀ sub ∈ l, sub ≠ 0) : ∀ val, ∃ v, subLoop w d m exact l val = some v := by
  induction l with
  | nil => intro val; exact ⟨val, rfl⟩
  | cons sub rest ih =>
    intro val
    have hs := h sub (List.mem_cons_self _ _)
    have ih' := ih (fun s hs' => h s (List.mem_cons_of_mem _ hs'))
    by_cases hb : sub ≥ m
    · exact ⟨val, subLoop_break w d m sub exact rest val hb⟩
    · by_cases hc : Int.tmod m sub = 0 ∧ Int.tmod d sub = 0 ∧ Int.tdiv d sub ≥ 2
      · rw [subLoop_sub w d m sub exact rest val hb hs hc]
        exact ih' _
      · rw [subLoop_skip w d m sub exact rest val hb hs hc]
        exact ih' _

theorem rawLoop_some (w : Int → Int) (lo hi d : Int) (l : List Int)
    (h : ∀ m ∈ l, m ≠ 0 ∧ ∃ v, sumAllRepeats w lo hi d m = some v) :
    ∀ raw, ∃ r, rawLoop w lo hi d l raw = some r := by
  induction l with
  | nil => intro raw; exact ⟨raw, rfl⟩
  | cons m rest ih =>
    intro raw
    obtain ⟨hm, v, hv⟩ := h m (List.mem_cons_self _ _)
    have ih' := ih (fun s hs' => h s (List.mem_cons_of_mem _ hs'))
    by_cases hc : Int.tdiv d m < 2
    · rw [rawLoop_skip w lo hi d m rest raw hm hc]
      exact ih' _
    · rw [rawLoop_take w lo hi d m rest raw hm hc, hv]
      exact ih' _

theorem exactLoop_some (w : Int → Int) (d : Int) (divs : List Int) (raw : Int → Int)
    (hdivs : ∀ sub ∈ divs, sub ≠ 0) (l : List Int) (h : ∀ m ∈ l, m ≠ 0) :
    ∀ exact total, ∃ r, exactLoop w d divs raw l exact total = some r := by
  induction l with
  | nil => intro exact total; exact ⟨_, rfl⟩
  | cons m rest ih =>
    intro exact total
    have hm := h m (List.mem_cons_self _ _)
    have ih' := ih (fun s hs' => h s (List.mem_cons_of_mem _ hs'))
    by_cases hc : Int.tdiv d m < 2
    · rw [exactLoop_skip w d m divs rest raw exact total hm hc]
      exact ih' _ _
    · obtain ⟨v, hv⟩ := subLoop_some w d m exact divs hdivs (raw m)
      rw [exactLoop_take w d m divs rest raw exact total hm hc, hv]
      exact ih' _ _

/-- The body of the loop of `sumInvalidAtLeastTwice` does not fault for a digit
length from 2 to 18, in either arithmetic. -/
theorem blockStep_some (w : Int → Int) (hw : Faithful w) (lo hi total : Int) (d : Nat)
    (hd2 : 2 ≤ d) (hd : d ≤ 18) : ∃ t, blockStep w lo hi total d = some t := by
  obtain ⟨ds, hds, hmem⟩ := divisors_range d hd2 hd
  have hne : ∀ m ∈ ds, m ≠ 0 := fun m hm => by have := hmem m hm; omega
  have hraw : ∀ m ∈ ds, m ≠ 0 ∧ ∃ v, sumAllRepeats w lo hi d m = some v := by
    intro m hm
    obtain ⟨h1, h2⟩ := hmem m hm
    refine ⟨by omega, ?_⟩
    obtain ⟨k, rfl⟩ := Int.eq_ofNat_of_zero_le (show 0 ≤ m by omega)
    exact ⟨_, sumAllRepeats_unfold w hw lo hi d k hd (by omega) (by omega)⟩
  obtain ⟨raw, hr⟩ := rawLoop_some w lo hi d ds hraw (fun _ => 0)
  obtain ⟨r, he⟩ := exactLoop_some w d ds raw hne ds hne (fun _ => 0) total
  exact ⟨r.2, by simp [blockStep, hds, hr, he]⟩

/-- The clamped digit count is at most 18. -/
theorem clampDigits_le (hi : Int) : clampDigits hi ≤ 18 := by
  have hlen : (pow10Table.length : Int) = 19 := by decide
  unfold clampDigits
  simp only [hlen]
  split_ifs with h <;> omega

/-- The function `sumInvalidAtLeastTwice` returns a value for every range, in
either arithmetic. -/
theorem sumInvalidAtLeastTwice_some (w : Int → Int) (hw : Faithful w) (lo hi : Int) :
    ∃ v, sumInvalidAtLeastTwice w lo hi = some v := by
  unfold sumInvalidAtLeastTwice
  apply foldlM_some
  intro d hd t
  simp only [List.mem_map, List.mem_range'_1] at hd
  obtain ⟨k, ⟨hk1, hk2⟩, rfl⟩ := hd
  have := clampDigits_le hi
  exact blockStep_some w hw lo hi t k hk1 (by omega)

/-- The function `sumInvalidInRange` returns a value for every range, in either
arithmetic. -/
theorem sumInvalidInRange_some (w : Int → Int) (hw : Faithful w) (lo hi : Int) :
    ∃ v, sumInvalidInRange w lo hi = some v := by
  unfold sumInvalidInRange
  apply foldlM_some
  intro d hd t
  simp only [List.mem_map, List.mem_range'] at hd
  obtain ⟨k, ⟨i, hi1, rfl⟩, rfl⟩ := hd
  have hc := clampDigits_le hi
  have hi2 : i < 9 := by
    have : (Int.tdiv (clampDigits hi) 2).toNat ≤ 9 := by
      rcases le_or_lt 0 (clampDigits hi) with h0 | h0
      · rw [Int.tdiv_eq_ediv h0 (by norm_num)]
        omega
      · have := tdiv_nonpos_of_neg _ 2 h0 (by norm_num)
        omega
    omega
  have e : Int.ofNat (2 + 2 * i) = ((2 * (i + 1) : Nat) : Int) := by
    simp only [Int.ofNat_eq_coe]; congr 1; ring
  rw [e]
  exact ⟨_, doubleStep_unfold w hw lo hi t (i + 1) (by omega) (by omega)⟩

/-! ## The claims -/

/-- C4. Divisor enumeration: for `1 ≤ n ≤ 18`, `divisors n` returns a strictly
ascending list whose members are exactly the positive integers `i` with
`n mod i = 0`; it starts with `1` and ends with `n`. -/
theorem divisors_spec (n : Int) (h1 : 1 ≤ n) (h18 : n ≤ 18) :
    ∃ ds, divisors n = some ds
      ∧ List.Pairwise (· < ·) ds
      ∧ (∀ i : Int, i ∈ ds ↔ (0 < i ∧ n % i = 0))
      ∧ ds.head? = some 1 ∧ ds.getLast? = some n := by
  have key : (divisors n).isSome = true
      ∧ List.Pairwise (· < ·) ((divisors n).getD [])
      ∧ (∀ i ∈ (divisors n).getD [], 0 < i ∧ n % i = 0)
      ∧ (∀ i ∈ List.range' 1 18, n % (i : Int) = 0 → (i : Int) ∈ (divisors n).getD [])
      ∧ ((divisors n).getD []).head? = some 1 ∧ ((divisors n).getD []).getLast? = some n := by
    interval_cases n <;> decide
  cases h : divisors n with
  | none => simp [h] at key
  | some ds =>
    simp only [h, Option.getD_some] at key
    obtain ⟨_, k1, k2, k3, k4, k5⟩ := key
    refine ⟨ds, rfl, k1, ?_, k4, k5⟩
    intro i
    constructor
    · exact k2 i
    · rintro ⟨hi0, hi1⟩
      have hle : i ≤ n := Int.le_of_dvd (by omega) (Int.dvd_of_emod_eq_zero hi1)
      obtain ⟨j, rfl⟩ := Int.eq_ofNat_of_zero_le (le_of_lt hi0)
      exact k3 j (by simp only [List.mem_range'_1]; omega) hi1

/-- Witness of C4 at `n = 12`. -/
theorem divisors_spec_witness :
    ((1 : Int) ≤ 12 ∧ (12 : Int) ≤ 18)
      ∧ divisors 12 = some [1, 2, 3, 4, 6, 12]
      ∧ ∃ ds, divisors 12 = some ds
        ∧ List.Pairwise (· < ·) ds
        ∧ (∀ i : Int, i ∈ ds ↔ (0 < i ∧ (12 : Int) % i = 0))
        ∧ ds.head? = some 1 ∧ ds.getLast? = some 12 :=
  ⟨⟨by decide, by decide⟩, by decide, divisors_spec 12 (by decide) (by decide)⟩

theorem normalise_swap (r : Int × Int) : normalise r.swap = normalise r := by
  obtain ⟨a, b⟩ := r
  simp only [normalise, Prod.swap]
  split_ifs with h1 h2 h2
  · omega
  · rfl
  · rfl
  · have : a = b := by omega
    rw [this]

/-- C5. Range-order invariance: `solvePart1` and `solvePart2` return the same
result on the range written `(b, a)` as on the range written `(a, b)`; more
generally on a line in which every range is written in the other order. This
holds in exact and in 64-bit arithmetic alike. -/
theorem range_order_invariance (w : Int → Int) (a b : Int) (ranges : List (Int × Int)) :
    solvePart1 w [(b, a)] = solvePart1 w [(a, b)]
      ∧ solvePart2 w [(b, a)] = solvePart2 w [(a, b)]
      ∧ solvePart1 w (ranges.map Prod.swap) = solvePart1 w ranges
      ∧ solvePart2 w (ranges.map Prod.swap) = solvePart2 w ranges := by
  have h1 : ∀ l : List (Int × Int), ∀ t,
      (l.map Prod.swap).foldlM (fun total r =>
        (sumInvalidInRange w (normalise r).1 (normalise r).2).map fun s => w (total + s)) t
      = l.foldlM (fun total r =>
        (sumInvalidInRange w (normalise r).1 (normalise r).2).map fun s => w (total + s)) t := by
    intro l
    induction l with
    | nil => intro t; rfl
    | cons r l ih =>
      intro t
      simp only [List.map_cons, List.foldlM_cons, normalise_swap]
      congr 1
      funext t'
      exact ih t'
  have h2 : ∀ l : List (Int × Int), ∀ t,
      (l.map Prod.swap).foldlM (fun total r =>
        (sumInvalidAtLeastTwice w (normalise r).1 (normalise r).2).map fun s => w (total + s)) t
      = l.foldlM (fun total r =>
        (sumInvalidAtLeastTwice w (normalise r).1 (normalise r).2).map fun s => w (total + s)) t := by
    intro l
    induction l with
    | nil => intro t; rfl
    | cons r l ih =>
      intro t
      simp only [List.map_cons, List.foldlM_cons, normalise_swap]
      congr 1
      funext t'
      exact ih t'
  exact ⟨h1 [(a, b)] 0, h2 [(a, b)] 0, h1 ranges 0, h2 ranges 0⟩

/-- C6. Assembled integers have exactly `d` digits: for `d` in `2..18`, a divisor
`m` of `d` with `d / m ≥ 2` and a block `10^(m-1) ≤ h ≤ 10^m - 1`, the integer
`h * R` with `R = (pow10 d - 1) / (pow10 m - 1)` satisfies `countDigits (h * R) = d`,
that is `10^(d-1) ≤ h * R < 10^d`. -/
theorem assembled_digits (d m : Nat) (h : Int) (_hd2 : 2 ≤ d) (hd : d ≤ 18) (hm : 1 ≤ m)
    (hdiv : m ∣ d) (_hr : 2 ≤ d / m) (h1 : 10 ^ (m - 1) ≤ h) (h2 : h ≤ 10 ^ m - 1) :
    countDigits (h * Int.tdiv (pow10 d - 1) (pow10 m - 1)) = d
      ∧ 10 ^ (d - 1) ≤ h * Int.tdiv (pow10 d - 1) (pow10 m - 1)
      ∧ h * Int.tdiv (pow10 d - 1) (pow10 m - 1) < 10 ^ d := by
  have hmd : m ≤ d := Nat.le_of_dvd (by omega) hdiv
  have hb := pow10_sub_one_pos m hm
  have hdm : (10 : Int) ^ m ≤ 10 ^ d := pow_le_pow_right₀ (by norm_num) hmd
  have hq : Int.tdiv ((10 : Int) ^ d - 1) (10 ^ m - 1) = repFactor d m :=
    Int.tdiv_eq_ediv (by omega) (by omega)
  rw [pow10_eq d hd, pow10_eq m (le_trans hmd hd), hq]
  have hblk : Blk d m (h * repFactor d m) := ⟨h, h1, h2, mul_comm _ _⟩
  obtain ⟨b1, b2, _⟩ := (blk_iff_dvd d m _ hm (by omega) hdiv).1 hblk
  exact ⟨countDigits_eq _ d b1 b2, b1, b2⟩

/-- Witness of C6 at `d = 6`, `m = 2`, `h = 52`: the integer `525252`. -/
theorem assembled_digits_witness :
    (2 ≤ 6 ∧ 6 ≤ 18 ∧ 1 ≤ 2 ∧ 2 ∣ 6 ∧ 2 ≤ 6 / 2 ∧ (10 : Int) ^ (2 - 1) ≤ 52
        ∧ (52 : Int) ≤ 10 ^ 2 - 1)
      ∧ (52 : Int) * Int.tdiv (pow10 (6 : Nat) - 1) (pow10 (2 : Nat) - 1) = 525252
      ∧ countDigits (52 * Int.tdiv (pow10 (6 : Nat) - 1) (pow10 (2 : Nat) - 1)) = (6 : Nat) :=
  ⟨⟨by decide, by decide, by decide, by decide, by decide, by decide, by decide⟩, by decide,
    (assembled_digits 6 2 52 (by decide) (by decide) (by decide) (by decide) (by decide)
      (by decide) (by decide)).1⟩

theorem wrap_add (w : Int → Int) (hw : w = id ∨ w = wrap64) (a b : Int) :
    w (w a + b) = w (a + b) := by
  rcases hw with rfl | rfl
  · rfl
  · unfold wrap64
    norm_num
    omega

theorem wrap_zero (w : Int → Int) (hw : w = id ∨ w = wrap64) : w 0 = 0 := by
  rcases hw with rfl | rfl
  · rfl
  · decide

/-- A loop that adds one value per range returns the (normalised) sum of the
values. -/
theorem solve_fold (w : Int → Int) (hw : w = id ∨ w = wrap64) (f : Int × Int → Option Int)
    (hf : ∀ r, ∃ v, f r = some v) (rs : List (Int × Int)) :
    ∃ vals : List Int, List.Forall₂ (fun r v => f r = some v) rs vals
      ∧ ∀ t, w t = t → rs.foldlM (fun total r => (f r).map fun s => w (total + s)) t
          = some (w (t + vals.sum)) := by
  induction rs with
  | nil => exact ⟨[], List.Forall₂.nil, fun t ht => by simp [ht]⟩
  | cons r rs ih =>
    obtain ⟨v, hv⟩ := hf r
    obtain ⟨vals, h1, h2⟩ := ih
    refine ⟨v :: vals, List.Forall₂.cons hv h1, fun t _ => ?_⟩
    have hidem : w (w (t + v)) = w (t + v) := by
      have := wrap_add w hw (t + v) 0
      simpa using this
    rw [List.foldlM_cons, hv]
    simp only [Option.map_some', Option.bind_eq_bind, Option.some_bind]
    rw [h2 _ hidem, wrap_add w hw, List.sum_cons, add_assoc]

/-- C7. Per-range summation without deduplication, in exact (`w = id`) and in
64-bit (`w = wrap64`) arithmetic: the total of `solvePart2` (resp. `solvePart1`)
is the sum, normalised by `w`, of the values of `sumInvalidAtLeastTwice` (resp.
`sumInvalidInRange`) on the normalised ranges; the total of a concatenation is
the sum of the two totals; and the ranges `(11,11),(11,11)` give `22`. -/
theorem per_range_summation (w : Int → Int) (hw : w = id ∨ w = wrap64)
    (rs A B : List (Int × Int)) :
    (∃ vals : List Int,
        List.Forall₂ (fun r v =>
          sumInvalidAtLeastTwice w (normalise r).1 (normalise r).2 = some v) rs vals
        ∧ solvePart2 w rs = some (w vals.sum))
      ∧ (∃ vals : List Int,
        List.Forall₂ (fun r v =>
          sumInvalidInRange w (normalise r).1 (normalise r).2 = some v) rs vals
        ∧ solvePart1 w rs = some (w vals.sum))
      ∧ (∃ a b, solvePart2 w A = some a ∧ solvePart2 w B = some b
        ∧ solvePart2 w (A ++ B) = some (w (a + b)))
      ∧ (∃ a b, solvePart1 w A = some a ∧ solvePart1 w B = some b
        ∧ solvePart1 w (A ++ B) = some (w (a + b)))
      ∧ solvePart2 w [(11, 11), (11, 11)] = some 22
      ∧ solvePart1 w [(11, 11), (11, 11)] = some 22 := by
  have hF := faithful_of w hw
  have h0 := wrap_zero w hw
  have f2 : ∀ r : Int × Int, ∃ v,
      sumInvalidAtLeastTwice w (normalise r).1 (normalise r).2 = some v :=
    fun r => sumInvalidAtLeastTwice_some w hF _ _
  have f1 : ∀ r : Int × Int, ∃ v,
      sumInvalidInRange w (normalise r).1 (normalise r).2 = some v :=
    fun r => sumInvalidInRange_some w hF _ _
  have key : ∀ (f : Int × Int → Option Int), (∀ r, ∃ v, f r = some v) →
      ∀ l : List (Int × Int), ∃ vals : List Int, List.Forall₂ (fun r v => f r = some v) l vals
        ∧ l.foldlM (fun total r => (f r).map fun s => w (total + s)) 0 = some (w vals.sum) := by
    intro f hf l
    obtain ⟨vals, h1, h2⟩ := solve_fold w hw f hf l
    exact ⟨vals, h1, by simpa using h2 0 h0⟩
  have cat : ∀ (f : Int × Int → Option Int), (∀ r, ∃ v, f r = some v) →
      ∃ a b, A.foldlM (fun total r => (f r).map fun s => w (total + s)) 0 = some a
        ∧ B.foldlM (fun total r => (f r).map fun s => w (total + s)) 0 = some b
        ∧ (A ++ B).foldlM (fun total r => (f r).map fun s => w (total + s)) 0
            = some (w (a + b)) := by
    intro f hf
    obtain ⟨va, _, ha⟩ := solve_fold w hw f hf A
    obtain ⟨vb, _, hb⟩ := solve_fold w hw f hf B
    have hidem : w (w va.sum) = w va.sum := by
      have := wrap_add w hw va.sum 0
      simpa using this
    have ea := ha 0 h0
    have eb := hb 0 h0
    rw [zero_add] at ea eb
    refine ⟨_, _, ea, eb, ?_⟩
    rw [List.foldlM_append, ea]
    simp only [Option.bind_eq_bind, Option.some_bind]
    have e1 : w (w va.sum + vb.sum) = w (va.sum + vb.sum) := wrap_add w hw _ _
    have e2 : w (w va.sum + w vb.sum) = w (va.sum + vb.sum) := by
      rw [wrap_add w hw, add_comm, wrap_add w hw, add_comm]
    rw [hb _ hidem, e1, e2]
  refine ⟨key _ f2 rs, key _ f1 rs, cat _ f2, cat _ f1, ?_, ?_⟩
  · rcases hw with rfl | rfl <;> decide
  · rcases hw with rfl | rfl <;> decide

/-- Witness of C7 in 64-bit arithmetic, for the line `11-22,95-115` split in two:
the totals are `33` and `210`, and `243` together. -/
theorem per_range_summation_witness :
    (wrap64 = id ∨ wrap64 = wrap64)
      ∧ solvePart2 wrap64 [(11, 22)] = some 33
      ∧ solvePart2 wrap64 [(95, 115)] = some 210
      ∧ solvePart2 wrap64 ([(11, 22)] ++ [(95, 115)]) = some 243
      ∧ ∃ a b, solvePart2 wrap64 [(11, 22)] = some a ∧ solvePart2 wrap64 [(95, 115)] = some b
        ∧ solvePart2 wrap64 ([(11, 22)] ++ [(95, 115)]) = some (wrap64 (a + b)) :=
  ⟨Or.inr rfl, by decide, by decide, by decide,
    (per_range_summation wrap64 (Or.inr rfl) [] [(11, 22)] [(95, 115)]).2.2.1⟩

theorem tdiv_ge_of_neg (a b : Int) (ha : a < 0) (hb : 0 < b) : a ≤ Int.tdiv a b := by
  have h1 := Int.neg_tdiv a b
  have h2 : Int.tdiv (-a) b = (-a) / b := Int.tdiv_eq_ediv (by omega) (by omega)
  have h3 : (-a) / b ≤ -a := Int.ediv_le_self _ (by omega)
  omega

theorem lowBlock_ge (w : Int → Int) (R lo minB : Int) : minB ≤ lowBlock w R lo minB := by
  unfold lowBlock
  split_ifs with h <;> omega

theorem highBlock_le (w : Int → Int) (R hi maxB : Int) :
    highBlock w R hi maxB ≤ w (Int.tdiv hi R) := by
  unfold highBlock
  split_ifs with h <;> omega

/-- C8. Empty-intersection boundary, in exact (`w = id`) and in 64-bit
(`w = wrap64`, with `lo` a 64-bit integer) arithmetic: for `d` in `2..18`, a
divisor `m < d` of `d` and `lo ≤ hi < 10^(m-1) * R`, `R = (10^d - 1) / (10^m - 1)`,
`sumAllRepeats lo hi d m` is `0`; and for `1 ≤ lo ≤ hi ≤ 10` both counters
return `0`. -/
theorem empty_intersection (w : Int → Int) (hw : w = id ∨ w = wrap64) (d m : Nat) (lo hi : Int)
    (_hd2 : 2 ≤ d) (hd : d ≤ 18) (hm : 1 ≤ m) (hmd : m < d) (_hdiv : m ∣ d)
    (hrange : w = wrap64 → -2 ^ 63 ≤ lo) (hle : lo ≤ hi)
    (hhi : hi < 10 ^ (m - 1) * ((10 ^ d - 1) / (10 ^ m - 1))) :
    sumAllRepeats w lo hi d m = some 0
      ∧ ∀ lo' hi' : Int, 1 ≤ lo' → lo' ≤ hi' → hi' ≤ 10 →
          sumInvalidInRange w lo' hi' = some 0 ∧ sumInvalidAtLeastTwice w lo' hi' = some 0 := by
  constructor
  · have hR := repFactor_pos d m hm (le_of_lt hmd)
    have hR18 := repFactor_le d m hd hm
    obtain ⟨hp1, hp2⟩ := pow10_nat_bounds (m - 1) (by omega)
    have hhi' : hi < 10 ^ (m - 1) * repFactor d m := hhi
    have hq1 : Int.tdiv hi (repFactor d m) < 10 ^ (m - 1) := by
      rcases lt_or_le hi 0 with hneg | hpos
      · have := tdiv_nonpos_of_neg hi _ hneg hR
        omega
      · rw [Int.tdiv_eq_ediv hpos (le_of_lt hR)]
        exact Int.ediv_lt_of_lt_mul hR hhi'
    have hwq : w (Int.tdiv hi (repFactor d m)) = Int.tdiv hi (repFactor d m) := by
      rcases hw with rfl | rfl
      · rfl
      · apply wrap64_of_range
        · rcases lt_or_le hi 0 with hneg | hpos
          · have := tdiv_ge_of_neg hi _ hneg hR
            have := hrange rfl
            omega
          · have := Int.tdiv_nonneg hpos (le_of_lt hR)
            omega
        · omega
    rw [sumAllRepeats_unfold w (faithful_of w hw) lo hi d m hd hm (le_of_lt hmd)]
    have h1 := lowBlock_ge w (repFactor d m) lo (10 ^ (m - 1))
    have h2 := highBlock_le w (repFactor d m) hi (10 ^ m - 1)
    rw [hwq] at h2
    rw [if_pos (by omega)]
  · intro lo' hi' h1 h2 h3
    have h4 : 1 ≤ hi' := le_trans h1 h2
    rcases hw with rfl | rfl
    · interval_cases hi' <;> interval_cases lo' <;> exact ⟨by decide, by decide⟩
    · interval_cases hi' <;> interval_cases lo' <;> exact ⟨by decide, by decide⟩

/-- Witness of C8 in 64-bit arithmetic at `d = 4`, `m = 2`, `[lo, hi] = [1, 1009]`
(the smallest repeated value is `1010`), and at the range `[1, 9]`. -/
theorem empty_intersection_witness :
    ((wrap64 = id ∨ wrap64 = wrap64) ∧ 2 ≤ 4 ∧ 4 ≤ 18 ∧ 1 ≤ 2 ∧ 2 < 4 ∧ 2 ∣ 4
        ∧ (wrap64 = wrap64 → (-2 : Int) ^ 63 ≤ 1) ∧ (1 : Int) ≤ 1009
        ∧ (1009 : Int) < 10 ^ (2 - 1) * ((10 ^ 4 - 1) / (10 ^ 2 - 1)))
      ∧ sumAllRepeats wrap64 1 1009 4 2 = some 0
      ∧ sumInvalidInRange wrap64 1 9 = some 0 ∧ sumInvalidAtLeastTwice wrap64 1 9 = some 0 :=
  have h := empty_intersection wrap64 (Or.inr rfl) 4 2 1 1009 (by decide) (by decide) (by decide)
    (by decide) (by decide) (fun _ => by decide) (by decide) (by decide)
  ⟨⟨Or.inr rfl, by decide, by decide, by decide, by decide, by decide, fun _ => by decide,
    by decide, by decide⟩, h.1, h.2 1 9 (by decide) (by decide) (by decide)⟩

/-- Counterexample to C9 as stated: with block length `m = 0` the divisor
`pow10 m - 1` is zero, and with `d = 1 < m = 2` the repeat factor
`(pow10 d - 1) / (pow10 m - 1)` is zero; in both cases `sumAllRepeats` divides by
zero instead of returning `0`. -/
theorem division_guard_counterexample :
    (pow10 0 - 1 = 0 ∧ sumAllRepeats wrap64 1 100 2 0 = none
        ∧ sumAllRepeats id 1 100 2 0 = none)
      ∧ (Int.tdiv (pow10 1 - 1) (pow10 2 - 1) = 0 ∧ sumAllRepeats wrap64 1 100 1 2 = none
        ∧ sumAllRepeats id 1 100 1 2 = none) := by
  decide

/-- C9, amended. In exact and in 64-bit arithmetic, for all integers `lo`, `hi`,
`d`, `m`: `sumAllRepeats lo hi d m` returns `0` whenever `pow10 d` or `pow10 m` is
zero (an exponent outside `0..18`); and it divides by zero exactly when both
exponents are in `0..18` and `m = 0` or `d < m`. In particular it does not
divide by zero when `1 ≤ m ≤ d ≤ 18`. -/
theorem division_guard (w : Int → Int) (hw : w = id ∨ w = wrap64) (lo hi d m : Int) :
    ((pow10 d = 0 ∨ pow10 m = 0) → sumAllRepeats w lo hi d m = some 0)
      ∧ (sumAllRepeats w lo hi d m = none
          ↔ (0 ≤ d ∧ d ≤ 18 ∧ 0 ≤ m ∧ m ≤ 18 ∧ (m = 0 ∨ d < m))) := by
  have hF := faithful_of w hw
  have h0 := wrap_zero w hw
  have hzero : (pow10 d = 0 ∨ pow10 m = 0) → sumAllRepeats w lo hi d m = some 0 := by
    intro h
    unfold sumAllRepeats
    by_cases hdz : pow10 d = 0
    · simp [hdz]
    · have hmz : pow10 m = 0 := by tauto
      simp [hdz, hmz]
  refine ⟨hzero, ?_⟩
  by_cases hz : pow10 d = 0 ∨ pow10 m = 0
  · rw [hzero hz]
    simp only [reduceCtorEq, false_iff]
    rcases hz with hz | hz
    · have := (pow10_eq_zero_iff d).1 hz
      omega
    · have := (pow10_eq_zero_iff m).1 hz
      omega
  · push_neg at hz
    have hd := fun h => hz.1 ((pow10_eq_zero_iff d).2 h)
    have hm := fun h => hz.2 ((pow10_eq_zero_iff m).2 h)
    have hd0 : 0 ≤ d := by by_contra hc; exact hd (Or.inl (by omega))
    have hd18 : d ≤ 18 := by by_contra hc; exact hd (Or.inr (by omega))
    have hm0 : 0 ≤ m := by by_contra hc; exact hm (Or.inl (by omega))
    have hm18 : m ≤ 18 := by by_contra hc; exact hm (Or.inr (by omega))
    obtain ⟨D, rfl⟩ := Int.eq_ofNat_of_zero_le hd0
    obtain ⟨M, rfl⟩ := Int.eq_ofNat_of_zero_le hm0
    have hD : D ≤ 18 := by omega
    have hM : M ≤ 18 := by omega
    obtain ⟨hd1, hd2⟩ := pow10_nat_bounds D hD
    obtain ⟨hm1, hm2⟩ := pow10_nat_bounds M hM
    rcases Nat.eq_zero_or_pos M with hM0 | hMpos
    · subst hM0
      have : sumAllRepeats w lo hi (D : Int) ((0 : Nat) : Int) = none := by
        have p0 : pow10 0 = 1 := by decide
        unfold sumAllRepeats
        simp [pow10_eq D hD, p0, quo, h0, ne_of_gt (lt_of_lt_of_le one_pos hd1)]
      rw [this]
      simp
      omega
    · rcases Nat.lt_or_ge D M with hlt | hge
      · have hpow : (10 : Int) ^ D < 10 ^ M := pow_lt_pow_right₀ (by norm_num) hlt
        have hb := pow10_sub_one_pos M hMpos
        have w1 : w (10 ^ D - 1) = 10 ^ D - 1 := hF _ (by omega) (by omega)
        have w2 : w (10 ^ M - 1) = 10 ^ M - 1 := hF _ (by omega) (by omega)
        have hq : Int.tdiv ((10 : Int) ^ D - 1) (10 ^ M - 1) = 0 := by
          rw [Int.tdiv_eq_ediv (by omega) (by omega)]
          exact Int.ediv_eq_zero_of_lt (by omega) (by omega)
        have : sumAllRepeats w lo hi (D : Int) (M : Int) = none := by
          unfold sumAllRepeats
          simp [pow10_eq D hD, pow10_eq M hM, quo, ceilDiv, w1, w2, hq, h0,
            ne_of_gt (lt_of_lt_of_le one_pos hd1), ne_of_gt (lt_of_lt_of_le one_pos hm1),
            ne_of_gt hb]
        rw [this]
        simp
        omega
      · rw [sumAllRepeats_unfold w hF lo hi D M hD hMpos hge]
        simp only [reduceCtorEq, false_iff]
        omega

/-- Witness of C9 as amended, in 64-bit arithmetic at `d = 25`, `m = 3`: the
exponent `25` is outside the table and the result is `0`. -/
theorem division_guard_witness :
    (wrap64 = id ∨ wrap64 = wrap64) ∧ pow10 25 = 0 ∧ sumAllRepeats wrap64 1 100 25 3 = some 0 :=
  ⟨Or.inr rfl, by decide,
    (division_guard wrap64 (Or.inr rfl) 1 100 25 3).1 (Or.inl (by decide))⟩

/-- When `hi` is at least `R * maxB` the upper end of the block interval is
`maxB`, whatever `hi` is. -/
theorem highBlock_top (w : Int → Int) (hw : Faithful w) (R hi maxB : Int) (hR : 0 < R)
    (h1 : R * maxB ≤ hi) (h2 : hi < 2 ^ 63) (h0 : 0 ≤ hi) : highBlock w R hi maxB = maxB := by
  have hq : Int.tdiv hi R = hi / R := Int.tdiv_eq_ediv h0 (le_of_lt hR)
  have hge : maxB ≤ hi / R := by
    rw [Int.le_ediv_iff_mul_le hR, mul_comm]
    exact h1
  have hle : hi / R ≤ hi := Int.ediv_le_self _ h0
  have hnn : 0 ≤ hi / R := Int.ediv_nonneg h0 (le_of_lt hR)
  have hwq : w (hi / R) = hi / R := hw _ (by omega) (by omega)
  unfold highBlock
  rw [hq, hwq]
  split_ifs with h
  · rfl
  · omega

theorem foldlM_congr (f g : Int → Int → Option Int) (l : List Int)
    (h : ∀ d ∈ l, ∀ t, f t d = g t d) : ∀ t, l.foldlM f t = l.foldlM g t := by
  induction l with
  | nil => intro t; rfl
  | cons a l ih =>
    intro t
    rw [List.foldlM_cons, List.foldlM_cons, h a (List.mem_cons_self _ _) t]
    congr 1
    funext t'
    exact ih (fun d hd => h d (List.mem_cons_of_mem _ hd)) t'

theorem rawLoop_congr (w : Int → Int) (lo hi hi' d : Int) (l : List Int)
    (h : ∀ m ∈ l, sumAllRepeats w lo hi d m = sumAllRepeats w lo hi' d m) :
    ∀ raw, rawLoop w lo hi d l raw = rawLoop w lo hi' d l raw := by
  induction l with
  | nil => intro raw; rfl
  | cons m rest ih =>
    intro raw
    have ih' := ih (fun s hs => h s (List.mem_cons_of_mem _ hs))
    simp only [rawLoop, h m (List.mem_cons_self _ _), ih']

/-- Above `10^18 - 1` the upper bound of the range no longer matters to
`sumAllRepeats`. -/
theorem sumAllRepeats_ceiling (w : Int → Int) (hw : Faithful w) (lo hi : Int) (d m : Nat)
    (hd : d ≤ 18) (hm : 1 ≤ m) (hmd : m ≤ d) (h1 : 10 ^ 18 ≤ hi) (h2 : hi < 2 ^ 63) :
    sumAllRepeats w lo hi d m = sumAllRepeats w lo (10 ^ 18 - 1) d m := by
  have hR := repFactor_pos d m hm hmd
  have hb := pow10_sub_one_pos m hm
  obtain ⟨_, hd2⟩ := pow10_nat_bounds d hd
  have hmul : repFactor d m * (10 ^ m - 1) ≤ 10 ^ d - 1 := by
    unfold repFactor
    exact Int.ediv_mul_le _ (ne_of_gt hb)
  rw [sumAllRepeats_unfold w hw lo hi d m hd hm hmd,
    sumAllRepeats_unfold w hw lo (10 ^ 18 - 1) d m hd hm hmd,
    highBlock_top w hw _ hi _ hR (by omega) h2 (by omega),
    highBlock_top w hw _ (10 ^ 18 - 1) _ hR (by omega) (by norm_num) (by norm_num)]

theorem blockStep_ceiling (w : Int → Int) (hw : Faithful w) (lo hi total : Int) (d : Nat)
    (hd2 : 2 ≤ d) (hd : d ≤ 18) (h1 : 10 ^ 18 ≤ hi) (h2 : hi < 2 ^ 63) :
    blockStep w lo hi total d = blockStep w lo (10 ^ 18 - 1) total d := by
  obtain ⟨ds, hds, hmem⟩ := divisors_range d hd2 hd
  have hraw : ∀ m ∈ ds, sumAllRepeats w lo hi d m = sumAllRepeats w lo (10 ^ 18 - 1) d m := by
    intro m hm
    obtain ⟨b1, b2⟩ := hmem m hm
    obtain ⟨k, rfl⟩ := Int.eq_ofNat_of_zero_le (show 0 ≤ m by omega)
    exact sumAllRepeats_ceiling w hw lo hi d k hd (by omega) (by omega) h1 h2
  simp only [blockStep, hds, Option.some_bind, rawLoop_congr w lo hi (10 ^ 18 - 1) d ds hraw]

theorem doubleStep_ceiling (w : Int → Int) (hw : Faithful w) (lo hi total : Int) (k : Nat)
    (hk : 1 ≤ k) (hk9 : k ≤ 9) (h1 : 10 ^ 18 ≤ hi) (h2 : hi < 2 ^ 63) :
    doubleStep w lo hi total ((2 * k : Nat) : Int)
      = doubleStep w lo (10 ^ 18 - 1) total ((2 * k : Nat) : Int) := by
  obtain ⟨hk1, _⟩ := pow10_nat_bounds k (by omega)
  have hmul : ((10 : Int) ^ k + 1) * (10 ^ k - 1) ≤ 10 ^ 18 - 1 := by
    have e : ((10 : Int) ^ k + 1) * (10 ^ k - 1) = 10 ^ (2 * k) - 1 := by
      rw [two_mul, pow_add]; ring
    have := (pow10_nat_bounds (2 * k) (by omega)).2
    omega
  rw [doubleStep_unfold w hw lo hi total k hk hk9,
    doubleStep_unfold w hw lo (10 ^ 18 - 1) total k hk hk9,
    highBlock_top w hw _ hi _ (by omega) (by omega) h2 (by omega),
    highBlock_top w hw _ (10 ^ 18 - 1) _ (by omega) (by omega) (by norm_num) (by norm_num)]

theorem clampDigits_big (hi : Int) (h1 : 10 ^ 18 ≤ hi) (h2 : hi < 2 ^ 63) :
    clampDigits hi = 18 := by
  have hlen : (pow10Table.length : Int) = 19 := by decide
  have hc : countDigits hi = (19 : Nat) :=
    countDigits_eq hi 19 (by norm_num at h1 ⊢; omega) (by norm_num at h2 ⊢; omega)
  unfold clampDigits
  simp only [hc, hlen]
  norm_num

/-- C10. Precision ceiling by clamping, in exact and in 64-bit arithmetic: for
`1 ≤ lo < 10^18 ≤ hi ≤ 2^63 - 1` both counters return a value, and the value is
the one returned for the range `[lo, 10^18 - 1]`: integers of 19 digits
contribute nothing and nothing fails. -/
theorem precision_ceiling (w : Int → Int) (hw : w = id ∨ w = wrap64) (lo hi : Int)
    (_hlo : 1 ≤ lo) (_hlo18 : lo < 10 ^ 18) (hhi : 10 ^ 18 ≤ hi) (hmax : hi ≤ 2 ^ 63 - 1) :
    (∃ v, sumInvalidAtLeastTwice w lo hi = some v
        ∧ sumInvalidAtLeastTwice w lo (10 ^ 18 - 1) = some v)
      ∧ (∃ v, sumInvalidInRange w lo hi = some v
        ∧ sumInvalidInRange w lo (10 ^ 18 - 1) = some v) := by
  have hF := faithful_of w hw
  have h2 : hi < 2 ^ 63 := by omega
  have c1 := clampDigits_big hi hhi h2
  have c2 : clampDigits (10 ^ 18 - 1) = 18 := by
    have := clampDigits_eq (10 ^ 18 - 1) 18 (by norm_num) (by norm_num) le_rfl
    simpa using this
  have e1 : sumInvalidAtLeastTwice w lo hi = sumInvalidAtLeastTwice w lo (10 ^ 18 - 1) := by
    unfold sumInvalidAtLeastTwice
    rw [c1, c2]
    apply foldlM_congr
    intro d hd t
    simp only [List.mem_map, List.mem_range'_1] at hd
    obtain ⟨k, ⟨hk1, hk2⟩, rfl⟩ := hd
    exact blockStep_ceiling w hF lo hi t k hk1 (by omega) hhi h2
  have e2 : sumInvalidInRange w lo hi = sumInvalidInRange w lo (10 ^ 18 - 1) := by
    unfold sumInvalidInRange
    rw [c1, c2]
    apply foldlM_congr
    intro d hd t
    simp only [List.mem_map, List.mem_range'] at hd
    obtain ⟨k, ⟨i, hi1, rfl⟩, rfl⟩ := hd
    have hi2 : i < 9 := by
      have : (Int.tdiv 18 2).toNat = 9 := by decide
      omega
    have e : Int.ofNat (2 + 2 * i) = ((2 * (i + 1) : Nat) : Int) := by
      simp only [Int.ofNat_eq_coe]; congr 1; ring
    rw [e]
    exact doubleStep_ceiling w hF lo hi t (i + 1) (by omega) (by omega) hhi h2
  obtain ⟨v1, hv1⟩ := sumInvalidAtLeastTwice_some w hF lo hi
  obtain ⟨v2, hv2⟩ := sumInvalidInRange_some w hF lo hi
  exact ⟨⟨v1, hv1, e1 ▸ hv1⟩, ⟨v2, hv2, e2 ▸ hv2⟩⟩

set_option maxRecDepth 100000 in
/-- Witness of C10 in 64-bit arithmetic at `lo = 999999999999999999`,
`hi = 2^63 - 1`: only `999999999999999999` is counted, and the 19-digit
repeated digit `1111111111111111111` alone contributes nothing. -/
theorem precision_ceiling_witness :
    ((wrap64 = id ∨ wrap64 = wrap64) ∧ (1 : Int) ≤ 999999999999999999
        ∧ (999999999999999999 : Int) < 10 ^ 18 ∧ (10 : Int) ^ 18 ≤ 2 ^ 63 - 1
        ∧ (2 : Int) ^ 63 - 1 ≤ 2 ^ 63 - 1)
      ∧ sumInvalidAtLeastTwice wrap64 999999999999999999 (2 ^ 63 - 1) = some 999999999999999999
      ∧ sumInvalidAtLeastTwice wrap64 1111111111111111111 1111111111111111111 = some 0
      ∧ (∃ v, sumInvalidAtLeastTwice wrap64 999999999999999999 (2 ^ 63 - 1) = some v
          ∧ sumInvalidAtLeastTwice wrap64 999999999999999999 (10 ^ 18 - 1) = some v) :=
  ⟨⟨Or.inr rfl, by decide, by decide, by decide, by decide⟩, by decide, by decide,
    (precision_ceiling wrap64 (Or.inr rfl) 999999999999999999 (2 ^ 63 - 1) (by decide)
      (by decide) (by decide) (by decide)).1⟩

/-- C13. Repeat factor identity: for `d` in `1..18` and a divisor `m ≥ 1` of `d`,
with `r = d / m`, the division `(pow10 d - 1) / (pow10 m - 1)` of `sumAllRepeats`
leaves no remainder and equals `1 + 10^m + ... + 10^((r-1) m)`; for `r = 2` it is
the multiplier `pow10 m + 1` of `sumInvalidInRange`. -/
theorem repeat_factor_identity (d m : Nat) (_hd1 : 1 ≤ d) (hd : d ≤ 18) (hm : 1 ≤ m)
    (hdiv : m ∣ d) :
    Int.tmod (pow10 d - 1) (pow10 m - 1) = 0
      ∧ Int.tdiv (pow10 d - 1) (pow10 m - 1) = ∑ i ∈ Finset.range (d / m), (10 : Int) ^ (i * m)
      ∧ (d / m = 2 → Int.tdiv (pow10 d - 1) (pow10 m - 1) = pow10 m + 1) := by
  have hmd : m ≤ d := Nat.le_of_dvd (by omega) hdiv
  have hb := pow10_sub_one_pos m hm
  have hdm : (10 : Int) ^ m ≤ 10 ^ d := pow_le_pow_right₀ (by norm_num) hmd
  have hq : Int.tdiv ((10 : Int) ^ d - 1) (10 ^ m - 1) = repFactor d m :=
    Int.tdiv_eq_ediv (by omega) (by omega)
  have hgeom : repFactor d m = ∑ i ∈ Finset.range (d / m), (10 : Int) ^ (i * m) := by
    have h := repFactor_eq_geom m (d / m) hm
    rw [Nat.mul_div_cancel' hdiv] at h
    rw [h]
    apply Finset.sum_congr rfl
    intro i _
    rw [← pow_mul, mul_comm]
  rw [pow10_eq d hd, pow10_eq m (le_trans hmd hd), hq]
  refine ⟨?_, hgeom, ?_⟩
  · rw [Int.tmod_eq_emod (by omega) (by omega)]
    exact Int.emod_eq_zero_of_dvd (pow10_sub_one_dvd m d hdiv)
  · intro h2
    rw [hgeom, h2]
    simp [Finset.sum_range_succ]
    ring

/-- Witness of C13 at `d = 6`, `m = 2`: the repeat factor is `10101 = 1 + 100 + 10000`. -/
theorem repeat_factor_identity_witness :
    (1 ≤ 6 ∧ 6 ≤ 18 ∧ 1 ≤ 2 ∧ 2 ∣ 6)
      ∧ Int.tdiv (pow10 (6 : Nat) - 1) (pow10 (2 : Nat) - 1) = 10101
      ∧ Int.tdiv (pow10 (6 : Nat) - 1) (pow10 (2 : Nat) - 1)
          = ∑ i ∈ Finset.range (6 / 2), (10 : Int) ^ (i * 2) :=
  ⟨⟨by decide, by decide, by decide, by decide⟩, by decide,
    (repeat_factor_identity 6 2 (by decide) (by decide) (by decide) (by decide)).2.1⟩

/-- A block written exactly twice is a repeated block. -/
theorem rep_of_isDouble (n : Int) (h : IsDouble n) : ∃ d : Nat, Rep d n := by
  obtain ⟨k, hk, b, hb1, hb2, hn⟩ := h
  refine ⟨k * 2, k, hk, by omega, dvd_mul_right k 2, b, hb1, hb2, ?_⟩
  rw [hn, repFactor_eq_geom k 2 hk]
  simp [Finset.sum_range_succ]
  ring

/-- A sum over the members of `[lo, hi]` with a property splits at `mid`. -/
theorem sum_filter_split (P : Int → Prop) [DecidablePred P] (lo mid hi : Int) (h1 : lo ≤ mid)
    (h2 : mid < hi) :
    ∑ n ∈ (Finset.Icc lo hi).filter P, n
      = ∑ n ∈ (Finset.Icc lo mid).filter P, n + ∑ n ∈ (Finset.Icc (mid + 1) hi).filter P, n := by
  have hu : Finset.Icc lo hi = Finset.Icc lo mid ∪ Finset.Icc (mid + 1) hi := by
    ext n
    simp only [Finset.mem_Icc, Finset.mem_union]
    omega
  have hd : Disjoint ((Finset.Icc lo mid).filter P) ((Finset.Icc (mid + 1) hi).filter P) := by
    rw [Finset.disjoint_left]
    intro n hn hn'
    simp only [Finset.mem_filter, Finset.mem_Icc] at hn hn'
    omega
  rw [hu, Finset.filter_union, Finset.sum_union hd]

/-! ## Overflow in the ceiling division -/

/-- When `a + b - 1` fits in 64 bits, `ceilDiv a b` is the least `q` with
`q * b ≥ a`, also in 64-bit arithmetic. -/
theorem ceilDiv_of_fit (w : Int → Int) (hw : w = id ∨ w = wrap64) (a b : Int) (ha : 1 ≤ a)
    (hb : 1 ≤ b) (hfit : a + b - 1 < 2 ^ 63) :
    ∃ q, ceilDiv w a b = some q ∧ a ≤ q * b ∧ (q - 1) * b < a := by
  have hin : w (w (a + b) - 1) = a + b - 1 := by
    rcases hw with rfl | rfl
    · rfl
    · unfold wrap64
      norm_num at hfit ⊢
      omega
  have hq : Int.tdiv (a + b - 1) b = (a + b - 1) / b := Int.tdiv_eq_ediv (by omega) (by omega)
  have hle : (a + b - 1) / b ≤ a + b - 1 := Int.ediv_le_self _ (by omega)
  have hnn : 0 ≤ (a + b - 1) / b := Int.ediv_nonneg (by omega) (by omega)
  have hwq : w ((a + b - 1) / b) = (a + b - 1) / b :=
    faithful_of w hw _ (by omega) (by omega)
  refine ⟨(a + b - 1) / b, ?_, ?_, ?_⟩
  · unfold ceilDiv quo
    rw [hin, if_neg (by omega), hq]
    simp [hwq]
  · have := Int.lt_ediv_add_one_mul_self (a + b - 1) (show 0 < b by omega)
    nlinarith
  · have := Int.ediv_mul_le (a + b - 1) (show b ≠ 0 by omega)
    nlinarith

/-- C20, at the failing input. In 64-bit arithmetic `ceilDiv (2^63 - 1) 11`, the
call made by `sumInvalidInRange (2^63 - 1) (2^63 - 1)` for two digits, returns
`-838488366986797799`, because `a + b` wraps around; the least `q` with
`q * 11 ≥ 2^63 - 1` is `838488366986797801`. -/
theorem ceilDiv_overflow :
    ((1 : Int) ≤ 2 ^ 63 - 1 ∧ (1 : Int) ≤ 11 ∧ (11 : Int) ≤ 2 ^ 63 - 1)
      ∧ ceilDiv wrap64 (2 ^ 63 - 1) 11 = some (-838488366986797799)
      ∧ ((2 : Int) ^ 63 - 1 ≤ 838488366986797801 * 11
          ∧ (838488366986797801 - 1) * 11 < (2 : Int) ^ 63 - 1)
      ∧ ceilDiv id (2 ^ 63 - 1) 11 = some 838488366986797801 := by
  decide

theorem foldlM_keep (step : Int → Int → Option Int) (l : List Int)
    (h : ∀ d ∈ l, ∀ t, step t d = some t) : ∀ t, l.foldlM step t = some t := by
  induction l with
  | nil => intro t; rfl
  | cons a l ih =>
    intro t
    rw [List.foldlM_cons, h a (List.mem_cons_self _ _) t]
    exact ih (fun d hd => h d (List.mem_cons_of_mem _ hd)) t

/-- Away from the overflow of the ceiling division, a range of 19-digit values
contributes nothing to the exact-double counter, in 64-bit arithmetic as well. -/
theorem sumInvalidInRange_19digits (w : Int → Int) (hw : w = id ∨ w = wrap64) (lo hi : Int)
    (hlo : 10 ^ 18 ≤ lo) (hle : lo ≤ hi) (hhi : hi ≤ 2 ^ 63 - 1)
    (hfit : lo + 10 ^ 9 ≤ 2 ^ 63 - 1) : sumInvalidInRange w lo hi = some 0 := by
  have hF := faithful_of w hw
  have c1 := clampDigits_big hi (by omega) (by omega)
  unfold sumInvalidInRange
  rw [c1]
  apply foldlM_keep
  intro d hd t
  simp only [List.mem_map, List.mem_range'] at hd
  obtain ⟨k, ⟨i, hi1, rfl⟩, rfl⟩ := hd
  have hi2 : i < 9 := by
    have : (Int.tdiv 18 2).toNat = 9 := by decide
    omega
  have e : Int.ofNat (2 + 2 * i) = ((2 * (i + 1) : Nat) : Int) := by
    simp only [Int.ofNat_eq_coe]; congr 1; ring
  rw [e, doubleStep_unfold w hF lo hi t (i + 1) (by omega) (by omega)]
  obtain ⟨hk1, hk2⟩ := pow10_nat_bounds (i + 1) (by omega)
  have hk9 : (10 : Int) ^ (i + 1) ≤ 10 ^ 9 := pow_le_pow_right₀ (by norm_num) (by omega)
  have hsq : ((10 : Int) ^ (i + 1) + 1) * (10 ^ (i + 1) - 1) < 10 ^ 18 := by
    have e2 : ((10 : Int) ^ (i + 1) + 1) * (10 ^ (i + 1) - 1) = 10 ^ (2 * (i + 1)) - 1 := by
      rw [two_mul, pow_add]; ring
    have := (pow10_nat_bounds (2 * (i + 1)) (by omega)).2
    omega
  obtain ⟨q, hq, hq1, hq2⟩ := ceilDiv_of_fit w hw lo (10 ^ (i + 1) + 1) (by omega) (by omega)
    (by norm_num at hfit hk9 ⊢; omega)
  have hqv : w (Int.tdiv (w (w (lo + (10 ^ (i + 1) + 1)) - 1)) (10 ^ (i + 1) + 1)) = q := by
    have hne : (10 : Int) ^ (i + 1) + 1 ≠ 0 := by omega
    simp only [ceilDiv, quo, if_neg hne, Option.map_some', Option.some.injEq] at hq
    exact hq
  have hqbig : 10 ^ (i + 1) - 1 < q := by
    by_contra hc
    push_neg at hc
    nlinarith
  have hlow : 10 ^ (i + 1) - 1 < lowBlock w (10 ^ (i + 1) + 1) lo (10 ^ (i + 1 - 1)) := by
    unfold lowBlock
    rw [hqv]
    split_ifs with h <;> omega
  have hhigh : highBlock w (10 ^ (i + 1) + 1) hi (10 ^ (i + 1) - 1) ≤ 10 ^ (i + 1) - 1 := by
    unfold highBlock
    split_ifs with h <;> omega
  rw [if_pos (by omega)]

set_option maxRecDepth 100000 in
/-- C11, at the failing input. In 64-bit arithmetic
`sumInvalidInRange (2^63 - 1) (2^63 - 1)` returns `-6712512274717866890`, not `0`:
`lo + basePlus` wraps around in `ceilDiv`, the lower block bound falls back to
the smallest block and every even digit length contributes all its doubles. -/
theorem sumInvalidInRange_overflow :
    ((10 : Int) ^ 18 ≤ 2 ^ 63 - 1 ∧ (2 : Int) ^ 63 - 1 ≤ 2 ^ 63 - 1)
      ∧ sumInvalidInRange wrap64 (2 ^ 63 - 1) (2 ^ 63 - 1) = some (-6712512274717866890)
      ∧ sumInvalidInRange id (2 ^ 63 - 1) (2 ^ 63 - 1) = some 0 := by
  decide

/-! ## The calls made by the counters -/

/-- The first loop of `sumInvalidAtLeastTwice` makes exactly the calls recorded by
`rawCalls`, in that order. -/
theorem rawLoop_eq_calls (w : Int → Int) (lo hi d : Int) (l : List Int) :
    ∀ raw, rawLoop w lo hi d l raw
      = (rawCalls d l).bind fun ms =>
          ms.foldlM (fun raw m => (sumAllRepeats w lo hi d m).map (Function.update raw m)) raw := by
  induction l with
  | nil => intro raw; rfl
  | cons m rest ih =>
    intro raw
    unfold rawLoop rawCalls
    cases hq : quo d m with
    | none => rfl
    | some r =>
      simp only [Option.some_bind]
      split_ifs with hr
      · exact ih raw
      · cases hs : sumAllRepeats w lo hi d m with
        | none =>
          cases hc : rawCalls d rest with
          | none => rfl
          | some ms => simp [hs]
        | some v =>
          simp only [Option.some_bind]
          rw [ih]
          cases hc : rawCalls d rest with
          | none => rfl
          | some ms => simp [hs]

theorem clampDigits_count_le (hi : Int) : (clampDigits hi - 1).toNat ≤ 17 := by
  have := clampDigits_le hi
  omega

theorem repeatCallsUpTo_bounds (n : Nat) (hn : n ≤ 17) :
    ∃ calls, repeatCallsUpTo n = some calls
      ∧ ∀ c ∈ calls, 2 ≤ c.1 ∧ c.1 ≤ 18 ∧ 1 ≤ c.2 ∧ c.2 ≤ 9 ∧ Int.tmod c.1 c.2 = 0
          ∧ 99 ≤ pow10 c.1 - 1 ∧ 9 ≤ pow10 c.2 - 1
          ∧ 1 ≤ Int.tdiv (pow10 c.1 - 1) (pow10 c.2 - 1) := by
  have key : (repeatCallsUpTo n).isSome = true
      ∧ ∀ c ∈ (repeatCallsUpTo n).getD [], 2 ≤ c.1 ∧ c.1 ≤ 18 ∧ 1 ≤ c.2 ∧ c.2 ≤ 9
          ∧ Int.tmod c.1 c.2 = 0 ∧ 99 ≤ pow10 c.1 - 1 ∧ 9 ≤ pow10 c.2 - 1
          ∧ 1 ≤ Int.tdiv (pow10 c.1 - 1) (pow10 c.2 - 1) := by
    interval_cases n <;> decide
  cases h : repeatCallsUpTo n with
  | none => simp [h] at key
  | some calls => exact ⟨calls, rfl, by simpa [h] using key.2⟩

/-- C14. The counters are total in 64-bit arithmetic: for all `lo`, `hi` both
return a value (no division by zero); the table `pow10Table` is read only at an
index below its length; every call of `sumAllRepeats` has `2 ≤ d ≤ 18`,
`1 ≤ m ≤ 9`, `m` dividing `d`, `pow10 d - 1 ≥ 99`, `pow10 m - 1 ≥ 9` and a repeat
factor `≥ 1`; and the multiplier `10^k + 1` of `sumInvalidInRange` is `≥ 11`. -/
theorem counters_total (lo hi : Int) :
    (∃ v, sumInvalidInRange wrap64 lo hi = some v)
      ∧ (∃ v, sumInvalidAtLeastTwice wrap64 lo hi = some v)
      ∧ (∀ e : Int, ¬ (e < 0 ∨ e ≥ (pow10Table.length : Int)) →
          e.toNat < pow10Table.length ∧ pow10Table[e.toNat]? = some (pow10 e))
      ∧ (∃ calls, repeatCalls hi = some calls
          ∧ ∀ c ∈ calls, 2 ≤ c.1 ∧ c.1 ≤ 18 ∧ 1 ≤ c.2 ∧ c.2 ≤ 9 ∧ Int.tmod c.1 c.2 = 0
              ∧ 99 ≤ pow10 c.1 - 1 ∧ 9 ≤ pow10 c.2 - 1
              ∧ 1 ≤ Int.tdiv (pow10 c.1 - 1) (pow10 c.2 - 1))
      ∧ (∀ d ∈ (List.range' 2 (Int.tdiv (clampDigits hi) 2).toNat 2).map Int.ofNat,
          11 ≤ wrap64 (pow10 (Int.tdiv d 2) + 1)) := by
  refine ⟨sumInvalidInRange_some wrap64 faithful_wrap64 lo hi,
    sumInvalidAtLeastTwice_some wrap64 faithful_wrap64 lo hi, ?_,
    repeatCallsUpTo_bounds _ (clampDigits_count_le hi), ?_⟩
  · intro e he
    have hlen : (pow10Table.length : Int) = 19 := by decide
    have hlen' : pow10Table.length = 19 := by decide
    rw [hlen] at he
    push_neg at he
    obtain ⟨n, rfl⟩ := Int.eq_ofNat_of_zero_le he.1
    have hn : n < 19 := by omega
    simp only [Int.toNat_ofNat, hlen']
    refine ⟨hn, ?_⟩
    interval_cases n <;> decide
  · intro d hd
    simp only [List.mem_map, List.mem_range'] at hd
    obtain ⟨k, ⟨i, hi1, rfl⟩, rfl⟩ := hd
    have hc := clampDigits_le hi
    have hi2 : i < 9 := by
      have : (Int.tdiv (clampDigits hi) 2).toNat ≤ 9 := by
        rcases le_or_lt 0 (clampDigits hi) with h0 | h0
        · rw [Int.tdiv_eq_ediv h0 (by norm_num)]
          omega
        · have := tdiv_nonpos_of_neg _ 2 h0 (by norm_num)
          omega
      omega
    interval_cases i <;> decide

/-! ## The arithmetic progression in 64 bits -/

/-- For blocks of at most nine digits the progression step does not overflow. -/
theorem ap_step_exact (m : Nat) (hm9 : m ≤ 9) (a b : Int)
    (ha : 10 ^ (m - 1) ≤ a) (hab : a ≤ b) (hb : b ≤ 10 ^ m - 1) :
    Even ((a + b) * (b - a + 1)) ∧ (a + b) * (b - a + 1) ≤ 2 ^ 63 - 1
      ∧ wrap64 (Int.tdiv (wrap64 (wrap64 (a + b) * wrap64 (wrap64 (b - a) + 1))) 2)
          = ∑ h ∈ Finset.Icc a b, h := by
  have hp : (1 : Int) ≤ 10 ^ (m - 1) := one_le_pow₀ (by norm_num)
  have hq : (10 : Int) ^ m ≤ 10 ^ 9 := pow_le_pow_right₀ (by norm_num) hm9
  have h9 : (10 : Int) ^ 9 = 1000000000 := by norm_num
  have hsum := sum_Icc_closed a b hab
  have htwo : (a + b) * (b - a + 1) = (∑ h ∈ Finset.Icc a b, h) * 2 := by
    obtain ⟨n, hn⟩ := Int.eq_ofNat_of_zero_le (show 0 ≤ b - a by omega)
    have hb' : b = a + n := by omega
    subst hb'
    have h := sum_Icc_mul_two n a
    rw [h]; ring
  have hprod : (a + b) * (b - a + 1) ≤ 2000000000 * 1000000000 := by
    apply mul_le_mul <;> omega
  have hprod0 : 0 ≤ (a + b) * (b - a + 1) := by
    apply mul_nonneg <;> omega
  have w1 : wrap64 (a + b) = a + b := wrap64_of_range _ (by omega) (by omega)
  have w2 : wrap64 (b - a) = b - a := wrap64_of_range _ (by omega) (by omega)
  have w3 : wrap64 (b - a + 1) = b - a + 1 := wrap64_of_range _ (by omega) (by omega)
  have w4 : wrap64 ((a + b) * (b - a + 1)) = (a + b) * (b - a + 1) :=
    wrap64_of_range _ (by omega) (by norm_num; omega)
  refine ⟨⟨∑ h ∈ Finset.Icc a b, h, by rw [htwo]; ring⟩, by norm_num; omega, ?_⟩
  rw [w1, w2, w3, w4, hsum]
  apply wrap64_of_range
  · omega
  · norm_num; omega

/-- C15. The arithmetic-progression step is exact in 64 bits. For a pair `(d, m)`
reached from the counters (block length at most 9) and all `lo`, `hi`: when the
clamped bounds satisfy `hMin ≤ hMax`, then `10^(m-1) ≤ hMin ≤ hMax ≤ 10^m - 1`,
the product `(hMin + hMax) * (hMax - hMin + 1)` is even and at most `2^63 - 1`,
`sumH` is the sum of the integers from `hMin` to `hMax`, and `sumAllRepeats`
returns the repeat factor times that sum (reduced to 64 bits). The same holds
for the step of `sumInvalidInRange` with multiplier `10^k + 1`. -/
theorem progression_exact (lo hi total : Int) (d m : Nat) (hd : d ≤ 18) (hm : 1 ≤ m)
    (hm9 : m ≤ 9) (hmd : m ≤ d) :
    (∀ hMin hMax : Int, hMin = lowBlock wrap64 (repFactor d m) lo (10 ^ (m - 1)) →
        hMax = highBlock wrap64 (repFactor d m) hi (10 ^ m - 1) → hMin ≤ hMax →
        10 ^ (m - 1) ≤ hMin ∧ hMax ≤ 10 ^ m - 1
          ∧ Even ((hMin + hMax) * (hMax - hMin + 1))
          ∧ (hMin + hMax) * (hMax - hMin + 1) ≤ 2 ^ 63 - 1
          ∧ wrap64 (Int.tdiv (wrap64 (wrap64 (hMin + hMax) * wrap64 (wrap64 (hMax - hMin) + 1))) 2)
              = ∑ h ∈ Finset.Icc hMin hMax, h
          ∧ sumAllRepeats wrap64 lo hi d m
              = some (wrap64 (repFactor d m * ∑ h ∈ Finset.Icc hMin hMax, h)))
      ∧ (∀ hMin hMax : Int, hMin = lowBlock wrap64 (10 ^ m + 1) lo (10 ^ (m - 1)) →
        hMax = highBlock wrap64 (10 ^ m + 1) hi (10 ^ m - 1) → hMin ≤ hMax →
        10 ^ (m - 1) ≤ hMin ∧ hMax ≤ 10 ^ m - 1
          ∧ Even ((hMin + hMax) * (hMax - hMin + 1))
          ∧ (hMin + hMax) * (hMax - hMin + 1) ≤ 2 ^ 63 - 1
          ∧ wrap64 (Int.tdiv (wrap64 (wrap64 (hMin + hMax) * wrap64 (wrap64 (hMax - hMin) + 1))) 2)
              = ∑ h ∈ Finset.Icc hMin hMax, h
          ∧ doubleStep wrap64 lo hi total ((2 * m : Nat) : Int)
              = some (wrap64 (total
                  + wrap64 ((10 ^ m + 1) * ∑ h ∈ Finset.Icc hMin hMax, h)))) := by
  constructor
  · intro hMin hMax e1 e2 hle
    have h1 : 10 ^ (m - 1) ≤ hMin := by rw [e1]; exact lowBlock_ge _ _ _ _
    have h2 : hMax ≤ 10 ^ m - 1 := by
      rw [e2]; unfold highBlock; split_ifs with h <;> omega
    obtain ⟨a1, a2, a3⟩ := ap_step_exact m hm9 hMin hMax h1 hle h2
    refine ⟨h1, h2, a1, a2, a3, ?_⟩
    rw [sumAllRepeats_unfold wrap64 faithful_wrap64 lo hi d m hd hm hmd, ← e1, ← e2,
      if_neg (by omega)]
    unfold progression
    rw [a3]
  · intro hMin hMax e1 e2 hle
    have h1 : 10 ^ (m - 1) ≤ hMin := by rw [e1]; exact lowBlock_ge _ _ _ _
    have h2 : hMax ≤ 10 ^ m - 1 := by
      rw [e2]; unfold highBlock; split_ifs with h <;> omega
    obtain ⟨a1, a2, a3⟩ := ap_step_exact m hm9 hMin hMax h1 hle h2
    refine ⟨h1, h2, a1, a2, a3, ?_⟩
    rw [doubleStep_unfold wrap64 faithful_wrap64 lo hi total m hm hm9, ← e1, ← e2,
      if_neg (by omega)]
    unfold progression
    rw [a3]

set_option maxRecDepth 100000 in
/-- Witness of C15 at `d = 18`, `m = 9` and the range `[1, 10^18 - 1]`: the bounds
are `10^8` and `10^9 - 1`, and the product is `989999999100000000`. -/
theorem progression_exact_witness :
    (18 ≤ 18 ∧ 1 ≤ 9 ∧ 9 ≤ 9 ∧ 9 ≤ 18)
      ∧ lowBlock wrap64 (repFactor 18 9) 1 (10 ^ (9 - 1)) = 100000000
      ∧ highBlock wrap64 (repFactor 18 9) (10 ^ 18 - 1) (10 ^ 9 - 1) = 999999999
      ∧ ((100000000 : Int) + 999999999) * (999999999 - 100000000 + 1) = 989999999100000000
      ∧ sumAllRepeats wrap64 1 (10 ^ 18 - 1) 18 9
          = some (wrap64 (repFactor 18 9
              * ∑ h ∈ Finset.Icc (100000000 : Int) 999999999, h)) :=
  ⟨⟨by decide, by decide, by decide, by decide⟩, by decide, by decide, by decide,
    ((progression_exact 1 (10 ^ 18 - 1) 0 18 9 (by decide) (by decide) (by decide)
      (by decide)).1 100000000 999999999 (by decide) (by decide) (by decide)).2.2.2.2.2⟩

/-! ## The minimal block length -/

/-- The loop body of `sumInvalidAtLeastTwice` returns the total of `blockState`. -/
theorem blockStep_eq_state (w : Int → Int) (lo hi total d : Int) :
    blockStep w lo hi total d = (blockState w lo hi total d).map Prod.snd := by
  unfold blockStep blockState
  cases divisors d with
  | none => rfl
  | some divs =>
    simp only [Option.some_bind]
    cases rawLoop w lo hi d divs (fun _ => 0) with
    | none => rfl
    | some raw => rfl

/-- A block of `m` digits repeated to `d` digits, read on the decimal string. -/
theorem hasBlock_of_blk (d m : Nat) (n : Int) (hm1 : 1 ≤ m) (hd : 1 ≤ d) (hdvd : m ∣ d)
    (h : Blk d m n) :
    (Nat.digits 10 n.toNat).length = d ∧ hasBlock (Nat.digits 10 n.toNat) m = true := by
  obtain ⟨r, rfl⟩ := hdvd
  obtain ⟨b, hb1, hb2, hn⟩ := h
  have hr : 1 ≤ r := by
    rcases Nat.eq_zero_or_pos r with h0 | h0
    · subst h0; simp at hd
    · exact h0
  have hp : (0 : Int) < 10 ^ (m - 1) := by positivity
  obtain ⟨B, rfl⟩ := Int.eq_ofNat_of_zero_le (show 0 ≤ b by omega)
  have hB1 : 10 ^ (m - 1) ≤ B := by exact_mod_cast hb1
  have hB2 : B < 10 ^ m := by
    have : (B : Int) < 10 ^ m := by omega
    exact_mod_cast this
  have hB0 : B ≠ 0 := by
    have : 0 < 10 ^ (m - 1) := by positivity
    omega
  have hlen := digits_length_eq B m hB1 hB2 hm1
  have hne : Nat.digits 10 B ≠ [] := Nat.digits_ne_nil_iff_ne_zero.2 hB0
  have hval : n = ((Nat.ofDigits 10 (List.replicate r (Nat.digits 10 B)).flatten : Nat) : Int) := by
    rw [ofDigits_flatten_replicate, Nat.ofDigits_digits, hlen, hn, repFactor_eq_geom m r hm1]
    push_cast
    ring
  have hdig : Nat.digits 10 n.toNat = (List.replicate r (Nat.digits 10 B)).flatten := by
    rw [hval, Int.toNat_ofNat]
    apply Nat.digits_ofDigits 10 (by norm_num)
    · intro l hl
      rw [List.mem_flatten] at hl
      obtain ⟨bl, hbl, hl⟩ := hl
      rw [List.eq_of_mem_replicate hbl] at hl
      exact Nat.digits_lt_base (by norm_num) hl
    · intro hnil
      obtain ⟨r', rfl⟩ : ∃ r', r = r' + 1 := ⟨r - 1, by omega⟩
      rw [getLast_flatten_replicate _ r' hne]
      exact Nat.getLast_digit_ne_zero 10 hB0
  have hL : (Nat.digits 10 n.toNat).length = r * m := by
    rw [hdig, length_flatten_replicate, hlen]
  have hmpos : 0 < m := by omega
  have htake : (Nat.digits 10 n.toNat).take m = Nat.digits 10 B := by
    obtain ⟨r', rfl⟩ : ∃ r', r = r' + 1 := ⟨r - 1, by omega⟩
    rw [hdig, List.replicate_succ, List.flatten_cons]
    exact List.take_left' hlen
  refine ⟨by rw [hL, mul_comm], ?_⟩
  unfold hasBlock
  simp only [decide_eq_true_eq]
  refine ⟨hm1, ?_, ?_⟩
  · rw [hL]; exact Nat.mul_mod_left r m
  · rw [hL, Nat.mul_div_cancel _ hmpos, htake]; exact hdig

/-- A decimal string of `d` digits that is its first `m` digits repeated is a
block of `m` digits repeated to `d` digits. -/
theorem blk_of_hasBlock (d m : Nat) (n : Int) (hd : 1 ≤ d)
    (hlen : (Nat.digits 10 n.toNat).length = d)
    (h : hasBlock (Nat.digits 10 n.toNat) m = true) : 1 ≤ m ∧ m ∣ d ∧ Blk d m n := by
  unfold hasBlock at h
  simp only [decide_eq_true_eq] at h
  obtain ⟨hm1, hmod, hs⟩ := h
  rw [hlen] at hmod hs
  have hdvd : m ∣ d := Nat.dvd_of_mod_eq_zero hmod
  have hmd : m ≤ d := Nat.le_of_dvd (by omega) hdvd
  have hN : n.toNat ≠ 0 := by
    intro h0
    rw [h0] at hlen
    simp at hlen
    omega
  have hn : ((n.toNat : Nat) : Int) = n := Int.toNat_of_nonneg (by omega)
  have hdm : d = m * (d / m) := (Nat.mul_div_cancel' hdvd).symm
  have hblen : ((Nat.digits 10 n.toNat).take m).length = m := by
    rw [List.length_take, hlen]; omega
  refine ⟨hm1, hdvd, ?_⟩
  rw [blk_iff_dvd d m n hm1 hd hdvd]
  obtain ⟨b1, b2⟩ := digits_length_bounds n.toNat hN
  rw [hlen] at b1 b2
  refine ⟨?_, ?_, ?_⟩
  · rw [← hn]; exact_mod_cast b1
  · rw [← hn]; exact_mod_cast b2
  · have hval : n.toNat = Nat.ofDigits 10 ((Nat.digits 10 n.toNat).take m)
        * ∑ i ∈ Finset.range (d / m), (10 ^ m) ^ i := by
      have := ofDigits_flatten_replicate ((Nat.digits 10 n.toNat).take m) (d / m)
      rw [← hs, hblen, Nat.ofDigits_digits] at this
      exact this
    have hg := repFactor_eq_geom m (d / m) hm1
    rw [← hdm] at hg
    refine ⟨(Nat.ofDigits 10 ((Nat.digits 10 n.toNat).take m) : Int), ?_⟩
    have h1 : ((n.toNat : Nat) : Int)
        = repFactor d m * (Nat.ofDigits 10 ((Nat.digits 10 n.toNat).take m) : Int) := by
      rw [hg]
      conv_lhs => rw [hval]
      push_cast
      ring
    rw [← h1]
    exact hn.symm

/-- The minimal block length read on the decimal string and on the repeat
factors agree. -/
theorem minBlk_iff_minimalBlock (d m : Nat) (n : Int) (hm : 1 ≤ m) (hd : 1 ≤ d) (hdvd : m ∣ d) :
    MinBlk d m n
      ↔ ((Nat.digits 10 n.toNat).length = d ∧ minimalBlock n.toNat m = true) := by
  unfold minimalBlock MinBlk
  simp only [Bool.and_eq_true, List.all_eq_true, List.mem_range, Bool.not_eq_true',
    Bool.not_eq_eq_eq_not, Bool.not_true]
  constructor
  · rintro ⟨h1, h2⟩
    obtain ⟨hl, hb⟩ := hasBlock_of_blk d m n hm hd hdvd h1
    refine ⟨hl, hb, ?_⟩
    intro t ht
    by_contra hc
    have hc' : hasBlock (Nat.digits 10 n.toNat) t = true := by
      cases hv : hasBlock (Nat.digits 10 n.toNat) t with
      | true => rfl
      | false => exact absurd hv hc
    obtain ⟨t1, t2, t3⟩ := blk_of_hasBlock d t n hd hl hc'
    exact h2 t t1 ht t2 t3
  · rintro ⟨hl, hb, hmin⟩
    obtain ⟨_, _, hblk⟩ := blk_of_hasBlock d m n hd hl hb
    refine ⟨hblk, ?_⟩
    intro t t1 t2 t3 hbt
    have := (hasBlock_of_blk d t n t1 hd t3 hbt).2
    rw [hmin t t2] at this
    exact absurd this (by decide)

set_option maxRecDepth 1000000 in
/-- For digit lengths up to 18 the repeat factor of the greatest common divisor of
two block lengths divides the least common multiple of their repeat factors. -/
theorem repFactor_meet_table :
    ∀ d ∈ List.range 19, ∀ a ∈ List.range 19, ∀ b ∈ List.range 19,
      (1 ≤ a ∧ a ∣ d ∧ 1 ≤ b ∧ b ∣ d) →
        repFactor d (Nat.gcd a b) ∣ (Int.lcm (repFactor d a) (repFactor d b) : Int) := by
  decide

/-- Two block lengths of the same integer combine into their greatest common
divisor. -/
theorem blk_gcd (d a b : Nat) (n : Int) (hd1 : 1 ≤ d) (hd : d ≤ 18) (ha : 1 ≤ a) (hb : 1 ≤ b)
    (had : a ∣ d) (hbd : b ∣ d) (h1 : Blk d a n) (h2 : Blk d b n) : Blk d (Nat.gcd a b) n := by
  have ha' : a ≤ d := Nat.le_of_dvd (by omega) had
  have hb' : b ≤ d := Nat.le_of_dvd (by omega) hbd
  have hg : 1 ≤ Nat.gcd a b := Nat.gcd_pos_of_pos_left b (by omega)
  exact blk_meet d a b (Nat.gcd a b) n ha hb hg hd1 had hbd
    (dvd_trans (Nat.gcd_dvd_left a b) had)
    (repFactor_meet_table d (List.mem_range.2 (by omega)) a (List.mem_range.2 (by omega)) b
      (List.mem_range.2 (by omega)) ⟨ha, had, hb, hbd⟩) h1 h2

section

open Classical

/-- Every repeated block has exactly one minimal block length, and it divides
every block length of the integer: the integers with block length `m` split
according to their minimal block length `t`, a divisor of `m`. -/
theorem blk_sum_partition (lo hi : Int) (d m : Nat) (hd1 : 1 ≤ d) (hd : d ≤ 18) (hm : 1 ≤ m)
    (hdvd : m ∣ d) :
    ∑ n ∈ (Finset.Icc lo hi).filter (Blk d m), n
      = ∑ t ∈ Nat.divisors m, ∑ n ∈ (Finset.Icc lo hi).filter (MinBlk d t), n := by
  simp only [Finset.sum_filter]
  rw [Finset.sum_comm]
  apply Finset.sum_congr rfl
  intro n _
  by_cases hB : Blk d m n
  · rw [if_pos hB]
    have hex : ∃ t : Nat, 1 ≤ t ∧ t ∣ d ∧ Blk d t n := ⟨m, hm, hdvd, hB⟩
    have hspec := Nat.find_spec hex
    have hmin : ∀ t : Nat, t < Nat.find hex → ¬ (1 ≤ t ∧ t ∣ d ∧ Blk d t n) :=
      fun t ht => Nat.find_min hex ht
    generalize Nat.find hex = t0 at hspec hmin
    obtain ⟨s1, s2, s3⟩ := hspec
    have hg := blk_gcd d t0 m n hd1 hd s1 hm s2 hdvd s3 hB
    have hgpos : 1 ≤ Nat.gcd t0 m := Nat.gcd_pos_of_pos_left m (by omega)
    have hgle : Nat.gcd t0 m ≤ t0 := Nat.le_of_dvd (by omega) (Nat.gcd_dvd_left t0 m)
    have hgeq : Nat.gcd t0 m = t0 := by
      by_contra hne
      exact hmin (Nat.gcd t0 m) (by omega)
        ⟨hgpos, dvd_trans (Nat.gcd_dvd_left t0 m) s2, hg⟩
    have ht0m : t0 ∣ m := by
      rw [← hgeq]; exact Nat.gcd_dvd_right t0 m
    have hM0 : MinBlk d t0 n := ⟨s3, fun t t1 t2 t3 hb => hmin t t2 ⟨t1, t3, hb⟩⟩
    rw [Finset.sum_eq_single t0]
    · rw [if_pos hM0]
    · intro t ht hne
      rw [if_neg]
      rintro ⟨b1, b2⟩
      have htm : t ∣ m := Nat.dvd_of_mem_divisors ht
      have htpos : 1 ≤ t := Nat.pos_of_mem_divisors ht
      have htd : t ∣ d := dvd_trans htm hdvd
      rcases Nat.lt_trichotomy t t0 with hlt | heq | hgt
      · exact hmin t hlt ⟨htpos, htd, b1⟩
      · exact hne heq
      · exact b2 t0 s1 hgt s2 s3
    · intro hnot
      exact absurd (Nat.mem_divisors.2 ⟨ht0m, by omega⟩) hnot
  · rw [if_neg hB]
    symm
    apply Finset.sum_eq_zero
    intro t ht
    rw [if_neg]
    rintro ⟨b1, _⟩
    have htm : t ∣ m := Nat.dvd_of_mem_divisors ht
    have htpos : 1 ≤ t := Nat.pos_of_mem_divisors ht
    exact hB (blk_mono d t m n htpos hd1 htm hdvd b1)

/-! ## The map `exact`, one digit length at a time -/

/-- Digit length 2: at the end of the loop body `exact[m]` is the sum of the
2-digit members of `[lo, hi]` of minimal block length `m`, for `m` in [1]. -/
theorem blockState_d2 (lo hi total : Int) :
    ∃ ex t', blockState id lo hi total 2 = some (ex, t')
      ∧ ex 1 = ∑ n ∈ (Finset.Icc lo hi).filter (MinBlk 2 1), n := by
  have hd : divisors 2 = some [1, 2] := by decide
  have e1 := sumAllRepeats_blk lo hi 2 1 (by decide) (by decide) (by decide)
  simp only [Nat.cast_ofNat, Nat.cast_one] at e1
  have p1 : ∑ n ∈ (Finset.Icc lo hi).filter (Blk 2 1), n
      = (∑ n ∈ (Finset.Icc lo hi).filter (MinBlk 2 1), n) := by
    rw [blk_sum_partition lo hi 2 1 (by decide) (by decide) (by decide) (by decide),
      show Nat.divisors 1 = {1} from by decide,
      Finset.sum_singleton]
  simp (disch := decide) only [blockState, hd, Option.some_bind, rawLoop_skip, rawLoop_take,
    rawLoop_nil, e1, exactLoop_skip, exactLoop_take, exactLoop_nil,
    subLoop_break, subLoop_sub, subLoop_skip, subLoop_nil, Function.update_same,
    Function.update_noteq, id_eq]
  refine ⟨_, _, rfl, ?_⟩
  all_goals
    simp (disch := decide) only [Function.update_same, Function.update_noteq, p1]

/-- Digit length 3: at the end of the loop body `exact[m]` is the sum of the
3-digit members of `[lo, hi]` of minimal block length `m`, for `m` in [1]. -/
theorem blockState_d3 (lo hi total : Int) :
    ∃ ex t', blockState id lo hi total 3 = some (ex, t')
      ∧ ex 1 = ∑ n ∈ (Finset.Icc lo hi).filter (MinBlk 3 1), n := by
  have hd : divisors 3 = some [1, 3] := by decide
  have e1 := sumAllRepeats_blk lo hi 3 1 (by decide) (by decide) (by decide)
  simp only [Nat.cast_ofNat, Nat.cast_one] at e1
  have p1 : ∑ n ∈ (Finset.Icc lo hi).filter (Blk 3 1), n
      = (∑ n ∈ (Finset.Icc lo hi).filter (MinBlk 3 1), n) := by
    rw [blk_sum_partition lo hi 3 1 (by decide) (by decide) (by decide) (by decide),
      show Nat.divisors 1 = {1} from by decide,
      Finset.sum_singleton]
  simp (disch := decide) only [blockState, hd, Option.some_bind, rawLoop_skip, rawLoop_take,
    rawLoop_nil, e1, exactLoop_skip, exactLoop_take, exactLoop_nil,
    subLoop_break, subLoop_sub, subLoop_skip, subLoop_nil, Function.update_same,
    Function.update_noteq, id_eq]
  refine ⟨_, _, rfl, ?_⟩
  all_goals
    simp (disch := decide) only [Function.update_same, Function.update_noteq, p1]

/-- Digit length 4: at the end of the loop body `exact[m]` is the sum of the
4-digit members of `[lo, hi]` of minimal block length `m`, for `m` in [1, 2]. -/
theorem blockState_d4 (lo hi total : Int) :
    ∃ ex t', blockState id lo hi total 4 = some (ex, t')
      ∧ ex 1 = ∑ n ∈ (Finset.Icc lo hi).filter (MinBlk 4 1), n
      ∧ ex 2 = ∑ n ∈ (Finset.Icc lo hi).filter (MinBlk 4 2), n := by
  have hd : divisors 4 = some [1, 2, 4] := by decide
  have e1 := sumAllRepeats_blk lo hi 4 1 (by decide) (by decide) (by decide)
  have e2 := sumAllRepeats_blk lo hi 4 2 (by decide) (by decide) (by decide)
  simp only [Nat.cast_ofNat, Nat.cast_one] at e1 e2
  have p1 : ∑ n ∈ (Finset.Icc lo hi).filter (Blk 4 1), n
      = (∑ n ∈ (Finset.Icc lo hi).filter (MinBlk 4 1), n) := by
    rw [blk_sum_partition lo hi 4 1 (by decide) (by decide) (by decide) (by decide),
      show Nat.divisors 1 = {1} from by decide,
      Finset.sum_singleton]
  have p2 : ∑ n ∈ (Finset.Icc lo hi).filter (Blk 4 2), n
      = (∑ n ∈ (Finset.Icc lo hi).filter (MinBlk 4 1), n) + ((∑ n ∈ (Finset.Icc lo hi).filter (MinBlk 4 2), n)) := by
    rw [blk_sum_partition lo hi 4 2 (by decide) (by decide) (by decide) (by decide),
      show Nat.divisors 2 = {1, 2} from by decide,
      Finset.sum_insert (by decide),
      Finset.sum_singleton]
  simp (disch := decide) only [blockState, hd, Option.some_bind, rawLoop_skip, rawLoop_take,
    rawLoop_nil, e1, e2, exactLoop_skip, exactLoop_take, exactLoop_nil,
    subLoop_break, subLoop_sub, subLoop_skip, subLoop_nil, Function.update_same,
    Function.update_noteq, id_eq]
  refine ⟨_, _, rfl, ?_, ?_⟩
  all_goals
    simp (disch := decide) only [Function.update_same, Function.update_noteq, p1, p2]
  all_goals ring

/-- Digit length 5: at the end of the loop body `exact[m]` is the sum of the
5-digit members of `[lo, hi]` of minimal block length `m`, for `m` in [1]. -/
theorem blockState_d5 (lo hi total : Int) :
    ∃ ex t', blockState id lo hi total 5 = some (ex, t')
      ∧ ex 1 = ∑ n ∈ (Finset.Icc lo hi).filter (MinBlk 5 1), n := by
  have hd : divisors 5 = some [1, 5] := by decide
  have e1 := sumAllRepeats_blk lo hi 5 1 (by decide) (by decide) (by decide)
  simp only [Nat.cast_ofNat, Nat.cast_one] at e1
  have p1 : ∑ n ∈ (Finset.Icc lo hi).filter (Blk 5 1), n
      = (∑ n ∈ (Finset.Icc lo hi).filter (MinBlk 5 1), n) := by
    rw [blk_sum_partition lo hi 5 1 (by decide) (by decide) (by decide) (by decide),
      show Nat.divisors 1 = {1} from by decide,
      Finset.sum_singleton]
  simp (disch := decide) only [blockState, hd, Option.some_bind, rawLoop_skip, rawLoop_take,
    rawLoop_nil, e1, exactLoop_skip, exactLoop_take, exactLoop_nil,
    subLoop_break, subLoop_sub, subLoop_skip, subLoop_nil, Function.update_same,
    Function.update_noteq, id_eq]
  refine ⟨_, _, rfl, ?_⟩
  all_goals
    simp (disch := decide) only [Function.update_same, Function.update_noteq, p1]

/-- Digit length 6: at the end of the loop body `exact[m]` is the sum of the
6-digit members of `[lo, hi]` of minimal block length `m`, for `m` in [1, 2, 3]. -/
theorem blockState_d6 (lo hi total : Int) :
    ∃ ex t', blockState id lo hi total 6 = some (ex, t')
      ∧ ex 1 = ∑ n ∈ (Finset.Icc lo hi).filter (MinBlk 6 1), n
      ∧ ex 2 = ∑ n ∈ (Finset.Icc lo hi).filter (MinBlk 6 2), n
      ∧ ex 3 = ∑ n ∈ (Finset.Icc lo hi).filter (MinBlk 6 3), n := by
  have hd : divisors 6 = some [1, 2, 3, 6] := by decide
  have e1 := sumAllRepeats_blk lo hi 6 1 (by decide) (by decide) (by decide)
  have e2 := sumAllRepeats_blk lo hi 6 2 (by decide) (by decide) (by decide)
  have e3 := sumAllRepeats_blk lo hi 6 3 (by decide) (by decide) (by decide)
  simp only [Nat.cast_ofNat, Nat.cast_one] at e1 e2 e3
  have p1 : ∑ n ∈ (Finset.Icc lo hi).filter (Blk 6 1), n
      = (∑ n ∈ (Finset.Icc lo hi).filter (MinBlk 6 1), n) := by
    rw [blk_sum_partition lo hi 6 1 (by decide) (by decide) (by decide) (by decide),
      show Nat.divisors 1 = {1} from by decide,
      Finset.sum_singleton]
  have p2 : ∑ n ∈ (Finset.Icc lo hi).filter (Blk 6 2), n
      = (∑ n ∈ (Finset.Icc lo hi).filter (MinBlk 6 1), n) + ((∑ n ∈ (Finset.Icc lo hi).filter (MinBlk 6 2), n)) := by
    rw [blk_sum_partition lo hi 6 2 (by decide) (by decide) (by decide) (by decide),
      show Nat.divisors 2 = {1, 2} from by decide,
      Finset.sum_insert (by decide),
      Finset.sum_singleton]
  have p3 : ∑ n ∈ (Finset.Icc lo hi).filter (Blk 6 3), n
      = (∑ n ∈ (Finset.Icc lo hi).filter (MinBlk 6 1), n) + ((∑ n ∈ (Finset.Icc lo hi).filter (MinBlk 6 3), n)) := by
    rw [blk_sum_partition lo hi 6 3 (by decide) (by decide) (by decide) (by decide),
      show Nat.divisors 3 = {1, 3} from by decide,
      Finset.sum_insert (by decide),
      Finset.sum_singleton]
  simp (disch := decide) only [blockState, hd, Option.some_bind, rawLoop_skip, rawLoop_take,
    rawLoop_nil, e1, e2, e3, exactLoop_skip, exactLoop_take, exactLoop_nil,
    subLoop_break, subLoop_sub, subLoop_skip, subLoop_nil, Function.update_same,
    Function.update_noteq, id_eq]
  refine ⟨_, _, rfl, ?_, ?_, ?_⟩
  all_goals
    simp (disch := decide) only [Function.update_same, Function.update_noteq, p1, p2, p3]
  all_goals ring

/-- Digit length 7: at the end of the loop body `exact[m]` is the sum of the
7-digit members of `[lo, hi]` of minimal block length `m`, for `m` in [1]. -/
theorem blockState_d7 (lo hi total : Int) :
    ∃ ex t', blockState id lo hi total 7 = some (ex, t')
      ∧ ex 1 = ∑ n ∈ (Finset.Icc lo hi).filter (MinBlk 7 1), n := by
  have hd : divisors 7 = some [1, 7] := by decide
  have e1 := sumAllRepeats_blk lo hi 7 1 (by decide) (by decide) (by decide)
  simp only [Nat.cast_ofNat, Nat.cast_one] at e1
  have p1 : ∑ n ∈ (Finset.Icc lo hi).filter (Blk 7 1), n
      = (∑ n ∈ (Finset.Icc lo hi).filter (MinBlk 7 1), n) := by
    rw [blk_sum_partition lo hi 7 1 (by decide) (by decide) (by decide) (by decide),
      show Nat.divisors 1 = {1} from by decide,
      Finset.sum_singleton]
  simp (disch := decide) only [blockState, hd, Option.some_bind, rawLoop_skip, rawLoop_take,
    rawLoop_nil, e1, exactLoop_skip, exactLoop_take, exactLoop_nil,
    subLoop_break, subLoop_sub, subLoop_skip, subLoop_nil, Function.update_same,
    Function.update_noteq, id_eq]
  refine ⟨_, _, rfl, ?_⟩
  all_goals
    simp (disch := decide) only [Function.update_same, Function.update_noteq, p1]

/-- Digit length 8: at the end of the loop body `exact[m]` is the sum of the
8-digit members of `[lo, hi]` of minimal block length `m`, for `m` in [1, 2, 4]. -/
theorem blockState_d8 (lo hi total : Int) :
    ∃ ex t', blockState id lo hi total 8 = some (ex, t')
      ∧ ex 1 = ∑ n ∈ (Finset.Icc lo hi).filter (MinBlk 8 1), n
      ∧ ex 2 = ∑ n ∈ (Finset.Icc lo hi).filter (MinBlk 8 2), n
      ∧ ex 4 = ∑ n ∈ (Finset.Icc lo hi).filter (MinBlk 8 4), n := by
  have hd : divisors 8 = some [1, 2, 4, 8] := by decide
  have e1 := sumAllRepeats_blk lo hi 8 1 (by decide) (by decide) (by decide)
  have e2 := sumAllRepeats_blk lo hi 8 2 (by decide) (by decide) (by decide)
  have e4 := sumAllRepeats_blk lo hi 8 4 (by decide) (by decide) (by decide)
  simp only [Nat.cast_ofNat, Nat.cast_one] at e1 e2 e4
  have p1 : ∑ n ∈ (Finset.Icc lo hi).filter (Blk 8 1), n
      = (∑ n ∈ (Finset.Icc lo hi).filter (MinBlk 8 1), n) := by
    rw [blk_sum_partition lo hi 8 1 (by decide) (by decide) (by decide) (by decide),
      show Nat.divisors 1 = {1} from by decide,
      Finset.sum_singleton]
  have p2 : ∑ n ∈ (Finset.Icc lo hi).filter (Blk 8 2), n
      = (∑ n ∈ (Finset.Icc lo hi).filter (MinBlk 8 1), n) + ((∑ n ∈ (Finset.Icc lo hi).filter (MinBlk 8 2), n)) := by
    rw [blk_sum_partition lo hi 8 2 (by decide) (by decide) (by decide) (by decide),
      show Nat.divisors 2 = {1, 2} from by decide,
      Finset.sum_insert (by decide),
      Finset.sum_singleton]
  have p4 : ∑ n ∈ (Finset.Icc lo hi).filter (Blk 8 4), n
      = (∑ n ∈ (Finset.Icc lo hi).filter (MinBlk 8 1), n) + ((∑ n ∈ (Finset.Icc lo hi).filter (MinBlk 8 2), n) + ((∑ n ∈ (Finset.Icc lo hi).filter (MinBlk 8 4), n))) := by
    rw [blk_sum_partition lo hi 8 4 (by decide) (by decide) (by decide) (by decide),
      show Nat.divisors 4 = {1, 2, 4} from by decide,
      Finset.sum_insert (by decide),
      Finset.sum_insert (by decide),
      Finset.sum_singleton]
  simp (disch := decide) only [blockState, hd, Option.some_bind, rawLoop_skip, rawLoop_take,
    rawLoop_nil, e1, e2, e4, exactLoop_skip, exactLoop_take, exactLoop_nil,
    subLoop_break, subLoop_sub, subLoop_skip, subLoop_nil, Function.update_same,
    Function.update_noteq, id_eq]
  refine ⟨_, _, rfl, ?_, ?_, ?_⟩
  all_goals
    simp (disch := decide) only [Function.update_same, Function.update_noteq, p1, p2, p4]
  all_goals ring

/-- Digit length 9: at the end of the loop body `exact[m]` is the sum of the
9-digit members of `[lo, hi]` of minimal block length `m`, for `m` in [1, 3]. -/
theorem blockState_d9 (lo hi total : Int) :
    ∃ ex t', blockState id lo hi total 9 = some (ex, t')
      ∧ ex 1 = ∑ n ∈ (Finset.Icc lo hi).filter (MinBlk 9 1), n
      ∧ ex 3 = ∑ n ∈ (Finset.Icc lo hi).filter (MinBlk 9 3), n := by
  have hd : divisors 9 = some [1, 3, 9] := by decide
  have e1 := sumAllRepeats_blk lo hi 9 1 (by decide) (by decide) (by decide)
  have e3 := sumAllRepeats_blk lo hi 9 3 (by decide) (by decide) (by decide)
  simp only [Nat.cast_ofNat, Nat.cast_one] at e1 e3
  have p1 : ∑ n ∈ (Finset.Icc lo hi).filter (Blk 9 1), n
      = (∑ n ∈ (Finset.Icc lo hi).filter (MinBlk 9 1), n) := by
    rw [blk_sum_partition lo hi 9 1 (by decide) (by decide) (by decide) (by decide),
      show Nat.divisors 1 = {1} from by decide,
      Finset.sum_singleton]
  have p3 : ∑ n ∈ (Finset.Icc lo hi).filter (Blk 9 3), n
      = (∑ n ∈ (Finset.Icc lo hi).filter (MinBlk 9 1), n) + ((∑ n ∈ (Finset.Icc lo hi).filter (MinBlk 9 3), n)) := by
    rw [blk_sum_partition lo hi 9 3 (by decide) (by decide) (by decide) (by decide),
      show Nat.divisors 3 = {1, 3} from by decide,
      Finset.sum_insert (by decide),
      Finset.sum_singleton]
  simp (disch := decide) only [blockState, hd, Option.some_bind, rawLoop_skip, rawLoop_take,
    rawLoop_nil, e1, e3, exactLoop_skip, exactLoop_take, exactLoop_nil,
    subLoop_break, subLoop_sub, subLoop_skip, subLoop_nil, Function.update_same,
    Function.update_noteq, id_eq]
  refine ⟨_, _, rfl, ?_, ?_⟩
  all_goals
    simp (disch := decide) only [Function.update_same, Function.update_noteq, p1, p3]
  all_goals ring

/-- Digit length 10: at the end of the loop body `exact[m]` is the sum of the
10-digit members of `[lo, hi]` of minimal block length `m`, for `m` in [1, 2, 5]. -/
theorem blockState_d10 (lo hi total : Int) :
    ∃ ex t', blockState id lo hi total 10 = some (ex, t')
      ∧ ex 1 = ∑ n ∈ (Finset.Icc lo hi).filter (MinBlk 10 1), n
      ∧ ex 2 = ∑ n ∈ (Finset.Icc lo hi).filter (MinBlk 10 2), n
      ∧ ex 5 = ∑ n ∈ (Finset.Icc lo hi).filter (MinBlk 10 5), n := by
  have hd : divisors 10 = some [1, 2, 5, 10] := by decide
  have e1 := sumAllRepeats_blk lo hi 10 1 (by decide) (by decide) (by decide)
  have e2 := sumAllRepeats_blk lo hi 10 2 (by decide) (by decide) (by decide)
  have e5 := sumAllRepeats_blk lo hi 10 5 (by decide) (by decide) (by decide)
  simp only [Nat.cast_ofNat, Nat.cast_one] at e1 e2 e5
  have p1 : ∑ n ∈ (Finset.Icc lo hi).filter (Blk 10 1), n
      = (∑ n ∈ (Finset.Icc lo hi).filter (MinBlk 10 1), n) := by
    rw [blk_sum_partition lo hi 10 1 (by decide) (by decide) (by decide) (by decide),
      show Nat.divisors 1 = {1} from by decide,
      Finset.sum_singleton]
  have p2 : ∑ n ∈ (Finset.Icc lo hi).filter (Blk 10 2), n
      = (∑ n ∈ (Finset.Icc lo hi).filter (MinBlk 10 1), n) + ((∑ n ∈ (Finset.Icc lo hi).filter (MinBlk 10 2), n)) := by
    rw [blk_sum_partition lo hi 10 2 (by decide) (by decide) (by decide) (by decide),
      show Nat.divisors 2 = {1, 2} from by decide,
      Finset.sum_insert (by decide),
      Finset.sum_singleton]
  have p5 : ∑ n ∈ (Finset.Icc lo hi).filter (Blk 10 5), n
      = (∑ n ∈ (Finset.Icc lo hi).filter (MinBlk 10 1), n) + ((∑ n ∈ (Finset.Icc lo hi).filter (MinBlk 10 5), n)) := by
    rw [blk_sum_partition lo hi 10 5 (by decide) (by decide) (by decide) (by decide),
      show Nat.divisors 5 = {1, 5} from by decide,
      Finset.sum_insert (by decide),
      Finset.sum_singleton]
  simp (disch := decide) only [blockState, hd, Option.some_bind, rawLoop_skip, rawLoop_take,
    rawLoop_nil, e1, e2, e5, exactLoop_skip, exactLoop_take, exactLoop_nil,
    subLoop_break, subLoop_sub, subLoop_skip, subLoop_nil, Function.update_same,
    Function.update_noteq, id_eq]
  refine ⟨_, _, rfl, ?_, ?_, ?_⟩
  all_goals
    simp (disch := decide) only [Function.update_same, Function.update_noteq, p1, p2, p5]
  all_goals ring

/-- Digit length 11: at the end of the loop body `exact[m]` is the sum of the
11-digit members of `[lo, hi]` of minimal block length `m`, for `m` in [1]. -/
theorem blockState_d11 (lo hi total : Int) :
    ∃ ex t', blockState id lo hi total 11 = some (ex, t')
      ∧ ex 1 = ∑ n ∈ (Finset.Icc lo hi).filter (MinBlk 11 1), n := by
  have hd : divisors 11 = some [1, 11] := by decide
  have e1 := sumAllRepeats_blk lo hi 11 1 (by decide) (by decide) (by decide)
  simp only [Nat.cast_ofNat, Nat.cast_one] at e1
  have p1 : ∑ n ∈ (Finset.Icc lo hi).filter (Blk 11 1), n
      = (∑ n ∈ (Finset.Icc lo hi).filter (MinBlk 11 1), n) := by
    rw [blk_sum_partition lo hi 11 1 (by decide) (by decide) (by decide) (by decide),
      show Nat.divisors 1 = {1} from by decide,
      Finset.sum_singleton]
  simp (disch := decide) only [blockState, hd, Option.some_bind, rawLoop_skip, rawLoop_take,
    rawLoop_nil, e1, exactLoop_skip, exactLoop_take, exactLoop_nil,
    subLoop_break, subLoop_sub, subLoop_skip, subLoop_nil, Function.update_same,
    Function.update_noteq, id_eq]
  refine ⟨_, _, rfl, ?_⟩
  all_goals
    simp (disch := decide) only [Function.update_same, Function.update_noteq, p1]

/-- Digit length 12: at the end of the loop body `exact[m]` is the sum of the
12-digit members of `[lo, hi]` of minimal block length `m`, for `m` in [1, 2, 3, 4, 6]. -/
theorem blockState_d12 (lo hi total : Int) :
    ∃ ex t', blockState id lo hi total 12 = some (ex, t')
      ∧ ex 1 = ∑ n ∈ (Finset.Icc lo hi).filter (MinBlk 12 1), n
      ∧ ex 2 = ∑ n ∈ (Finset.Icc lo hi).filter (MinBlk 12 2), n
      ∧ ex 3 = ∑ n ∈ (Finset.Icc lo hi).filter (MinBlk 12 3), n
      ∧ ex 4 = ∑ n ∈ (Finset.Icc lo hi).filter (MinBlk 12 4), n
      ∧ ex 6 = ∑ n ∈ (Finset.Icc lo hi).filter (MinBlk 12 6), n := by
  have hd : divisors 12 = some [1, 2, 3, 4, 6, 12] := by decide
  have e1 := sumAllRepeats_blk lo hi 12 1 (by decide) (by decide) (by decide)
  have e2 := sumAllRepeats_blk lo hi 12 2 (by decide) (by decide) (by decide)
  have e3 := sumAllRepeats_blk lo hi 12 3 (by decide) (by decide) (by decide)
  have e4 := sumAllRepeats_blk lo hi 12 4 (by decide) (by decide) (by decide)
  have e6 := sumAllRepeats_blk lo hi 12 6 (by decide) (by decide) (by decide)
  simp only [Nat.cast_ofNat, Nat.cast_one] at e1 e2 e3 e4 e6
  have p1 : ∑ n ∈ (Finset.Icc lo hi).filter (Blk 12 1), n
      = (∑ n ∈ (Finset.Icc lo hi).filter (MinBlk 12 1), n) := by
    rw [blk_sum_partition lo hi 12 1 (by decide) (by decide) (by decide) (by decide),
      show Nat.divisors 1 = {1} from by decide,
      Finset.sum_singleton]
  have p2 : ∑ n ∈ (Finset.Icc lo hi).filter (Blk 12 2), n
      = (∑ n ∈ (Finset.Icc lo hi).filter (MinBlk 12 1), n) + ((∑ n ∈ (Finset.Icc lo hi).filter (MinBlk 12 2), n)) := by
    rw [blk_sum_partition lo hi 12 2 (by decide) (by decide) (by decide) (by decide),
      show Nat.divisors 2 = {1, 2} from by decide,
      Finset.sum_insert (by decide),
      Finset.sum_singleton]
  have p3 : ∑ n ∈ (Finset.Icc lo hi).filter (Blk 12 3), n
      = (∑ n ∈ (Finset.Icc lo hi).filter (MinBlk 12 1), n) + ((∑ n ∈ (Finset.Icc lo hi).filter (MinBlk 12 3), n)) := by
    rw [blk_sum_partition lo hi 12 3 (by decide) (by decide) (by decide) (by decide),
      show Nat.divisors 3 = {1, 3} from by decide,
      Finset.sum_insert (by decide),
      Finset.sum_singleton]
  have p4 : ∑ n ∈ (Finset.Icc lo hi).filter (Blk 12 4), n
      = (∑ n ∈ (Finset.Icc lo hi).filter (MinBlk 12 1), n) + ((∑ n ∈ (Finset.Icc lo hi).filter (MinBlk 12 2), n) + ((∑ n ∈ (Finset.Icc lo hi).filter (MinBlk 12 4), n))) := by
    rw [blk_sum_partition lo hi 12 4 (by decide) (by decide) (by decide) (by decide),
      show Nat.divisors 4 = {1, 2, 4} from by decide,
      Finset.sum_insert (by decide),
      Finset.sum_insert (by decide),
      Finset.sum_singleton]
  have p6 : ∑ n ∈ (Finset.Icc lo hi).filter (Blk 12 6), n
      = (∑ n ∈ (Finset.Icc lo hi).filter (MinBlk 12 1), n) + ((∑ n ∈ (Finset.Icc lo hi).filter (MinBlk 12 2), n) + ((∑ n ∈ (Finset.Icc lo hi).filter (MinBlk 12 3), n) + ((∑ n ∈ (Finset.Icc lo hi).filter (MinBlk 12 6), n)))) := by
    rw [blk_sum_partition lo hi 12 6 (by decide) (by decide) (by decide) (by decide),
      show Nat.divisors 6 = {1, 2, 3, 6} from by decide,
      Finset.sum_insert (by decide),
      Finset.sum_insert (by decide),
      Finset.sum_insert (by decide),
      Finset.sum_singleton]
  simp (disch := decide) only [blockState, hd, Option.some_bind, rawLoop_skip, rawLoop_take,
    rawLoop_nil, e1, e2, e3, e4, e6, exactLoop_skip, exactLoop_take, exactLoop_nil,
    subLoop_break, subLoop_sub, subLoop_skip, subLoop_nil, Function.update_same,
    Function.update_noteq, id_eq]
  refine ⟨_, _, rfl, ?_, ?_, ?_, ?_, ?_⟩
  all_goals
    simp (disch := decide) only [Function.update_same, Function.update_noteq, p1, p2, p3, p4, p6]
  all_goals ring

/-- Digit length 13: at the end of the loop body `exact[m]` is the sum of the
13-digit members of `[lo, hi]` of minimal block length `m`, for `m` in [1]. -/
theorem blockState_d13 (lo hi total : Int) :
    ∃ ex t', blockState id lo hi total 13 = some (ex, t')
      ∧ ex 1 = ∑ n ∈ (Finset.Icc lo hi).filter (MinBlk 13 1), n := by
  have hd : divisors 13 = some [1, 13] := by decide
  have e1 := sumAllRepeats_blk lo hi 13 1 (by decide) (by decide) (by decide)
  simp only [Nat.cast_ofNat, Nat.cast_one] at e1
  have p1 : ∑ n ∈ (Finset.Icc lo hi).filter (Blk 13 1), n
      = (∑ n ∈ (Finset.Icc lo hi).filter (MinBlk 13 1), n) := by
    rw [blk_sum_partition lo hi 13 1 (by decide) (by decide) (by decide) (by decide),
      show Nat.divisors 1 = {1} from by decide,
      Finset.sum_singleton]
  simp (disch := decide) only [blockState, hd, Option.some_bind, rawLoop_skip, rawLoop_take,
    rawLoop_nil, e1, exactLoop_skip, exactLoop_take, exactLoop_nil,
    subLoop_break, subLoop_sub, subLoop_skip, subLoop_nil, Function.update_same,
    Function.update_noteq, id_eq]
  refine ⟨_, _, rfl, ?_⟩
  all_goals
    simp (disch := decide) only [Function.update_same, Function.update_noteq, p1]

/-- Digit length 14: at the end of the loop body `exact[m]` is the sum of the
14-digit members of `[lo, hi]` of minimal block length `m`, for `m` in [1, 2, 7]. -/
theorem blockState_d14 (lo hi total : Int) :
    ∃ ex t', blockState id lo hi total 14 = some (ex, t')
      ∧ ex 1 = ∑ n ∈ (Finset.Icc lo hi).filter (MinBlk 14 1), n
      ∧ ex 2 = ∑ n ∈ (Finset.Icc lo hi).filter (MinBlk 14 2), n
      ∧ ex 7 = ∑ n ∈ (Finset.Icc lo hi).filter (MinBlk 14 7), n := by
  have hd : divisors 14 = some [1, 2, 7, 14] := by decide
  have e1 := sumAllRepeats_blk lo hi 14 1 (by decide) (by decide) (by decide)
  have e2 := sumAllRepeats_blk lo hi 14 2 (by decide) (by decide) (by decide)
  have e7 := sumAllRepeats_blk lo hi 14 7 (by decide) (by decide) (by decide)
  simp only [Nat.cast_ofNat, Nat.cast_one] at e1 e2 e7
  have p1 : ∑ n ∈ (Finset.Icc lo hi).filter (Blk 14 1), n
      = (∑ n ∈ (Finset.Icc lo hi).filter (MinBlk 14 1), n) := by
    rw [blk_sum_partition lo hi 14 1 (by decide) (by decide) (by decide) (by decide),
      show Nat.divisors 1 = {1} from by decide,
      Finset.sum_singleton]
  have p2 : ∑ n ∈ (Finset.Icc lo hi).filter (Blk 14 2), n
      = (∑ n ∈ (Finset.Icc lo hi).filter (MinBlk 14 1), n) + ((∑ n ∈ (Finset.Icc lo hi).filter (MinBlk 14 2), n)) := by
    rw [blk_sum_partition lo hi 14 2 (by decide) (by decide) (by decide) (by decide),
      show Nat.divisors 2 = {1, 2} from by decide,
      Finset.sum_insert (by decide),
      Finset.sum_singleton]
  have p7 : ∑ n ∈ (Finset.Icc lo hi).filter (Blk 14 7), n
      = (∑ n ∈ (Finset.Icc lo hi).filter (MinBlk 14 1), n) + ((∑ n ∈ (Finset.Icc lo hi).filter (MinBlk 14 7), n)) := by
    rw [blk_sum_partition lo hi 14 7 (by decide) (by decide) (by decide) (by decide),
      show Nat.divisors 7 = {1, 7} from by decide,
      Finset.sum_insert (by decide),
      Finset.sum_singleton]
  simp (disch := decide) only [blockState, hd, Option.some_bind, rawLoop_skip, rawLoop_take,
    rawLoop_nil, e1, e2, e7, exactLoop_skip, exactLoop_take, exactLoop_nil,
    subLoop_break, subLoop_sub, subLoop_skip, subLoop_nil, Function.update_same,
    Function.update_noteq, id_eq]
  refine ⟨_, _, rfl, ?_, ?_, ?_⟩
  all_goals
    simp (disch := decide) only [Function.update_same, Function.update_noteq, p1, p2, p7]
  all_goals ring

/-- Digit length 15: at the end of the loop body `exact[m]` is the sum of the
15-digit members of `[lo, hi]` of minimal block length `m`, for `m` in [1, 3, 5]. -/
theorem blockState_d15 (lo hi total : Int) :
    ∃ ex t', blockState id lo hi total 15 = some (ex, t')
      ∧ ex 1 = ∑ n ∈ (Finset.Icc lo hi).filter (MinBlk 15 1), n
      ∧ ex 3 = ∑ n ∈ (Finset.Icc lo hi).filter (MinBlk 15 3), n
      ∧ ex 5 = ∑ n ∈ (Finset.Icc lo hi).filter (MinBlk 15 5), n := by
  have hd : divisors 15 = some [1, 3, 5, 15] := by decide
  have e1 := sumAllRepeats_blk lo hi 15 1 (by decide) (by decide) (by decide)
  have e3 := sumAllRepeats_blk lo hi 15 3 (by decide) (by decide) (by decide)
  have e5 := sumAllRepeats_blk lo hi 15 5 (by decide) (by decide) (by decide)
  simp only [Nat.cast_ofNat, Nat.cast_one] at e1 e3 e5
  have p1 : ∑ n ∈ (Finset.Icc lo hi).filter (Blk 15 1), n
      = (∑ n ∈ (Finset.Icc lo hi).filter (MinBlk 15 1), n) := by
    rw [blk_sum_partition lo hi 15 1 (by decide) (by decide) (by decide) (by decide),
      show Nat.divisors 1 = {1} from by decide,
      Finset.sum_singleton]
  have p3 : ∑ n ∈ (Finset.Icc lo hi).filter (Blk 15 3), n
      = (∑ n ∈ (Finset.Icc lo hi).filter (MinBlk 15 1), n) + ((∑ n ∈ (Finset.Icc lo hi).filter (MinBlk 15 3), n)) := by
    rw [blk_sum_partition lo hi 15 3 (by decide) (by decide) (by decide) (by decide),
      show Nat.divisors 3 = {1, 3} from by decide,
      Finset.sum_insert (by decide),
      Finset.sum_singleton]
  have p5 : ∑ n ∈ (Finset.Icc lo hi).filter (Blk 15 5), n
      = (∑ n ∈ (Finset.Icc lo hi).filter (MinBlk 15 1), n) + ((∑ n ∈ (Finset.Icc lo hi).filter (MinBlk 15 5), n)) := by
    rw [blk_sum_partition lo hi 15 5 (by decide) (by decide) (by decide) (by decide),
      show Nat.divisors 5 = {1, 5} from by decide,
      Finset.sum_insert (by decide),
      Finset.sum_singleton]
  simp (disch := decide) only [blockState, hd, Option.some_bind, rawLoop_skip, rawLoop_take,
    rawLoop_nil, e1, e3, e5, exactLoop_skip, exactLoop_take, exactLoop_nil,
    subLoop_break, subLoop_sub, subLoop_skip, subLoop_nil, Function.update_same,
    Function.update_noteq, id_eq]
  refine ⟨_, _, rfl, ?_, ?_, ?_⟩
  all_goals
    simp (disch := decide) only [Function.update_same, Function.update_noteq, p1, p3, p5]
  all_goals ring

/-- Digit length 16: at the end of the loop body `exact[m]` is the sum of the
16-digit members of `[lo, hi]` of minimal block length `m`, for `m` in [1, 2, 4, 8]. -/
theorem blockState_d16 (lo hi total : Int) :
    ∃ ex t', blockState id lo hi total 16 = some (ex, t')
      ∧ ex 1 = ∑ n ∈ (Finset.Icc lo hi).filter (MinBlk 16 1), n
      ∧ ex 2 = ∑ n ∈ (Finset.Icc lo hi).filter (MinBlk 16 2), n
      ∧ ex 4 = ∑ n ∈ (Finset.Icc lo hi).filter (MinBlk 16 4), n
      ∧ ex 8 = ∑ n ∈ (Finset.Icc lo hi).filter (MinBlk 16 8), n := by
  have hd : divisors 16 = some [1, 2, 4, 8, 16] := by decide
  have e1 := sumAllRepeats_blk lo hi 16 1 (by decide) (by decide) (by decide)
  have e2 := sumAllRepeats_blk lo hi 16 2 (by decide) (by decide) (by decide)
  have e4 := sumAllRepeats_blk lo hi 16 4 (by decide) (by decide) (by decide)
  have e8 := sumAllRepeats_blk lo hi 16 8 (by decide) (by decide) (by decide)
  simp only [Nat.cast_ofNat, Nat.cast_one] at e1 e2 e4 e8
  have p1 : ∑ n ∈ (Finset.Icc lo hi).filter (Blk 16 1), n
      = (∑ n ∈ (Finset.Icc lo hi).filter (MinBlk 16 1), n) := by
    rw [blk_sum_partition lo hi 16 1 (by decide) (by decide) (by decide) (by decide),
      show Nat.divisors 1 = {1} from by decide,
      Finset.sum_singleton]
  have p2 : ∑ n ∈ (Finset.Icc lo hi).filter (Blk 16 2), n
      = (∑ n ∈ (Finset.Icc lo hi).filter (MinBlk 16 1), n) + ((∑ n ∈ (Finset.Icc lo hi).filter (MinBlk 16 2), n)) := by
    rw [blk_sum_partition lo hi 16 2 (by decide) (by decide) (by decide) (by decide),
      show Nat.divisors 2 = {1, 2} from by decide,
      Finset.sum_insert (by decide),
      Finset.sum_singleton]
  have p4 : ∑ n ∈ (Finset.Icc lo hi).filter (Blk 16 4), n
      = (∑ n ∈ (Finset.Icc lo hi).filter (MinBlk 16 1), n) + ((∑ n ∈ (Finset.Icc lo hi).filter (MinBlk 16 2), n) + ((∑ n ∈ (Finset.Icc lo hi).filter (MinBlk 16 4), n))) := by
    rw [blk_sum_partition lo hi 16 4 (by decide) (by decide) (by decide) (by decide),
      show Nat.divisors 4 = {1, 2, 4} from by decide,
      Finset.sum_insert (by decide),
      Finset.sum_insert (by decide),
      Finset.sum_singleton]
  have p8 : ∑ n ∈ (Finset.Icc lo hi).filter (Blk 16 8), n
      = (∑ n ∈ (Finset.Icc lo hi).filter (MinBlk 16 1), n) + ((∑ n ∈ (Finset.Icc lo hi).filter (MinBlk 16 2), n) + ((∑ n ∈ (Finset.Icc lo hi).filter (MinBlk 16 4), n) + ((∑ n ∈ (Finset.Icc lo hi).filter (MinBlk 16 8), n)))) := by
    rw [blk_sum_partition lo hi 16 8 (by decide) (by decide) (by decide) (by decide),
      show Nat.divisors 8 = {1, 2, 4, 8} from by decide,
      Finset.sum_insert (by decide),
      Finset.sum_insert (by decide),
      Finset.sum_insert (by decide),
      Finset.sum_singleton]
  simp (disch := decide) only [blockState, hd, Option.some_bind, rawLoop_skip, rawLoop_take,
    rawLoop_nil, e1, e2, e4, e8, exactLoop_skip, exactLoop_take, exactLoop_nil,
    subLoop_break, subLoop_sub, subLoop_skip, subLoop_nil, Function.update_same,
    Function.update_noteq, id_eq]
  refine ⟨_, _, rfl, ?_, ?_, ?_, ?_⟩
  all_goals
    simp (disch := decide) only [Function.update_same, Function.update_noteq, p1, p2, p4, p8]
  all_goals ring

/-- Digit length 17: at the end of the loop body `exact[m]` is the sum of the
17-digit members of `[lo, hi]` of minimal block length `m`, for `m` in [1]. -/
theorem blockState_d17 (lo hi total : Int) :
    ∃ ex t', blockState id lo hi total 17 = some (ex, t')
      ∧ ex 1 = ∑ n ∈ (Finset.Icc lo hi).filter (MinBlk 17 1), n := by
  have hd : divisors 17 = some [1, 17] := by decide
  have e1 := sumAllRepeats_blk lo hi 17 1 (by decide) (by decide) (by decide)
  simp only [Nat.cast_ofNat, Nat.cast_one] at e1
  have p1 : ∑ n ∈ (Finset.Icc lo hi).filter (Blk 17 1), n
      = (∑ n ∈ (Finset.Icc lo hi).filter (MinBlk 17 1), n) := by
    rw [blk_sum_partition lo hi 17 1 (by decide) (by decide) (by decide) (by decide),
      show Nat.divisors 1 = {1} from by decide,
      Finset.sum_singleton]
  simp (disch := decide) only [blockState, hd, Option.some_bind, rawLoop_skip, rawLoop_take,
    rawLoop_nil, e1, exactLoop_skip, exactLoop_take, exactLoop_nil,
    subLoop_break, subLoop_sub, subLoop_skip, subLoop_nil, Function.update_same,
    Function.update_noteq, id_eq]
  refine ⟨_, _, rfl, ?_⟩
  all_goals
    simp (disch := decide) only [Function.update_same, Function.update_noteq, p1]

/-- Digit length 18: at the end of the loop body `exact[m]` is the sum of the
18-digit members of `[lo, hi]` of minimal block length `m`, for `m` in [1, 2, 3, 6, 9]. -/
theorem blockState_d18 (lo hi total : Int) :
    ∃ ex t', blockState id lo hi total 18 = some (ex, t')
      ∧ ex 1 = ∑ n ∈ (Finset.Icc lo hi).filter (MinBlk 18 1), n
      ∧ ex 2 = ∑ n ∈ (Finset.Icc lo hi).filter (MinBlk 18 2), n
      ∧ ex 3 = ∑ n ∈ (Finset.Icc lo hi).filter (MinBlk 18 3), n
      ∧ ex 6 = ∑ n ∈ (Finset.Icc lo hi).filter (MinBlk 18 6), n
      ∧ ex 9 = ∑ n ∈ (Finset.Icc lo hi).filter (MinBlk 18 9), n := by
  have hd : divisors 18 = some [1, 2, 3, 6, 9, 18] := by decide
  have e1 := sumAllRepeats_blk lo hi 18 1 (by decide) (by decide) (by decide)
  have e2 := sumAllRepeats_blk lo hi 18 2 (by decide) (by decide) (by decide)
  have e3 := sumAllRepeats_blk lo hi 18 3 (by decide) (by decide) (by decide)
  have e6 := sumAllRepeats_blk lo hi 18 6 (by decide) (by decide) (by decide)
  have e9 := sumAllRepeats_blk lo hi 18 9 (by decide) (by decide) (by decide)
  simp only [Nat.cast_ofNat, Nat.cast_one] at e1 e2 e3 e6 e9
  have p1 : ∑ n ∈ (Finset.Icc lo hi).filter (Blk 18 1), n
      = (∑ n ∈ (Finset.Icc lo hi).filter (MinBlk 18 1), n) := by
    rw [blk_sum_partition lo hi 18 1 (by decide) (by decide) (by decide) (by decide),
      show Nat.divisors 1 = {1} from by decide,
      Finset.sum_singleton]
  have p2 : ∑ n ∈ (Finset.Icc lo hi).filter (Blk 18 2), n
      = (∑ n ∈ (Finset.Icc lo hi).filter (MinBlk 18 1), n) + ((∑ n ∈ (Finset.Icc lo hi).filter (MinBlk 18 2), n)) := by
    rw [blk_sum_partition lo hi 18 2 (by decide) (by decide) (by decide) (by decide),
      show Nat.divisors 2 = {1, 2} from by decide,
      Finset.sum_insert (by decide),
      Finset.sum_singleton]
  have p3 : ∑ n ∈ (Finset.Icc lo hi).filter (Blk 18 3), n
      = (∑ n ∈ (Finset.Icc lo hi).filter (MinBlk 18 1), n) + ((∑ n ∈ (Finset.Icc lo hi).filter (MinBlk 18 3), n)) := by
    rw [blk_sum_partition lo hi 18 3 (by decide) (by decide) (by decide) (by decide),
      show Nat.divisors 3 = {1, 3} from by decide,
      Finset.sum_insert (by decide),
      Finset.sum_singleton]
  have p6 : ∑ n ∈ (Finset.Icc lo hi).filter (Blk 18 6), n
      = (∑ n ∈ (Finset.Icc lo hi).filter (MinBlk 18 1), n) + ((∑ n ∈ (Finset.Icc lo hi).filter (MinBlk 18 2), n) + ((∑ n ∈ (Finset.Icc lo hi).filter (MinBlk 18 3), n) + ((∑ n ∈ (Finset.Icc lo hi).filter (MinBlk 18 6), n)))) := by
    rw [blk_sum_partition lo hi 18 6 (by decide) (by decide) (by decide) (by decide),
      show Nat.divisors 6 = {1, 2, 3, 6} from by decide,
      Finset.sum_insert (by decide),
      Finset.sum_insert (by decide),
      Finset.sum_insert (by decide),
      Finset.sum_singleton]
  have p9 : ∑ n ∈ (Finset.Icc lo hi).filter (Blk 18 9), n
      = (∑ n ∈ (Finset.Icc lo hi).filter (MinBlk 18 1), n) + ((∑ n ∈ (Finset.Icc lo hi).filter (MinBlk 18 3), n) + ((∑ n ∈ (Finset.Icc lo hi).filter (MinBlk 18 9), n))) := by
    rw [blk_sum_partition lo hi 18 9 (by decide) (by decide) (by decide) (by decide),
      show Nat.divisors 9 = {1, 3, 9} from by decide,
      Finset.sum_insert (by decide),
      Finset.sum_insert (by decide),
      Finset.sum_singleton]
  simp (disch := decide) only [blockState, hd, Option.some_bind, rawLoop_skip, rawLoop_take,
    rawLoop_nil, e1, e2, e3, e6, e9, exactLoop_skip, exactLoop_take, exactLoop_nil,
    subLoop_break, subLoop_sub, subLoop_skip, subLoop_nil, Function.update_same,
    Function.update_noteq, id_eq]
  refine ⟨_, _, rfl, ?_, ?_, ?_, ?_, ?_⟩
  all_goals
    simp (disch := decide) only [Function.update_same, Function.update_noteq, p1, p2, p3, p6, p9]
  all_goals ring

/-- For every digit length `d` from 2 to 18 and every block length `m` dividing `d`
with `d / m ≥ 2`, in exact arithmetic, `exact[m]` is the sum of the `d`-digit
members of `[lo, hi]` whose minimal block length is `m`. -/
theorem blockState_minBlk (lo hi total : Int) (d m : Nat) (hd2 : 2 ≤ d) (hd : d ≤ 18)
    (hm : 1 ≤ m) (hdvd : m ∣ d) (hr : 2 ≤ d / m) :
    ∃ ex t', blockState id lo hi total d = some (ex, t')
      ∧ ex m = ∑ n ∈ (Finset.Icc lo hi).filter (MinBlk d m), n := by
  have hmd : m < d := by
    have h1 : m * 2 ≤ m * (d / m) := Nat.mul_le_mul_left m hr
    have h2 : m * (d / m) ≤ d := Nat.mul_div_le d m
    omega
  interval_cases d <;> simp only [Nat.cast_ofNat]
  · obtain ⟨ex, t', h0, h1⟩ := blockState_d2 lo hi total
    interval_cases m <;> simp only [Nat.cast_ofNat, Nat.cast_one]
    · exact ⟨ex, t', h0, h1⟩
  · obtain ⟨ex, t', h0, h1⟩ := blockState_d3 lo hi total
    interval_cases m <;> simp only [Nat.cast_ofNat, Nat.cast_one]
    · exact ⟨ex, t', h0, h1⟩
    · exact absurd hdvd (by decide)
  · obtain ⟨ex, t', h0, h1, h2⟩ := blockState_d4 lo hi total
    interval_cases m <;> simp only [Nat.cast_ofNat, Nat.cast_one]
    · exact ⟨ex, t', h0, h1⟩
    · exact ⟨ex, t', h0, h2⟩
    · exact absurd hdvd (by decide)
  · obtain ⟨ex, t', h0, h1⟩ := blockState_d5 lo hi total
    interval_cases m <;> simp only [Nat.cast_ofNat, Nat.cast_one]
    · exact ⟨ex, t', h0, h1⟩
    · exact absurd hdvd (by decide)
    · exact absurd hdvd (by decide)
    · exact absurd hdvd (by decide)
  · obtain ⟨ex, t', h0, h1, h2, h3⟩ := blockState_d6 lo hi total
    interval_cases m <;> simp only [Nat.cast_ofNat, Nat.cast_one]
    · exact ⟨ex, t', h0, h1⟩
    · exact ⟨ex, t', h0, h2⟩
    · exact ⟨ex, t', h0, h3⟩
    · exact absurd hdvd (by decide)
    · exact absurd hdvd (by decide)
  · obtain ⟨ex, t', h0, h1⟩ := blockState_d7 lo hi total
    interval_cases m <;> simp only [Nat.cast_ofNat, Nat.cast_one]
    · exact ⟨ex, t', h0, h1⟩
    · exact absurd hdvd (by decide)
    · exact absurd hdvd (by decide)
    · exact absurd hdvd (by decide)
    · exact absurd hdvd (by decide)
    · exact absurd hdvd (by decide)
  · obtain ⟨ex, t', h0, h1, h2, h4⟩ := blockState_d8 lo hi total
    interval_cases m <;> simp only [Nat.cast_ofNat, Nat.cast_one]
    · exact ⟨ex, t', h0, h1⟩
    · exact ⟨ex, t', h0, h2⟩
    · exact absurd hdvd (by decide)
    · exact ⟨ex, t', h0, h4⟩
    · exact absurd hdvd (by decide)
    · exact absurd hdvd (by decide)
    · exact absurd hdvd (by decide)
  · obtain ⟨ex, t', h0, h1, h3⟩ := blockState_d9 lo hi total
    interval_cases m <;> simp only [Nat.cast_ofNat, Nat.cast_one]
    · exact ⟨ex, t', h0, h1⟩
    · exact absurd hdvd (by decide)
    · exact ⟨ex, t', h0, h3⟩
    · exact absurd hdvd (by decide)
    · exact absurd hdvd (by decide)
    · exact absurd hdvd (by decide)
    · exact absurd hdvd (by decide)
    · exact absurd hdvd (by decide)
  · obtain ⟨ex, t', h0, h1, h2, h5⟩ := blockState_d10 lo hi total
    interval_cases m <;> simp only [Nat.cast_ofNat, Nat.cast_one]
    · exact ⟨ex, t', h0, h1⟩
    · exact ⟨ex, t', h0, h2⟩
    · exact absurd hdvd (by decide)
    · exact absurd hdvd (by decide)
    · exact ⟨ex, t', h0, h5⟩
    · exact absurd hdvd (by decide)
    · exact absurd hdvd (by decide)
    · exact absurd hdvd (by decide)
    · exact absurd hdvd (by decide)
  · obtain ⟨ex, t', h0, h1⟩ := blockState_d11 lo hi total
    interval_cases m <;> simp only [Nat.cast_ofNat, Nat.cast_one]
    · exact ⟨ex, t', h0, h1⟩
    · exact absurd hdvd (by decide)
    · exact absurd hdvd (by decide)
    · exact absurd hdvd (by decide)
    · exact absurd hdvd (by decide)
    · exact absurd hdvd (by decide)
    · exact absurd hdvd (by decide)
    · exact absurd hdvd (by decide)
    · exact absurd hdvd (by decide)
    · exact absurd hdvd (by decide)
  · obtain ⟨ex, t', h0, h1, h2, h3, h4, h6⟩ := blockState_d12 lo hi total
    interval_cases m <;> simp only [Nat.cast_ofNat, Nat.cast_one]
    · exact ⟨ex, t', h0, h1⟩
    · exact ⟨ex, t', h0, h2⟩
    · exact ⟨ex, t', h0, h3⟩
    · exact ⟨ex, t', h0, h4⟩
    · exact absurd hdvd (by decide)
    · exact ⟨ex, t', h0, h6⟩
    · exact absurd hdvd (by decide)
    · exact absurd hdvd (by decide)
    · exact absurd hdvd (by decide)
    · exact absurd hdvd (by decide)
    · exact absurd hdvd (by decide)
  · obtain ⟨ex, t', h0, h1⟩ := blockState_d13 lo hi total
    interval_cases m <;> simp only [Nat.cast_ofNat, Nat.cast_one]
    · exact ⟨ex, t', h0, h1⟩
    · exact absurd hdvd (by decide)
    · exact absurd hdvd (by decide)
    · exact absurd hdvd (by decide)
    · exact absurd hdvd (by decide)
    · exact absurd hdvd (by decide)
    · exact absurd hdvd (by decide)
    · exact absurd hdvd (by decide)
    · exact absurd hdvd (by decide)
    · exact absurd hdvd (by decide)
    · exact absurd hdvd (by decide)
    · exact absurd hdvd (by decide)
  · obtain ⟨ex, t', h0, h1, h2, h7⟩ := blockState_d14 lo hi total
    interval_cases m <;> simp only [Nat.cast_ofNat, Nat.cast_one]
    · exact ⟨ex, t', h0, h1⟩
    · exact ⟨ex, t', h0, h2⟩
    · exact absurd hdvd (by decide)
    · exact absurd hdvd (by decide)
    · exact absurd hdvd (by decide)
    · exact absurd hdvd (by decide)
    · exact ⟨ex, t', h0, h7⟩
    · exact absurd hdvd (by decide)
    · exact absurd hdvd (by decide)
    · exact absurd hdvd (by decide)
    · exact absurd hdvd (by decide)
    · exact absurd hdvd (by decide)
    · exact absurd hdvd (by decide)
  · obtain ⟨ex, t', h0, h1, h3, h5⟩ := blockState_d15 lo hi total
    interval_cases m <;> simp only [Nat.cast_ofNat, Nat.cast_one]
    · exact ⟨ex, t', h0, h1⟩
    · exact absurd hdvd (by decide)
    · exact ⟨ex, t', h0, h3⟩
    · exact absurd hdvd (by decide)
    · exact ⟨ex, t', h0, h5⟩
    · exact absurd hdvd (by decide)
    · exact absurd hdvd (by decide)
    · exact absurd hdvd (by decide)
    · exact absurd hdvd (by decide)
    · exact absurd hdvd (by decide)
    · exact absurd hdvd (by decide)
    · exact absurd hdvd (by decide)
    · exact absurd hdvd (by decide)
    · exact absurd hdvd (by decide)
  · obtain ⟨ex, t', h0, h1, h2, h4, h8⟩ := blockState_d16 lo hi total
    interval_cases m <;> simp only [Nat.cast_ofNat, Nat.cast_one]
    · exact ⟨ex, t', h0, h1⟩
    · exact ⟨ex, t', h0, h2⟩
    · exact absurd hdvd (by decide)
    · exact ⟨ex, t', h0, h4⟩
    · exact absurd hdvd (by decide)
    · exact absurd hdvd (by decide)
    · exact absurd hdvd (by decide)
    · exact ⟨ex, t', h0, h8⟩
    · exact absurd hdvd (by decide)
    · exact absurd hdvd (by decide)
    · exact absurd hdvd (by decide)
    · exact absurd hdvd (by decide)
    · exact absurd hdvd (by decide)
    · exact absurd hdvd (by decide)
    · exact absurd hdvd (by decide)
  · obtain ⟨ex, t', h0, h1⟩ := blockState_d17 lo hi total
    interval_cases m <;> simp only [Nat.cast_ofNat, Nat.cast_one]
    · exact ⟨ex, t', h0, h1⟩
    · exact absurd hdvd (by decide)
    · exact absurd hdvd (by decide)
    · exact absurd hdvd (by decide)
    · exact absurd hdvd (by decide)
    · exact absurd hdvd (by decide)
    · exact absurd hdvd (by decide)
    · exact absurd hdvd (by decide)
    · exact absurd hdvd (by decide)
    · exact absurd hdvd (by decide)
    · exact absurd hdvd (by decide)
    · exact absurd hdvd (by decide)
    · exact absurd hdvd (by decide)
    · exact absurd hdvd (by decide)
    · exact absurd hdvd (by decide)
    · exact absurd hdvd (by decide)
  · obtain ⟨ex, t', h0, h1, h2, h3, h6, h9⟩ := blockState_d18 lo hi total
    interval_cases m <;> simp only [Nat.cast_ofNat, Nat.cast_one]
    · exact ⟨ex, t', h0, h1⟩
    · exact ⟨ex, t', h0, h2⟩
    · exact ⟨ex, t', h0, h3⟩
    · exact absurd hdvd (by decide)
    · exact absurd hdvd (by decide)
    · exact ⟨ex, t', h0, h6⟩
    · exact absurd hdvd (by decide)
    · exact absurd hdvd (by decide)
    · exact ⟨ex, t', h0, h9⟩
    · exact absurd hdvd (by decide)
    · exact absurd hdvd (by decide)
    · exact absurd hdvd (by decide)
    · exact absurd hdvd (by decide)
    · exact absurd hdvd (by decide)
    · exact absurd hdvd (by decide)
    · exact absurd hdvd (by decide)
    · exact absurd hdvd (by decide)

end

/-! ## The 64-bit program computes the exact result modulo `2^64` -/

theorem wrap64_idem (a : Int) : wrap64 (wrap64 a) = wrap64 a := by
  unfold wrap64
  norm_num

theorem wrap64_add_wrap (a b : Int) : wrap64 (wrap64 a + wrap64 b) = wrap64 (a + b) := by
  unfold wrap64
  norm_num
  omega

theorem wrap64_sub_wrap (a b : Int) : wrap64 (wrap64 a - wrap64 b) = wrap64 (a - b) := by
  unfold wrap64
  norm_num
  omega

theorem wrap64_zero : wrap64 0 = 0 := by decide

theorem tdiv_in_range (a b : Int) (hb : 0 < b) (h1 : -2 ^ 63 ≤ a) (h2 : a < 2 ^ 63) :
    -2 ^ 63 ≤ Int.tdiv a b ∧ Int.tdiv a b < 2 ^ 63 := by
  rcases lt_or_le a 0 with hneg | hpos
  · have := tdiv_ge_of_neg a b hneg hb
    have := tdiv_nonpos_of_neg a b hneg hb
    constructor <;> omega
  · have e : Int.tdiv a b = a / b := Int.tdiv_eq_ediv hpos (le_of_lt hb)
    have := Int.ediv_le_self b hpos
    have := Int.ediv_nonneg hpos (le_of_lt hb)
    rw [e]
    constructor <;> omega

/-- The lower block bound is the same in 64-bit and in exact arithmetic when
`lo + R - 1` fits in 64 bits. -/
theorem lowBlock_wrap (R lo minB : Int) (hR : 0 < R) (hlo : -2 ^ 63 ≤ lo)
    (hfit : lo + R ≤ 2 ^ 63) : lowBlock wrap64 R lo minB = lowBlock id R lo minB := by
  have hin : wrap64 (wrap64 (lo + R) - 1) = lo + R - 1 := by
    unfold wrap64
    norm_num at hlo hfit ⊢
    omega
  obtain ⟨q1, q2⟩ := tdiv_in_range (lo + R - 1) R hR (by omega) (by omega)
  unfold lowBlock
  simp only [id_eq, hin, wrap64_of_range _ q1 q2]

/-- The upper block bound is the same in 64-bit and in exact arithmetic. -/
theorem highBlock_wrap (R hi maxB : Int) (hR : 0 < R) (h1 : -2 ^ 63 ≤ hi) (h2 : hi < 2 ^ 63) :
    highBlock wrap64 R hi maxB = highBlock id R hi maxB := by
  obtain ⟨q1, q2⟩ := tdiv_in_range hi R hR h1 h2
  unfold highBlock
  simp only [id_eq, wrap64_of_range _ q1 q2]

/-- For blocks of at most nine digits the 64-bit product of the progression is
the exact one reduced modulo `2^64`. -/
theorem progression_wrap (m : Nat) (hm9 : m ≤ 9) (R a b : Int) (ha : 10 ^ (m - 1) ≤ a)
    (hab : a ≤ b) (hb : b ≤ 10 ^ m - 1) :
    progression wrap64 R a b = wrap64 (progression id R a b) := by
  obtain ⟨_, _, h3⟩ := ap_step_exact m hm9 a b ha hab hb
  unfold progression
  simp only [id_eq]
  rw [h3, sum_Icc_closed a b hab]

/-- Away from the overflow of the ceiling division, the 64-bit `sumAllRepeats`
returns the exact value reduced modulo `2^64`, for block lengths up to nine. -/
theorem sumAllRepeats_wrap (lo hi : Int) (d m : Nat) (hd : d ≤ 18) (hm : 1 ≤ m) (hm9 : m ≤ 9)
    (hmd : m ≤ d) (hlo : -2 ^ 63 ≤ lo) (hfit : lo + repFactor d m ≤ 2 ^ 63)
    (hhi0 : -2 ^ 63 ≤ hi) (hhi1 : hi < 2 ^ 63) :
    sumAllRepeats wrap64 lo hi d m = (sumAllRepeats id lo hi d m).map wrap64 := by
  have hR := repFactor_pos d m hm hmd
  rw [sumAllRepeats_unfold wrap64 faithful_wrap64 lo hi d m hd hm hmd,
    sumAllRepeats_unfold id faithful_id lo hi d m hd hm hmd,
    lowBlock_wrap _ lo _ hR hlo hfit, highBlock_wrap _ hi _ hR hhi0 hhi1]
  simp only [Option.map_some']
  split_ifs with h
  · rw [wrap64_zero]
  · push_neg at h
    rw [progression_wrap m hm9 _ _ _ (lowBlock_ge _ _ _ _) h
      (by unfold highBlock; split_ifs <;> simp only [id_eq] at * <;> omega)]

/-- Away from the overflow of the ceiling division, one pass of the loop of the
64-bit `sumInvalidInRange` follows the exact pass modulo `2^64`. -/
theorem doubleStep_wrap (lo hi T : Int) (k : Nat) (hk : 1 ≤ k) (hk9 : k ≤ 9)
    (hlo : -2 ^ 63 ≤ lo) (hfit : lo + 10 ^ 9 + 1 ≤ 2 ^ 63) (hhi0 : -2 ^ 63 ≤ hi)
    (hhi1 : hi < 2 ^ 63) :
    doubleStep wrap64 lo hi (wrap64 T) ((2 * k : Nat) : Int)
      = (doubleStep id lo hi T ((2 * k : Nat) : Int)).map wrap64 := by
  obtain ⟨hk1, _⟩ := pow10_nat_bounds k (by omega)
  have hk9' : (10 : Int) ^ k ≤ 10 ^ 9 := pow_le_pow_right₀ (by norm_num) hk9
  have hR : (0 : Int) < 10 ^ k + 1 := by omega
  rw [doubleStep_unfold wrap64 faithful_wrap64 lo hi (wrap64 T) k hk hk9,
    doubleStep_unfold id faithful_id lo hi T k hk hk9,
    lowBlock_wrap _ lo _ hR hlo (by omega), highBlock_wrap _ hi _ hR hhi0 hhi1]
  simp only [Option.map_some', id_eq]
  split_ifs with h
  · rfl
  · push_neg at h
    rw [progression_wrap k hk9 _ _ _ (lowBlock_ge _ _ _ _) h
      (by unfold highBlock; split_ifs <;> simp only [id_eq] at * <;> omega),
      wrap64_add_wrap]

/-- A 64-bit loop that follows an exact loop pass by pass follows it to the end. -/
theorem foldlM_sim (f g : Int → Int → Option Int) (l : List Int)
    (h : ∀ d ∈ l, ∀ T, f (wrap64 T) d = (g T d).map wrap64) :
    ∀ T, l.foldlM f (wrap64 T) = (l.foldlM g T).map wrap64 := by
  induction l with
  | nil => intro T; rfl
  | cons a l ih =>
    intro T
    rw [List.foldlM_cons, List.foldlM_cons, h a (List.mem_cons_self _ _) T]
    cases g T a with
    | none => rfl
    | some T' =>
      simp only [Option.map_some', Option.bind_eq_bind, Option.some_bind]
      exact ih (fun d hd => h d (List.mem_cons_of_mem _ hd)) T'

theorem rawLoop_sim (lo hi d : Int) (l : List Int)
    (h : ∀ m ∈ l, m ≠ 0 → ¬ Int.tdiv d m < 2 →
      sumAllRepeats wrap64 lo hi d m = (sumAllRepeats id lo hi d m).map wrap64) :
    ∀ raw : Int → Int, rawLoop wrap64 lo hi d l (wrap64 ∘ raw)
      = (rawLoop id lo hi d l raw).map fun r => wrap64 ∘ r := by
  induction l with
  | nil => intro raw; rfl
  | cons m rest ih =>
    intro raw
    have ih' := ih (fun s hs => h s (List.mem_cons_of_mem _ hs))
    by_cases hm : m = 0
    · simp [rawLoop, quo, hm]
    · by_cases hc : Int.tdiv d m < 2
      · rw [rawLoop_skip _ _ _ _ _ _ _ hm hc, rawLoop_skip _ _ _ _ _ _ _ hm hc]
        exact ih' raw
      · rw [rawLoop_take _ _ _ _ _ _ _ hm hc, rawLoop_take _ _ _ _ _ _ _ hm hc,
          h m (List.mem_cons_self _ _) hm hc]
        cases sumAllRepeats id lo hi d m with
        | none => rfl
        | some v =>
          simp only [Option.map_some', Option.some_bind]
          rw [← Function.comp_update]
          exact ih' _

theorem subLoop_sim (d m : Int) (ex : Int → Int) (l : List Int) :
    ∀ val : Int, subLoop wrap64 d m (wrap64 ∘ ex) l (wrap64 val)
      = (subLoop id d m ex l val).map wrap64 := by
  induction l with
  | nil => intro val; rfl
  | cons sub rest ih =>
    intro val
    by_cases hb : sub ≥ m
    · rw [subLoop_break _ _ _ _ _ _ _ hb, subLoop_break _ _ _ _ _ _ _ hb]
      rfl
    · by_cases hs : sub = 0
      · simp [subLoop, rem, hs, hb]
      · by_cases hc : Int.tmod m sub = 0 ∧ Int.tmod d sub = 0 ∧ Int.tdiv d sub ≥ 2
        · rw [subLoop_sub _ _ _ _ _ _ _ hb hs hc, subLoop_sub _ _ _ _ _ _ _ hb hs hc]
          simp only [Function.comp_apply, id_eq, wrap64_sub_wrap]
          exact ih _
        · rw [subLoop_skip _ _ _ _ _ _ _ hb hs hc, subLoop_skip _ _ _ _ _ _ _ hb hs hc]
          exact ih _

theorem exactLoop_sim (d : Int) (divs : List Int) (raw : Int → Int) (l : List Int) :
    ∀ (ex : Int → Int) (T : Int),
      exactLoop wrap64 d divs (wrap64 ∘ raw) l (wrap64 ∘ ex) (wrap64 T)
        = (exactLoop id d divs raw l ex T).map fun p => (wrap64 ∘ p.1, wrap64 p.2) := by
  induction l with
  | nil => intro ex T; rfl
  | cons m rest ih =>
    intro ex T
    by_cases hm : m = 0
    · simp [exactLoop, quo, hm]
    · by_cases hc : Int.tdiv d m < 2
      · rw [exactLoop_skip _ _ _ _ _ _ _ _ hm hc, exactLoop_skip _ _ _ _ _ _ _ _ hm hc]
        exact ih ex T
      · rw [exactLoop_take _ _ _ _ _ _ _ _ hm hc, exactLoop_take _ _ _ _ _ _ _ _ hm hc]
        have hs := subLoop_sim d m ex divs (raw m)
        simp only [Function.comp_apply] at hs ⊢
        rw [hs]
        cases subLoop id d m ex divs (raw m) with
        | none => rfl
        | some val =>
          simp only [Option.map_some', Option.some_bind, id_eq, wrap64_add_wrap]
          rw [← Function.comp_update]
          exact ih _ _

theorem divisors_proper (d : Nat) (hd2 : 2 ≤ d) (hd : d ≤ 18) :
    ∃ ds, divisors (d : Int) = some ds
      ∧ ∀ m ∈ ds, 1 ≤ m ∧ m ≤ (d : Int) ∧ (¬ Int.tdiv (d : Int) m < 2 → m ≤ 9) := by
  have key : (divisors (d : Int)).isSome = true
      ∧ ∀ m ∈ (divisors (d : Int)).getD [],
          1 ≤ m ∧ m ≤ (d : Int) ∧ (¬ Int.tdiv (d : Int) m < 2 → m ≤ 9) := by
    interval_cases d <;> decide
  cases h : divisors (d : Int) with
  | none => simp [h] at key
  | some ds => exact ⟨ds, rfl, by simpa [h] using key.2⟩

/-- Away from the overflow of the ceiling division, the state of the 64-bit body
of the loop of `sumInvalidAtLeastTwice` is the exact state reduced modulo
`2^64`, entry by entry. -/
theorem blockState_sim (lo hi T : Int) (d : Nat) (hd2 : 2 ≤ d) (hd : d ≤ 18)
    (hlo : -2 ^ 63 ≤ lo) (hfit : lo + 10 ^ 18 ≤ 2 ^ 63) (hhi0 : -2 ^ 63 ≤ hi)
    (hhi1 : hi < 2 ^ 63) :
    blockState wrap64 lo hi (wrap64 T) d
      = (blockState id lo hi T d).map fun p => (wrap64 ∘ p.1, wrap64 p.2) := by
  obtain ⟨ds, hds, hmem⟩ := divisors_proper d hd2 hd
  have hz : wrap64 ∘ (fun _ : Int => (0 : Int)) = fun _ => 0 := by
    funext x
    exact wrap64_zero
  have hcall : ∀ m ∈ ds, m ≠ 0 → ¬ Int.tdiv (d : Int) m < 2 →
      sumAllRepeats wrap64 lo hi d m = (sumAllRepeats id lo hi d m).map wrap64 := by
    intro m hm _ hc
    obtain ⟨h1, h2, h3⟩ := hmem m hm
    obtain ⟨k, rfl⟩ := Int.eq_ofNat_of_zero_le (show 0 ≤ m by omega)
    have h9 := h3 hc
    have hR := repFactor_le d k hd (by omega)
    exact sumAllRepeats_wrap lo hi d k hd (by omega) (by omega) (by omega) hlo (by omega)
      hhi0 hhi1
  have e1 := rawLoop_sim lo hi d ds hcall (fun _ => 0)
  rw [hz] at e1
  unfold blockState
  rw [hds]
  simp only [Option.some_bind]
  rw [e1]
  cases rawLoop id lo hi d ds (fun _ => 0) with
  | none => rfl
  | some raw =>
    simp only [Option.map_some', Option.some_bind]
    have e2 := exactLoop_sim d ds raw ds (fun _ => 0) T
    rw [hz] at e2
    exact e2

theorem blockStep_sim (lo hi T : Int) (d : Nat) (hd2 : 2 ≤ d) (hd : d ≤ 18)
    (hlo : -2 ^ 63 ≤ lo) (hfit : lo + 10 ^ 18 ≤ 2 ^ 63) (hhi0 : -2 ^ 63 ≤ hi)
    (hhi1 : hi < 2 ^ 63) :
    blockStep wrap64 lo hi (wrap64 T) d = (blockStep id lo hi T d).map wrap64 := by
  rw [blockStep_eq_state, blockStep_eq_state, blockState_sim lo hi T d hd2 hd hlo hfit hhi0 hhi1]
  cases blockState id lo hi T d with
  | none => rfl
  | some p => rfl

/-- Away from the overflow of the ceiling division (`lo ≤ 2^63 - 10^18`, which
holds for every `lo ≤ hi < 10^18`), the 64-bit `sumInvalidAtLeastTwice` returns
the exact result reduced modulo `2^64`. -/
theorem sumInvalidAtLeastTwice_sim (lo hi : Int) (hlo : -2 ^ 63 ≤ lo)
    (hfit : lo + 10 ^ 18 ≤ 2 ^ 63) (hhi0 : -2 ^ 63 ≤ hi) (hhi1 : hi < 2 ^ 63) :
    sumInvalidAtLeastTwice wrap64 lo hi = (sumInvalidAtLeastTwice id lo hi).map wrap64 := by
  unfold sumInvalidAtLeastTwice
  have h := foldlM_sim (fun total d => blockStep wrap64 lo hi total d)
    (fun total d => blockStep id lo hi total d)
    ((List.range' 2 (clampDigits hi - 1).toNat).map Int.ofNat) (by
      intro d hd T
      simp only [List.mem_map, List.mem_range'_1] at hd
      obtain ⟨k, ⟨hk1, hk2⟩, rfl⟩ := hd
      have := clampDigits_le hi
      exact blockStep_sim lo hi T k hk1 (by omega) hlo hfit hhi0 hhi1) 0
  rw [wrap64_zero] at h
  exact h

/-- Away from the overflow of the ceiling division, the 64-bit
`sumInvalidInRange` returns the exact result reduced modulo `2^64`. -/
theorem sumInvalidInRange_sim (lo hi : Int) (hlo : -2 ^ 63 ≤ lo)
    (hfit : lo + 10 ^ 9 + 1 ≤ 2 ^ 63) (hhi0 : -2 ^ 63 ≤ hi) (hhi1 : hi < 2 ^ 63) :
    sumInvalidInRange wrap64 lo hi = (sumInvalidInRange id lo hi).map wrap64 := by
  unfold sumInvalidInRange
  have h := foldlM_sim (fun total d => doubleStep wrap64 lo hi total d)
    (fun total d => doubleStep id lo hi total d)
    ((List.range' 2 (Int.tdiv (clampDigits hi) 2).toNat 2).map Int.ofNat) (by
      intro d hd T
      simp only [List.mem_map, List.mem_range'] at hd
      obtain ⟨k, ⟨i, hi1, rfl⟩, rfl⟩ := hd
      have hc := clampDigits_le hi
      have hi2 : i < 9 := by
        have : (Int.tdiv (clampDigits hi) 2).toNat ≤ 9 := by
          rcases le_or_lt 0 (clampDigits hi) with h0 | h0
          · rw [Int.tdiv_eq_ediv h0 (by norm_num)]
            omega
          · have := tdiv_nonpos_of_neg _ 2 h0 (by norm_num)
            omega
        omega
      have e : Int.ofNat (2 + 2 * i) = ((2 * (i + 1) : Nat) : Int) := by
        simp only [Int.ofNat_eq_coe]; congr 1; ring
      rw [e]
      exact doubleStep_wrap lo hi T (i + 1) (by omega) (by omega) hlo hfit hhi0 hhi1) 0
  rw [wrap64_zero] at h
  exact h

/-! ## The counters against their reference sums, in exact and in 64-bit arithmetic -/

theorem sum_filter_nonneg (P : Int → Prop) [DecidablePred P] (lo hi : Int) (hlo : 0 ≤ lo) :
    0 ≤ ∑ n ∈ (Finset.Icc lo hi).filter P, n := by
  apply Finset.sum_nonneg
  intro n hn
  simp only [Finset.mem_filter, Finset.mem_Icc] at hn
  omega

/-- In exact arithmetic `sumInvalidAtLeastTwice` returns the sum of the integers
of the range whose decimal string is a repeated block. -/
theorem sumInvalidAtLeastTwice_exact (lo hi : Int) (hlo : 1 ≤ lo) (hle : lo ≤ hi)
    (hhi : hi < 10 ^ 18) :
    sumInvalidAtLeastTwice id lo hi
      = some (∑ n ∈ (Finset.Icc lo hi).filter (fun n => isRepeatedBlock n.toNat = true), n) := by
  rw [sumInvalidAtLeastTwice_rep lo hi hlo hle hhi]
  congr 1
  apply Finset.sum_congr _ (fun _ _ => rfl)
  ext n
  simp only [Finset.mem_filter, rep_iff_isRepeatedBlock]

/-- C1. Repeated-block counter correctness: for `1 ≤ lo ≤ hi < 10^18`, let `S` be
the sum of the integers `n` of `[lo, hi]` whose decimal string (of `d` digits) is
some block of `m` digits repeated `d / m ≥ 2` times for a divisor `m` of `d`, each
such `n` taken once. With integer arithmetic taken as exact,
`sumInvalidAtLeastTwice lo hi` returns `S`. The 64-bit function returns `S`
reduced modulo `2^64` into `[-2^63, 2^63)`, hence `S` itself whenever `S < 2^63`. -/
theorem sumInvalidAtLeastTwice_correct (lo hi : Int) (hlo : 1 ≤ lo) (hle : lo ≤ hi)
    (hhi : hi < 10 ^ 18) :
    sumInvalidAtLeastTwice id lo hi
        = some (∑ n ∈ (Finset.Icc lo hi).filter (fun n => isRepeatedBlock n.toNat = true), n)
      ∧ sumInvalidAtLeastTwice wrap64 lo hi
        = some (wrap64 (∑ n ∈ (Finset.Icc lo hi).filter
            (fun n => isRepeatedBlock n.toNat = true), n))
      ∧ (∑ n ∈ (Finset.Icc lo hi).filter (fun n => isRepeatedBlock n.toNat = true), n < 2 ^ 63
          → sumInvalidAtLeastTwice wrap64 lo hi
            = some (∑ n ∈ (Finset.Icc lo hi).filter
                (fun n => isRepeatedBlock n.toNat = true), n)) := by
  have h1 := sumInvalidAtLeastTwice_exact lo hi hlo hle hhi
  have h2 : sumInvalidAtLeastTwice wrap64 lo hi
      = some (wrap64 (∑ n ∈ (Finset.Icc lo hi).filter
          (fun n => isRepeatedBlock n.toNat = true), n)) := by
    rw [sumInvalidAtLeastTwice_sim lo hi (by omega) (by omega) (by omega) (by omega), h1]
    rfl
  refine ⟨h1, h2, fun hS => ?_⟩
  have h0 := sum_filter_nonneg (fun n => isRepeatedBlock n.toNat = true) lo hi (by omega)
  rw [h2, wrap64_of_range _ (by omega) hS]

set_option maxRecDepth 100000 in
/-- Witness of C1. At `(1, 1000)` and `(1, 1000000)` both arithmetics return `5490`,
resp. `540590850`, the sums of the exhaustive scan. At `(1, 16566741656674)` the
sum is `9223386156210638945 ≥ 2^63` and the 64-bit function returns its
reduction `-9223357917498912671`. -/
theorem sumInvalidAtLeastTwice_correct_witness :
    ((1 : Int) ≤ 1 ∧ (1 : Int) ≤ 1000 ∧ (1000 : Int) < 10 ^ 18)
      ∧ sumInvalidAtLeastTwice id 1 1000 = some 5490
      ∧ sumInvalidAtLeastTwice wrap64 1 1000 = some 5490
      ∧ sumInvalidAtLeastTwice id 1 1000000 = some 540590850
      ∧ sumInvalidAtLeastTwice wrap64 1 1000000 = some 540590850
      ∧ sumInvalidAtLeastTwice id 1 16566741656674 = some 9223386156210638945
      ∧ sumInvalidAtLeastTwice wrap64 1 16566741656674 = some (-9223357917498912671)
      ∧ wrap64 9223386156210638945 = -9223357917498912671
      ∧ (sumInvalidAtLeastTwice id 1 1000
          = some (∑ n ∈ (Finset.Icc (1 : Int) 1000).filter
              (fun n => isRepeatedBlock n.toNat = true), n)
        ∧ sumInvalidAtLeastTwice wrap64 1 1000
          = some (wrap64 (∑ n ∈ (Finset.Icc (1 : Int) 1000).filter
              (fun n => isRepeatedBlock n.toNat = true), n))
        ∧ (∑ n ∈ (Finset.Icc (1 : Int) 1000).filter
              (fun n => isRepeatedBlock n.toNat = true), n < 2 ^ 63
            → sumInvalidAtLeastTwice wrap64 1 1000
              = some (∑ n ∈ (Finset.Icc (1 : Int) 1000).filter
                  (fun n => isRepeatedBlock n.toNat = true), n)))
      ∧ sumInvalidAtLeastTwice wrap64 1 16566741656674
          = some (wrap64 (∑ n ∈ (Finset.Icc (1 : Int) 16566741656674).filter
              (fun n => isRepeatedBlock n.toNat = true), n)) :=
  ⟨⟨by decide, by decide, by decide⟩, by decide, by decide, by decide, by decide, by decide,
    by decide, by decide,
    sumInvalidAtLeastTwice_correct 1 1000 (by decide) (by decide) (by decide),
    (sumInvalidAtLeastTwice_correct 1 16566741656674 (by decide) (by decide) (by decide)).2.1⟩

open Classical in
/-- C2. Exact-double counter correctness: for `1 ≤ lo ≤ hi < 10^18`, let `S` be the
sum of the integers `n` of `[lo, hi]` of the form `n = h * (10^k + 1)` with `k ≥ 1`
and `10^(k-1) ≤ h ≤ 10^k - 1`. With integer arithmetic taken as exact,
`sumInvalidInRange lo hi` returns `S`. The 64-bit function returns `S` reduced
modulo `2^64` into `[-2^63, 2^63)`, hence `S` itself whenever `S < 2^63`. -/
theorem sumInvalidInRange_exact_double (lo hi : Int) (hlo : 1 ≤ lo) (hle : lo ≤ hi)
    (hhi : hi < 10 ^ 18) :
    sumInvalidInRange id lo hi = some (∑ n ∈ (Finset.Icc lo hi).filter IsDouble, n)
      ∧ sumInvalidInRange wrap64 lo hi
        = some (wrap64 (∑ n ∈ (Finset.Icc lo hi).filter IsDouble, n))
      ∧ (∑ n ∈ (Finset.Icc lo hi).filter IsDouble, n < 2 ^ 63
          → sumInvalidInRange wrap64 lo hi
            = some (∑ n ∈ (Finset.Icc lo hi).filter IsDouble, n)) := by
  have h1 := sumInvalidInRange_correct lo hi hlo hle hhi
  have h2 : sumInvalidInRange wrap64 lo hi
      = some (wrap64 (∑ n ∈ (Finset.Icc lo hi).filter IsDouble, n)) := by
    rw [sumInvalidInRange_sim lo hi (by omega) (by omega) (by omega) (by omega), h1]
    rfl
  refine ⟨h1, h2, fun hS => ?_⟩
  have h0 := sum_filter_nonneg IsDouble lo hi (by omega)
  rw [h2, wrap64_of_range _ (by omega) hS]

set_option maxRecDepth 100000 in
open Classical in
/-- Witness of C2. At `(10, 99)` both arithmetics return `495 = 11 + 22 + ... + 99`.
At `(1, 16569771656977)` the sum is `9223373591267258703 ≥ 2^63` and the 64-bit
function returns its reduction `-9223370482442292913`. -/
theorem sumInvalidInRange_exact_double_witness :
    ((1 : Int) ≤ 10 ∧ (10 : Int) ≤ 99 ∧ (99 : Int) < 10 ^ 18)
      ∧ sumInvalidInRange id 10 99 = some 495
      ∧ sumInvalidInRange wrap64 10 99 = some 495
      ∧ sumInvalidInRange id 1 16569771656977 = some 9223373591267258703
      ∧ sumInvalidInRange wrap64 1 16569771656977 = some (-9223370482442292913)
      ∧ wrap64 9223373591267258703 = -9223370482442292913
      ∧ (sumInvalidInRange id 10 99 = some (∑ n ∈ (Finset.Icc (10 : Int) 99).filter IsDouble, n)
        ∧ sumInvalidInRange wrap64 10 99
          = some (wrap64 (∑ n ∈ (Finset.Icc (10 : Int) 99).filter IsDouble, n))
        ∧ (∑ n ∈ (Finset.Icc (10 : Int) 99).filter IsDouble, n < 2 ^ 63
            → sumInvalidInRange wrap64 10 99
              = some (∑ n ∈ (Finset.Icc (10 : Int) 99).filter IsDouble, n)))
      ∧ sumInvalidInRange wrap64 1 16569771656977
          = some (wrap64 (∑ n ∈ (Finset.Icc (1 : Int) 16569771656977).filter IsDouble, n)) :=
  ⟨⟨by decide, by decide, by decide⟩, by decide, by decide, by decide, by decide, by decide,
    sumInvalidInRange_exact_double 10 99 (by decide) (by decide) (by decide),
    (sumInvalidInRange_exact_double 1 16569771656977 (by decide) (by decide) (by decide)).2.1⟩

/-- In exact arithmetic `sumAllRepeats` returns the sum of the repetitions `R * h`
of the blocks `h` of `m` digits with `lo ≤ R * h ≤ hi`. -/
theorem sumAllRepeats_exact_sum (lo hi : Int) (d m : Nat) (hd : d ≤ 18) (hm : 1 ≤ m)
    (hmd : m ≤ d) :
    sumAllRepeats id lo hi d m
      = some (∑ h ∈ (Finset.Icc ((10 : Int) ^ (m - 1)) (10 ^ m - 1)).filter
          (fun h => lo ≤ (10 ^ d - 1) / (10 ^ m - 1) * h ∧ (10 ^ d - 1) / (10 ^ m - 1) * h ≤ hi),
          (10 ^ d - 1) / (10 ^ m - 1) * h) := by
  have hp : (0 : Int) < 10 ^ (m - 1) := by positivity
  rw [sumAllRepeats_id lo hi d m hd hm hmd,
    series_eq_sum _ lo hi _ _ (repFactor_pos d m hm hmd) (by omega)]
  rfl

/-- A proper divisor of a number up to 18 is at most 9. -/
theorem proper_divisor_le (d m : Nat) (hd : d ≤ 18) (hmd : m < d) (hdiv : m ∣ d) : m ≤ 9 := by
  obtain ⟨c, rfl⟩ := hdiv
  have hc : 2 ≤ c := by
    by_contra h
    have hc1 : c ≤ 1 := by omega
    interval_cases c <;> omega
  have := Nat.mul_le_mul_left m hc
  omega

/-- C3. Arithmetic-series range summer: for `d` in `2..18`, a divisor `m < d` of
`d`, `1 ≤ lo` and `hi < 10^18`, with `R = (10^d - 1) / (10^m - 1)`, let `S` be the
sum of `R * h` over the integers `h` with `10^(m-1) ≤ h ≤ 10^m - 1` and
`lo ≤ R * h ≤ hi`. With integer arithmetic taken as exact,
`sumAllRepeats lo hi d m` returns `S`, which is `0` when there is no such `h`.
The 64-bit function, when `lo + R - 1` fits in 64 bits (true of every `lo ≤ hi`)
and `hi` is a 64-bit integer, returns `S` reduced modulo `2^64` into
`[-2^63, 2^63)`: `S` itself whenever `S < 2^63`, and `0` when there is no such `h`. -/
theorem sumAllRepeats_block_sum (lo hi : Int) (d m : Nat) (_hd2 : 2 ≤ d) (hd : d ≤ 18)
    (hm : 1 ≤ m) (hmd : m < d) (hdiv : m ∣ d) (hlo : 1 ≤ lo) (hhi : hi < 10 ^ 18) :
    (sumAllRepeats id lo hi d m
        = some (∑ h ∈ (Finset.Icc ((10 : Int) ^ (m - 1)) (10 ^ m - 1)).filter
            (fun h => lo ≤ (10 ^ d - 1) / (10 ^ m - 1) * h ∧ (10 ^ d - 1) / (10 ^ m - 1) * h ≤ hi),
            (10 ^ d - 1) / (10 ^ m - 1) * h)
      ∧ ((∀ h : Int, 10 ^ (m - 1) ≤ h → h ≤ 10 ^ m - 1 →
            ¬ (lo ≤ (10 ^ d - 1) / (10 ^ m - 1) * h ∧ (10 ^ d - 1) / (10 ^ m - 1) * h ≤ hi))
          → sumAllRepeats id lo hi d m = some 0))
      ∧ (lo + (10 ^ d - 1) / (10 ^ m - 1) ≤ 2 ^ 63 → -2 ^ 63 ≤ hi →
          sumAllRepeats wrap64 lo hi d m
            = some (wrap64 (∑ h ∈ (Finset.Icc ((10 : Int) ^ (m - 1)) (10 ^ m - 1)).filter
              (fun h => lo ≤ (10 ^ d - 1) / (10 ^ m - 1) * h
                ∧ (10 ^ d - 1) / (10 ^ m - 1) * h ≤ hi),
              (10 ^ d - 1) / (10 ^ m - 1) * h))
          ∧ (∑ h ∈ (Finset.Icc ((10 : Int) ^ (m - 1)) (10 ^ m - 1)).filter
              (fun h => lo ≤ (10 ^ d - 1) / (10 ^ m - 1) * h
                ∧ (10 ^ d - 1) / (10 ^ m - 1) * h ≤ hi),
              (10 ^ d - 1) / (10 ^ m - 1) * h < 2 ^ 63
            → sumAllRepeats wrap64 lo hi d m
              = some (∑ h ∈ (Finset.Icc ((10 : Int) ^ (m - 1)) (10 ^ m - 1)).filter
                (fun h => lo ≤ (10 ^ d - 1) / (10 ^ m - 1) * h
                  ∧ (10 ^ d - 1) / (10 ^ m - 1) * h ≤ hi),
                (10 ^ d - 1) / (10 ^ m - 1) * h))
          ∧ ((∀ h : Int, 10 ^ (m - 1) ≤ h → h ≤ 10 ^ m - 1 →
                ¬ (lo ≤ (10 ^ d - 1) / (10 ^ m - 1) * h
                  ∧ (10 ^ d - 1) / (10 ^ m - 1) * h ≤ hi))
              → sumAllRepeats wrap64 lo hi d m = some 0)) := by
  have key := sumAllRepeats_exact_sum lo hi d m hd hm (le_of_lt hmd)
  have hzero : (∀ h : Int, 10 ^ (m - 1) ≤ h → h ≤ 10 ^ m - 1 →
        ¬ (lo ≤ (10 ^ d - 1) / (10 ^ m - 1) * h ∧ (10 ^ d - 1) / (10 ^ m - 1) * h ≤ hi))
      → ∑ h ∈ (Finset.Icc ((10 : Int) ^ (m - 1)) (10 ^ m - 1)).filter
          (fun h => lo ≤ (10 ^ d - 1) / (10 ^ m - 1) * h ∧ (10 ^ d - 1) / (10 ^ m - 1) * h ≤ hi),
          (10 ^ d - 1) / (10 ^ m - 1) * h = 0 := by
    intro hnone
    apply Finset.sum_eq_zero
    intro h hh
    simp only [Finset.mem_filter, Finset.mem_Icc] at hh
    exact absurd hh.2 (hnone h hh.1.1 hh.1.2)
  have hnn : 0 ≤ ∑ h ∈ (Finset.Icc ((10 : Int) ^ (m - 1)) (10 ^ m - 1)).filter
          (fun h => lo ≤ (10 ^ d - 1) / (10 ^ m - 1) * h ∧ (10 ^ d - 1) / (10 ^ m - 1) * h ≤ hi),
          (10 ^ d - 1) / (10 ^ m - 1) * h := by
    apply Finset.sum_nonneg
    intro h hh
    simp only [Finset.mem_filter, Finset.mem_Icc] at hh
    omega
  refine ⟨⟨key, fun hnone => ?_⟩, fun hfit hhi0 => ?_⟩
  · rw [key, hzero hnone]
  · have hw : sumAllRepeats wrap64 lo hi d m
        = some (wrap64 (∑ h ∈ (Finset.Icc ((10 : Int) ^ (m - 1)) (10 ^ m - 1)).filter
            (fun h => lo ≤ (10 ^ d - 1) / (10 ^ m - 1) * h
              ∧ (10 ^ d - 1) / (10 ^ m - 1) * h ≤ hi),
            (10 ^ d - 1) / (10 ^ m - 1) * h)) := by
      rw [sumAllRepeats_wrap lo hi d m hd hm (proper_divisor_le d m hd hmd hdiv) (le_of_lt hmd)
        (by omega) hfit hhi0 (by omega), key]
      rfl
    refine ⟨hw, fun hS => ?_, fun hnone => ?_⟩
    · rw [hw, wrap64_of_range _ (by omega) hS]
    · rw [hw, hzero hnone, wrap64_zero]

set_option maxRecDepth 100000 in
/-- Witness of C3. At `d = 4`, `m = 2`, `[1, 5000]` both arithmetics return `119180`.
At `d = 18`, `m = 9`, `[1, 10^18 - 1]` the sum is `495000000044999999550000000`
and the 64-bit function returns its reduction `-4215898403351950464`. -/
theorem sumAllRepeats_block_sum_witness :
    (2 ≤ 4 ∧ 4 ≤ 18 ∧ 1 ≤ 2 ∧ 2 < 4 ∧ 2 ∣ 4 ∧ (1 : Int) ≤ 1 ∧ (5000 : Int) < 10 ^ 18)
      ∧ sumAllRepeats id 1 5000 4 2 = some 119180
      ∧ sumAllRepeats wrap64 1 5000 4 2 = some 119180
      ∧ sumAllRepeats id 1 (10 ^ 18 - 1) 18 9 = some 495000000044999999550000000
      ∧ sumAllRepeats wrap64 1 (10 ^ 18 - 1) 18 9 = some (-4215898403351950464)
      ∧ wrap64 495000000044999999550000000 = -4215898403351950464
      ∧ sumAllRepeats id 1 5000 (4 : Nat) (2 : Nat)
        = some (∑ h ∈ (Finset.Icc ((10 : Int) ^ (2 - 1)) (10 ^ 2 - 1)).filter
            (fun h => 1 ≤ (10 ^ 4 - 1) / (10 ^ 2 - 1) * h ∧ (10 ^ 4 - 1) / (10 ^ 2 - 1) * h ≤ 5000),
            (10 ^ 4 - 1) / (10 ^ 2 - 1) * h)
      ∧ sumAllRepeats wrap64 1 5000 (4 : Nat) (2 : Nat)
        = some (wrap64 (∑ h ∈ (Finset.Icc ((10 : Int) ^ (2 - 1)) (10 ^ 2 - 1)).filter
            (fun h => 1 ≤ (10 ^ 4 - 1) / (10 ^ 2 - 1) * h ∧ (10 ^ 4 - 1) / (10 ^ 2 - 1) * h ≤ 5000),
            (10 ^ 4 - 1) / (10 ^ 2 - 1) * h))
      ∧ sumAllRepeats wrap64 1 (10 ^ 18 - 1) (18 : Nat) (9 : Nat)
        = some (wrap64 (∑ h ∈ (Finset.Icc ((10 : Int) ^ (9 - 1)) (10 ^ 9 - 1)).filter
            (fun h => 1 ≤ (10 ^ 18 - 1) / (10 ^ 9 - 1) * h
              ∧ (10 ^ 18 - 1) / (10 ^ 9 - 1) * h ≤ 10 ^ 18 - 1),
            (10 ^ 18 - 1) / (10 ^ 9 - 1) * h)) :=
  ⟨⟨by decide, by decide, by decide, by decide, by decide, by decide, by decide⟩,
    by decide, by decide, by decide, by decide, by decide,
    (sumAllRepeats_block_sum 1 5000 4 2 (by decide) (by decide) (by decide) (by decide)
      (by decide) (by decide) (by decide)).1.1,
    ((sumAllRepeats_block_sum 1 5000 4 2 (by decide) (by decide) (by decide) (by decide)
      (by decide) (by decide) (by decide)).2 (by decide) (by decide)).1,
    ((sumAllRepeats_block_sum 1 (10 ^ 18 - 1) 18 9 (by decide) (by decide) (by decide)
      (by decide) (by decide) (by decide) (by decide)).2 (by decide) (by decide)).1⟩

/-- In exact arithmetic, `exact[m]` at the end of the loop body of
`sumInvalidAtLeastTwice` is the sum of the integers of `[lo, hi]` that have `d`
digits and whose decimal string has minimal repeating block length `m`. -/
theorem blockState_minimal_exact (lo hi total : Int) (d m : Nat) (hd2 : 2 ≤ d) (hd : d ≤ 18)
    (hm : 1 ≤ m) (hdvd : m ∣ d) (hr : 2 ≤ d / m) :
    ∃ ex t', blockState id lo hi total d = some (ex, t')
      ∧ blockStep id lo hi total d = some t'
      ∧ ex m = ∑ n ∈ (Finset.Icc lo hi).filter
          (fun n => (Nat.digits 10 n.toNat).length = d ∧ minimalBlock n.toNat m = true), n := by
  classical
  obtain ⟨ex, t', h0, h1⟩ := blockState_minBlk lo hi total d m hd2 hd hm hdvd hr
  refine ⟨ex, t', h0, ?_, ?_⟩
  · rw [blockStep_eq_state, h0]
    rfl
  · rw [h1]
    apply Finset.sum_congr _ (fun _ _ => rfl)
    ext n
    simp only [Finset.mem_filter, minBlk_iff_minimalBlock d m n hm (by omega) hdvd]

set_option maxRecDepth 100000 in
/-- Counterexample to C12 as stated: on `[1, 10^18 - 1]` the 18-digit integers of
minimal block length 9 sum to `494999504999954954504955450`, which no 64-bit
integer holds, and the 64-bit loop body leaves `exact[9] = -1198853458239101382`. -/
theorem exact_minimal_period_counterexample :
    (blockState wrap64 1 (10 ^ 18 - 1) 0 18).map (fun s => s.1 9)
        = some (-1198853458239101382)
      ∧ ∑ n ∈ (Finset.Icc (1 : Int) (10 ^ 18 - 1)).filter
          (fun n => (Nat.digits 10 n.toNat).length = 18 ∧ minimalBlock n.toNat 9 = true), n
        = 494999504999954954504955450
      ∧ (-1198853458239101382 : Int) ≠ 494999504999954954504955450 := by
  refine ⟨by decide, ?_, by decide⟩
  obtain ⟨ex, t', h0, _, h2⟩ := blockState_minimal_exact 1 (10 ^ 18 - 1) 0 18 9 (by decide)
    (by decide) (by decide) (by decide) (by decide)
  have e : (blockState id 1 (10 ^ 18 - 1) 0 18).map (fun s => s.1 9)
      = some 494999504999954954504955450 := by decide
  simp only [Nat.cast_ofNat] at h0 h2
  rw [h0] at e
  simp only [Option.map_some', Option.some.injEq] at e
  rw [← h2, e]

/-- C12, amended to the 64-bit arithmetic of the program. Inclusion and exclusion
isolates the minimal period: for `1 ≤ lo ≤ hi < 10^18`, a digit length `d` in
`2..18` and a divisor `m` of `d` with `d / m ≥ 2`, let `S` be the sum of the
integers of `[lo, hi]` that have `d` digits and whose decimal string has minimal
repeating block length exactly `m`. The value `exact[m]` at the end of the 64-bit
loop body of `sumInvalidAtLeastTwice`, entered with any 64-bit `total`, is `S`
reduced modulo `2^64` into `[-2^63, 2^63)`, hence `S` itself whenever `S < 2^63`;
with exact integers it is `S`. -/
theorem exact_minimal_period (lo hi total : Int) (d m : Nat) (hlo : 1 ≤ lo) (hle : lo ≤ hi)
    (hhi : hi < 10 ^ 18) (hd2 : 2 ≤ d) (hd : d ≤ 18) (hm : 1 ≤ m) (hdvd : m ∣ d)
    (hr : 2 ≤ d / m) (ht0 : -2 ^ 63 ≤ total) (ht1 : total < 2 ^ 63) :
    (∃ ex t', blockState wrap64 lo hi total d = some (ex, t')
      ∧ blockStep wrap64 lo hi total d = some t'
      ∧ ex m = wrap64 (∑ n ∈ (Finset.Icc lo hi).filter
          (fun n => (Nat.digits 10 n.toNat).length = d ∧ minimalBlock n.toNat m = true), n)
      ∧ (∑ n ∈ (Finset.Icc lo hi).filter
            (fun n => (Nat.digits 10 n.toNat).length = d ∧ minimalBlock n.toNat m = true), n
          < 2 ^ 63
        → ex m = ∑ n ∈ (Finset.Icc lo hi).filter
            (fun n => (Nat.digits 10 n.toNat).length = d ∧ minimalBlock n.toNat m = true), n))
      ∧ ∃ ex t', blockState id lo hi total d = some (ex, t')
        ∧ blockStep id lo hi total d = some t'
        ∧ ex m = ∑ n ∈ (Finset.Icc lo hi).filter
            (fun n => (Nat.digits 10 n.toNat).length = d ∧ minimalBlock n.toNat m = true), n := by
  obtain ⟨ex, t', h0, h1, h2⟩ := blockState_minimal_exact lo hi total d m hd2 hd hm hdvd hr
  refine ⟨?_, ex, t', h0, h1, h2⟩
  have hs := blockState_sim lo hi total d hd2 hd (by omega) (by omega) (by omega) (by omega)
  rw [wrap64_of_range total ht0 ht1, h0] at hs
  have hnn := sum_filter_nonneg
    (fun n => (Nat.digits 10 n.toNat).length = d ∧ minimalBlock n.toNat m = true) lo hi
    (by omega)
  refine ⟨wrap64 ∘ ex, wrap64 t', hs, ?_, ?_, fun hS => ?_⟩
  · rw [blockStep_eq_state, hs]
    rfl
  · simp only [Function.comp_apply, h2]
  · simp only [Function.comp_apply, h2]
    exact wrap64_of_range _ (by omega) hS

set_option maxRecDepth 100000 in
/-- Witness of the amended C12. On `[100000, 111111]` for six digits the 64-bit loop
body leaves `exact[1] = 111111`, `exact[2] = 101010`, `exact[3] = 1156155` and the
counter returns their sum `1368276`, in which `111111` occurs once. On
`[1, 10^18 - 1]` for 18 digits `exact[9]` is the sum reduced modulo `2^64`. -/
theorem exact_minimal_period_witness :
    ((1 : Int) ≤ 100000 ∧ (100000 : Int) ≤ 111111 ∧ (111111 : Int) < 10 ^ 18 ∧ 2 ≤ 6 ∧ 6 ≤ 18
        ∧ 1 ≤ 3 ∧ 3 ∣ 6 ∧ 2 ≤ 6 / 3 ∧ (-2 ^ 63 : Int) ≤ 0 ∧ (0 : Int) < 2 ^ 63)
      ∧ (blockState wrap64 100000 111111 0 6).map (fun s => (s.1 1, s.1 2, s.1 3, s.2))
          = some (111111, 101010, 1156155, 1368276)
      ∧ sumInvalidAtLeastTwice wrap64 100000 111111 = some 1368276
      ∧ wrap64 494999504999954954504955450 = -1198853458239101382
      ∧ (∃ ex t', blockState wrap64 100000 111111 0 (6 : Nat) = some (ex, t')
          ∧ blockStep wrap64 100000 111111 0 (6 : Nat) = some t'
          ∧ ex (3 : Nat) = wrap64 (∑ n ∈ (Finset.Icc (100000 : Int) 111111).filter
              (fun n => (Nat.digits 10 n.toNat).length = 6 ∧ minimalBlock n.toNat 3 = true), n)
          ∧ (∑ n ∈ (Finset.Icc (100000 : Int) 111111).filter
                (fun n => (Nat.digits 10 n.toNat).length = 6 ∧ minimalBlock n.toNat 3 = true), n
              < 2 ^ 63
            → ex (3 : Nat) = ∑ n ∈ (Finset.Icc (100000 : Int) 111111).filter
                (fun n => (Nat.digits 10 n.toNat).length = 6
                  ∧ minimalBlock n.toNat 3 = true), n))
      ∧ ∃ ex t', blockState wrap64 1 (10 ^ 18 - 1) 0 (18 : Nat) = some (ex, t')
          ∧ blockStep wrap64 1 (10 ^ 18 - 1) 0 (18 : Nat) = some t'
          ∧ ex (9 : Nat) = wrap64 (∑ n ∈ (Finset.Icc (1 : Int) (10 ^ 18 - 1)).filter
              (fun n => (Nat.digits 10 n.toNat).length = 18 ∧ minimalBlock n.toNat 9 = true), n)
          ∧ (∑ n ∈ (Finset.Icc (1 : Int) (10 ^ 18 - 1)).filter
                (fun n => (Nat.digits 10 n.toNat).length = 18 ∧ minimalBlock n.toNat 9 = true), n
              < 2 ^ 63
            → ex (9 : Nat) = ∑ n ∈ (Finset.Icc (1 : Int) (10 ^ 18 - 1)).filter
                (fun n => (Nat.digits 10 n.toNat).length = 18
                  ∧ minimalBlock n.toNat 9 = true), n) :=
  ⟨⟨by decide, by decide, by decide, by decide, by decide, by decide, by decide, by decide,
      by decide, by decide⟩,
    by decide, by decide, by decide,
    (exact_minimal_period 100000 111111 0 6 3 (by decide) (by decide) (by decide) (by decide)
      (by decide) (by decide) (by decide) (by decide) (by decide) (by decide)).1,
    (exact_minimal_period 1 (10 ^ 18 - 1) 0 18 9 (by decide) (by decide) (by decide) (by decide)
      (by decide) (by decide) (by decide) (by decide) (by decide) (by decide)).1⟩

set_option maxRecDepth 100000 in
/-- Counterexample to C18 in the 64-bit arithmetic of the program: on
`[1, 10^15 - 1]` both counters return a negative value, and the exact-double
value is the larger one. -/
theorem double_le_repeated_counterexample :
    sumInvalidInRange wrap64 1 (10 ^ 15 - 1) = some (-2566589949212852682)
      ∧ sumInvalidAtLeastTwice wrap64 1 (10 ^ 15 - 1) = some (-7907325639247372125)
      ∧ ¬ ((0 : Int) ≤ -2566589949212852682
          ∧ (-2566589949212852682 : Int) ≤ -7907325639247372125) := by
  decide

open Classical in
/-- C18, amended to the 64-bit arithmetic of the program. For `1 ≤ lo ≤ hi < 10^18`
let `a` be the sum of the exact doubles of `[lo, hi]` and `b` the sum of its
repeated-block integers. Then `0 ≤ a ≤ b`, and with exact integers
`sumInvalidInRange` returns `a` and `sumInvalidAtLeastTwice` returns `b`. The
64-bit functions return `a` and `b` reduced modulo `2^64` into `[-2^63, 2^63)`;
whenever `b < 2^63` they return `a` and `b` themselves, so that the returned
values satisfy `0 ≤ sumInvalidInRange lo hi ≤ sumInvalidAtLeastTwice lo hi`. -/
theorem double_le_repeated (lo hi : Int) (hlo : 1 ≤ lo) (hle : lo ≤ hi) (hhi : hi < 10 ^ 18) :
    ∃ a b, a = ∑ n ∈ (Finset.Icc lo hi).filter IsDouble, n
      ∧ b = ∑ n ∈ (Finset.Icc lo hi).filter (fun n => isRepeatedBlock n.toNat = true), n
      ∧ sumInvalidInRange id lo hi = some a ∧ sumInvalidAtLeastTwice id lo hi = some b
      ∧ 0 ≤ a ∧ a ≤ b
      ∧ sumInvalidInRange wrap64 lo hi = some (wrap64 a)
      ∧ sumInvalidAtLeastTwice wrap64 lo hi = some (wrap64 b)
      ∧ (b < 2 ^ 63 → ∃ a' b', sumInvalidInRange wrap64 lo hi = some a'
          ∧ sumInvalidAtLeastTwice wrap64 lo hi = some b' ∧ a' = a ∧ b' = b
          ∧ 0 ≤ a' ∧ a' ≤ b') := by
  have ha := sumInvalidInRange_correct lo hi hlo hle hhi
  have hb := sumInvalidAtLeastTwice_exact lo hi hlo hle hhi
  have hb' := sumInvalidAtLeastTwice_rep lo hi hlo hle hhi
  have h0 : 0 ≤ ∑ n ∈ (Finset.Icc lo hi).filter IsDouble, n :=
    sum_filter_nonneg IsDouble lo hi (by omega)
  have hab : ∑ n ∈ (Finset.Icc lo hi).filter IsDouble, n
      ≤ ∑ n ∈ (Finset.Icc lo hi).filter (fun n => isRepeatedBlock n.toNat = true), n := by
    have e : ∑ n ∈ (Finset.Icc lo hi).filter (fun n => isRepeatedBlock n.toNat = true), n
        = ∑ n ∈ (Finset.Icc lo hi).filter (fun n => ∃ d : Nat, Rep d n), n := by
      have := hb.symm.trans hb'
      exact Option.some.inj this
    rw [e]
    apply Finset.sum_le_sum_of_subset_of_nonneg
    · intro n hn
      simp only [Finset.mem_filter] at hn ⊢
      exact ⟨hn.1, rep_of_isDouble n hn.2⟩
    · intro n hn _
      simp only [Finset.mem_filter, Finset.mem_Icc] at hn
      omega
  have hwa : sumInvalidInRange wrap64 lo hi
      = some (wrap64 (∑ n ∈ (Finset.Icc lo hi).filter IsDouble, n)) := by
    rw [sumInvalidInRange_sim lo hi (by omega) (by omega) (by omega) (by omega), ha]
    rfl
  have hwb : sumInvalidAtLeastTwice wrap64 lo hi
      = some (wrap64 (∑ n ∈ (Finset.Icc lo hi).filter
          (fun n => isRepeatedBlock n.toNat = true), n)) := by
    rw [sumInvalidAtLeastTwice_sim lo hi (by omega) (by omega) (by omega) (by omega), hb]
    rfl
  refine ⟨_, _, rfl, rfl, ha, hb, h0, hab, hwa, hwb, fun hS => ?_⟩
  refine ⟨_, _, hwa, hwb, wrap64_of_range _ (by omega) (by omega),
    wrap64_of_range _ (by omega) hS, ?_, ?_⟩
  · rw [wrap64_of_range _ (by omega) (by omega)]
    exact h0
  · rw [wrap64_of_range _ (by omega) (by omega), wrap64_of_range _ (by omega) hS]
    exact hab

set_option maxRecDepth 100000 in
open Classical in
/-- Witness of the amended C18 at `(1, 1000)`: the 64-bit functions return `495` and
`5490`. -/
theorem double_le_repeated_witness :
    ((1 : Int) ≤ 1 ∧ (1 : Int) ≤ 1000 ∧ (1000 : Int) < 10 ^ 18)
      ∧ sumInvalidInRange wrap64 1 1000 = some 495
      ∧ sumInvalidAtLeastTwice wrap64 1 1000 = some 5490
      ∧ ∃ a b, a = ∑ n ∈ (Finset.Icc (1 : Int) 1000).filter IsDouble, n
        ∧ b = ∑ n ∈ (Finset.Icc (1 : Int) 1000).filter
            (fun n => isRepeatedBlock n.toNat = true), n
        ∧ sumInvalidInRange id 1 1000 = some a ∧ sumInvalidAtLeastTwice id 1 1000 = some b
        ∧ 0 ≤ a ∧ a ≤ b
        ∧ sumInvalidInRange wrap64 1 1000 = some (wrap64 a)
        ∧ sumInvalidAtLeastTwice wrap64 1 1000 = some (wrap64 b)
        ∧ (b < 2 ^ 63 → ∃ a' b', sumInvalidInRange wrap64 1 1000 = some a'
            ∧ sumInvalidAtLeastTwice wrap64 1 1000 = some b' ∧ a' = a ∧ b' = b
            ∧ 0 ≤ a' ∧ a' ≤ b') :=
  ⟨⟨by decide, by decide, by decide⟩, by decide, by decide,
    double_le_repeated 1 1000 (by decide) (by decide) (by decide)⟩

open Classical in
/-- C19. Range splitting is additive: for `1 ≤ lo ≤ mid < hi < 10^18`, with integer
arithmetic taken as exact, the value `a` of `sumInvalidAtLeastTwice` on `[lo, hi]`
is the sum `b + c` of its values on `[lo, mid]` and `[mid + 1, hi]`. The 64-bit
function returns `a`, `b` and `c` reduced modulo `2^64`, and its value on
`[lo, hi]` is the 64-bit sum of its values on the two parts; it is their exact
sum whenever `a < 2^63`. The same holds for `sumInvalidInRange`. -/
theorem range_split_additive (lo mid hi : Int) (hlo : 1 ≤ lo) (h1 : lo ≤ mid) (h2 : mid < hi)
    (hhi : hi < 10 ^ 18) :
    (∃ a b c, sumInvalidAtLeastTwice id lo hi = some a
        ∧ sumInvalidAtLeastTwice id lo mid = some b
        ∧ sumInvalidAtLeastTwice id (mid + 1) hi = some c ∧ a = b + c
        ∧ sumInvalidAtLeastTwice wrap64 lo hi = some (wrap64 a)
        ∧ sumInvalidAtLeastTwice wrap64 lo mid = some (wrap64 b)
        ∧ sumInvalidAtLeastTwice wrap64 (mid + 1) hi = some (wrap64 c)
        ∧ wrap64 a = wrap64 (wrap64 b + wrap64 c)
        ∧ (a < 2 ^ 63 → wrap64 a = wrap64 b + wrap64 c))
      ∧ (∃ a b c, sumInvalidInRange id lo hi = some a
        ∧ sumInvalidInRange id lo mid = some b
        ∧ sumInvalidInRange id (mid + 1) hi = some c ∧ a = b + c
        ∧ sumInvalidInRange wrap64 lo hi = some (wrap64 a)
        ∧ sumInvalidInRange wrap64 lo mid = some (wrap64 b)
        ∧ sumInvalidInRange wrap64 (mid + 1) hi = some (wrap64 c)
        ∧ wrap64 a = wrap64 (wrap64 b + wrap64 c)
        ∧ (a < 2 ^ 63 → wrap64 a = wrap64 b + wrap64 c)) := by
  have hsplit : ∀ (P : Int → Prop) [DecidablePred P],
      wrap64 (∑ n ∈ (Finset.Icc lo hi).filter P, n)
          = wrap64 (wrap64 (∑ n ∈ (Finset.Icc lo mid).filter P, n)
              + wrap64 (∑ n ∈ (Finset.Icc (mid + 1) hi).filter P, n))
        ∧ (∑ n ∈ (Finset.Icc lo hi).filter P, n < 2 ^ 63
          → wrap64 (∑ n ∈ (Finset.Icc lo hi).filter P, n)
            = wrap64 (∑ n ∈ (Finset.Icc lo mid).filter P, n)
              + wrap64 (∑ n ∈ (Finset.Icc (mid + 1) hi).filter P, n)) := by
    intro P _
    have e := sum_filter_split P lo mid hi h1 h2
    have hb := sum_filter_nonneg P lo mid (by omega)
    have hc := sum_filter_nonneg P (mid + 1) hi (by omega)
    refine ⟨by rw [wrap64_add_wrap, e], fun hS => ?_⟩
    rw [wrap64_of_range _ (by omega) hS, wrap64_of_range _ (by omega) (by omega),
      wrap64_of_range _ (by omega) (by omega)]
    exact e
  constructor
  · have ea := sumInvalidAtLeastTwice_rep lo hi hlo (by omega) hhi
    have eb := sumInvalidAtLeastTwice_rep lo mid hlo h1 (by omega)
    have ec := sumInvalidAtLeastTwice_rep (mid + 1) hi (by omega) (by omega) hhi
    refine ⟨_, _, _, ea, eb, ec, sum_filter_split _ lo mid hi h1 h2, ?_, ?_, ?_,
      (hsplit _).1, (hsplit _).2⟩
    · rw [sumInvalidAtLeastTwice_sim lo hi (by omega) (by omega) (by omega) (by omega), ea]
      rfl
    · rw [sumInvalidAtLeastTwice_sim lo mid (by omega) (by omega) (by omega) (by omega), eb]
      rfl
    · rw [sumInvalidAtLeastTwice_sim (mid + 1) hi (by omega) (by omega) (by omega) (by omega),
        ec]
      rfl
  · have ea := sumInvalidInRange_correct lo hi hlo (by omega) hhi
    have eb := sumInvalidInRange_correct lo mid hlo h1 (by omega)
    have ec := sumInvalidInRange_correct (mid + 1) hi (by omega) (by omega) hhi
    refine ⟨_, _, _, ea, eb, ec, sum_filter_split _ lo mid hi h1 h2, ?_, ?_, ?_,
      (hsplit _).1, (hsplit _).2⟩
    · rw [sumInvalidInRange_sim lo hi (by omega) (by omega) (by omega) (by omega), ea]
      rfl
    · rw [sumInvalidInRange_sim lo mid (by omega) (by omega) (by omega) (by omega), eb]
      rfl
    · rw [sumInvalidInRange_sim (mid + 1) hi (by omega) (by omega) (by omega) (by omega), ec]
      rfl

set_option maxRecDepth 100000 in
/-- Witness of C19. At `lo = 1`, `mid = 100`, `hi = 1000` both arithmetics give
`5490 = 495 + 4995`. At `lo = 1`, `mid = 16566741656673`, `hi = 16566741656674`
the 64-bit function returns `a = -9223357917498912671`,
`b = 9223369589468982271` and `c = 16566741656674`, and `a` is the 64-bit sum of
`b` and `c`. -/
theorem range_split_additive_witness :
    ((1 : Int) ≤ 1 ∧ (1 : Int) ≤ 100 ∧ (100 : Int) < 1000 ∧ (1000 : Int) < 10 ^ 18)
      ∧ sumInvalidAtLeastTwice wrap64 1 1000 = some 5490
      ∧ sumInvalidAtLeastTwice wrap64 1 100 = some 495
      ∧ sumInvalidAtLeastTwice wrap64 (100 + 1) 1000 = some 4995
      ∧ sumInvalidAtLeastTwice wrap64 1 16566741656674 = some (-9223357917498912671)
      ∧ sumInvalidAtLeastTwice wrap64 1 16566741656673 = some 9223369589468982271
      ∧ sumInvalidAtLeastTwice wrap64 (16566741656673 + 1) 16566741656674
          = some 16566741656674
      ∧ wrap64 (9223369589468982271 + 16566741656674) = -9223357917498912671
      ∧ (∃ a b c, sumInvalidAtLeastTwice id 1 1000 = some a
          ∧ sumInvalidAtLeastTwice id 1 100 = some b
          ∧ sumInvalidAtLeastTwice id (100 + 1) 1000 = some c ∧ a = b + c
          ∧ sumInvalidAtLeastTwice wrap64 1 1000 = some (wrap64 a)
          ∧ sumInvalidAtLeastTwice wrap64 1 100 = some (wrap64 b)
          ∧ sumInvalidAtLeastTwice wrap64 (100 + 1) 1000 = some (wrap64 c)
          ∧ wrap64 a = wrap64 (wrap64 b + wrap64 c)
          ∧ (a < 2 ^ 63 → wrap64 a = wrap64 b + wrap64 c))
      ∧ ∃ a b c, sumInvalidAtLeastTwice id 1 16566741656674 = some a
          ∧ sumInvalidAtLeastTwice id 1 16566741656673 = some b
          ∧ sumInvalidAtLeastTwice id (16566741656673 + 1) 16566741656674 = some c ∧ a = b + c
          ∧ sumInvalidAtLeastTwice wrap64 1 16566741656674 = some (wrap64 a)
          ∧ sumInvalidAtLeastTwice wrap64 1 16566741656673 = some (wrap64 b)
          ∧ sumInvalidAtLeastTwice wrap64 (16566741656673 + 1) 16566741656674
              = some (wrap64 c)
          ∧ wrap64 a = wrap64 (wrap64 b + wrap64 c)
          ∧ (a < 2 ^ 63 → wrap64 a = wrap64 b + wrap64 c) :=
  ⟨⟨by decide, by decide, by decide, by decide⟩, by decide, by decide, by decide, by decide,
    by decide, by decide, by decide,
    (range_split_additive 1 100 1000 (by decide) (by decide) (by decide) (by decide)).1,
    (range_split_additive 1 16566741656673 16566741656674 (by decide) (by decide) (by decide)
      (by decide)).1⟩

end Day02

namespace Day01

/-! ## The dial position -/

/-- The value of `applyRotation` on a dial of positive size, for a position on the
dial and a non-negative distance, in any arithmetic `w` that is exact between
`-size` and `2 * size`. -/
theorem applyRotation_eq (w : Int → Int) (pos size : Int) (r : rotation)
    (hw : ∀ x : Int, -size ≤ x → x ≤ 2 * size → w x = x)
    (hs : 0 < size) (hp0 : 0 ≤ pos) (hp1 : pos < size) (hst : 0 ≤ r.steps) :
    applyRotation w pos r size
      = some (if r.dir = 'R' ∨ r.dir = 'r' then (pos + r.steps) % size
              else if r.dir = 'L' ∨ r.dir = 'l' then (pos - r.steps) % size
              else pos) := by
  have hne : size ≠ 0 := by omega
  have hm0 : 0 ≤ r.steps % size := Int.emod_nonneg _ hne
  have hm1 : r.steps % size < size := Int.emod_lt_of_pos _ hs
  have e1 : Int.tmod r.steps size = r.steps % size := Int.tmod_eq_emod hst (le_of_lt hs)
  have w1 : w (r.steps % size) = r.steps % size := hw _ (by omega) (by omega)
  unfold applyRotation Day02.rem
  simp only [if_neg hne, Option.map_some', Option.some_bind, e1, w1]
  by_cases hR : r.dir = 'R' ∨ r.dir = 'r'
  · simp only [if_pos hR, Option.map_some', Option.some.injEq]
    have w2 : w (pos + r.steps % size) = pos + r.steps % size := hw _ (by omega) (by omega)
    have e2 : Int.tmod (pos + r.steps % size) size = (pos + r.steps % size) % size :=
      Int.tmod_eq_emod (by omega) (le_of_lt hs)
    have e3 : (pos + r.steps % size) % size = (pos + r.steps) % size :=
      Int.ModEq.add_left pos (Int.mod_modEq r.steps size)
    have b0 : 0 ≤ (pos + r.steps) % size := Int.emod_nonneg _ hne
    have b1 : (pos + r.steps) % size < size := Int.emod_lt_of_pos _ hs
    rw [w2, e2, e3]
    exact hw _ (by omega) (by omega)
  · by_cases hL : r.dir = 'L' ∨ r.dir = 'l'
    · simp only [if_neg hR, if_pos hL, Option.map_some', Option.some.injEq]
      have w2 : w (pos - r.steps % size) = pos - r.steps % size := hw _ (by omega) (by omega)
      have w3 : w (pos - r.steps % size + size) = pos - r.steps % size + size :=
        hw _ (by omega) (by omega)
      have e2 : Int.tmod (pos - r.steps % size + size) size
          = (pos - r.steps % size + size) % size := Int.tmod_eq_emod (by omega) (le_of_lt hs)
      have e3 : (pos - r.steps % size + size) % size = (pos - r.steps) % size := by
        rw [Int.add_emod_self]
        exact Int.ModEq.sub_left pos (Int.mod_modEq r.steps size)
      have b0 : 0 ≤ (pos - r.steps) % size := Int.emod_nonneg _ hne
      have b1 : (pos - r.steps) % size < size := Int.emod_lt_of_pos _ hs
      rw [w2, w3, e2, e3]
      exact hw _ (by omega) (by omega)
    · simp only [if_neg hR, if_neg hL]

/-- The new position is on the dial. -/
theorem applyRotation_range (w : Int → Int) (pos size : Int) (r : rotation)
    (hw : ∀ x : Int, -size ≤ x → x ≤ 2 * size → w x = x)
    (hs : 0 < size) (hp0 : 0 ≤ pos) (hp1 : pos < size) (hst : 0 ≤ r.steps) :
    ∃ v, applyRotation w pos r size = some v ∧ 0 ≤ v ∧ v < size := by
  have hne : size ≠ 0 := by omega
  refine ⟨_, applyRotation_eq w pos size r hw hs hp0 hp1 hst, ?_, ?_⟩
  · split_ifs
    · exact Int.emod_nonneg _ hne
    · exact Int.emod_nonneg _ hne
    · exact hp0
  · split_ifs
    · exact Int.emod_lt_of_pos _ hs
    · exact Int.emod_lt_of_pos _ hs
    · exact hp1

theorem wrap64_small (size : Int) (hsize : 2 * size < 2 ^ 63) :
    ∀ x : Int, -size ≤ x → x ≤ 2 * size → Day02.wrap64 x = x :=
  fun x h1 h2 => Day02.wrap64_of_range x (by omega) (by omega)

/-- The positions stay on the dial along a run of `solvePart1`. -/
theorem step1_range (w : Int → Int) (size : Int)
    (hw : ∀ x : Int, -size ≤ x → x ≤ 2 * size → w x = x) (hs : 0 < size)
    (rs : List rotation) (hrs : ∀ r ∈ rs, 0 ≤ r.steps) :
    ∀ st : Int × Int, 0 ≤ st.1 → st.1 < size →
      ∃ st', rs.foldlM (step1 w size) st = some st' ∧ 0 ≤ st'.1 ∧ st'.1 < size := by
  induction rs with
  | nil => intro st h0 h1; exact ⟨st, rfl, h0, h1⟩
  | cons r rs ih =>
    intro st h0 h1
    obtain ⟨v, hv, v0, v1⟩ :=
      applyRotation_range w st.1 size r hw hs h0 h1 (hrs r (List.mem_cons_self _ _))
    rw [List.foldlM_cons]
    simp only [step1, hv, Option.map_some', Option.bind_eq_bind, Option.some_bind]
    apply ih (fun r' hr' => hrs r' (List.mem_cons_of_mem _ hr'))
    · split_ifs <;> exact v0
    · split_ifs <;> exact v1

/-! ## Counting the clicks that land on zero -/

/-- The value of `countZeroHitsDuringRotation`, in any arithmetic `w` that is
exact between `0` and `size + steps`. -/
theorem countZeroHits_eq (w : Int → Int) (pos size : Int) (r : rotation)
    (hw : ∀ x : Int, 0 ≤ x → x ≤ size + r.steps → w x = x)
    (hs : 0 < size) (hp0 : 0 ≤ pos) (hp1 : pos < size) (hst : 0 ≤ r.steps) :
    countZeroHitsDuringRotation w pos r size
      = some (if r.dir = 'R' ∨ r.dir = 'r' then hitsFrom size r.steps ((size - pos) % size)
              else if r.dir = 'L' ∨ r.dir = 'l' then hitsFrom size r.steps (pos % size)
              else 0) := by
  have hne : size ≠ 0 := by omega
  have key : ∀ f0 : Int, 0 ≤ f0 → f0 < size →
      (if r.steps < (if f0 = 0 then size else f0) then some 0
        else ((Day02.quo (w (r.steps - (if f0 = 0 then size else f0))) size).map w).map
          fun q => w (1 + q)) = some (hitsFrom size r.steps f0) := by
    intro f0 h0 h1
    unfold hitsFrom
    have hf1 : 1 ≤ (if f0 = 0 then size else f0) := by split_ifs <;> omega
    have hf2 : (if f0 = 0 then size else f0) ≤ size := by split_ifs <;> omega
    generalize (if f0 = 0 then size else f0) = f at hf1 hf2 ⊢
    split_ifs with hlt
    · rfl
    · push_neg at hlt
      have w1 : w (r.steps - f) = r.steps - f := hw _ (by omega) (by omega)
      have e1 : Int.tdiv (r.steps - f) size = (r.steps - f) / size :=
        Int.tdiv_eq_ediv (by omega) (le_of_lt hs)
      have q0 : 0 ≤ (r.steps - f) / size := Int.ediv_nonneg (by omega) (le_of_lt hs)
      have q1 : (r.steps - f) / size ≤ r.steps - f := Int.ediv_le_self _ (by omega)
      have w2 : w ((r.steps - f) / size) = (r.steps - f) / size := hw _ q0 (by omega)
      have w3 : w (1 + (r.steps - f) / size) = 1 + (r.steps - f) / size :=
        hw _ (by omega) (by omega)
      simp only [Day02.quo, if_neg hne, w1, e1, w2, w3, Option.map_some']
  unfold countZeroHitsDuringRotation Day02.rem
  simp only [if_neg hne, Option.map_some', Option.some_bind]
  by_cases h0 : r.steps = 0
  · simp only [if_pos h0]
    have hz : ∀ f0 : Int, 0 ≤ f0 → f0 < size → hitsFrom size r.steps f0 = 0 := by
      intro f0 a b
      unfold hitsFrom
      rw [if_pos]
      split_ifs <;> omega
    rw [hz _ (Int.emod_nonneg _ hne) (Int.emod_lt_of_pos _ hs),
      hz _ (Int.emod_nonneg _ hne) (Int.emod_lt_of_pos _ hs)]
    simp
  · simp only [if_neg h0]
    by_cases hR : r.dir = 'R' ∨ r.dir = 'r'
    · simp only [if_pos hR]
      have w1 : w (size - pos) = size - pos := hw _ (by omega) (by omega)
      have e1 : Int.tmod (size - pos) size = (size - pos) % size :=
        Int.tmod_eq_emod (by omega) (le_of_lt hs)
      have b0 := Int.emod_nonneg (size - pos) hne
      have b1 := Int.emod_lt_of_pos (size - pos) hs
      have w2 : w ((size - pos) % size) = (size - pos) % size := hw _ b0 (by omega)
      rw [w1, e1, w2]
      exact key _ b0 b1
    · by_cases hL : r.dir = 'L' ∨ r.dir = 'l'
      · simp only [if_neg hR, if_pos hL]
        have e1 : Int.tmod pos size = pos % size := Int.tmod_eq_emod hp0 (le_of_lt hs)
        have b0 := Int.emod_nonneg pos hne
        have b1 := Int.emod_lt_of_pos pos hs
        have w2 : w (pos % size) = pos % size := hw _ b0 (by omega)
        rw [e1, w2]
        exact key _ b0 b1
      · simp only [if_neg hR, if_neg hL]

/-- Among the clicks `1, ..., steps`, those congruent to `f` modulo `size`, for
`1 ≤ f ≤ size`, number `1 + (steps - f) / size`, or none when `steps < f`. -/
theorem card_hits (size f steps : Int) (hs : 0 < size) (hf1 : 1 ≤ f) (hf2 : f ≤ size) :
    (((Finset.Icc 1 steps).filter (fun j => size ∣ j - f)).card : Int)
      = if steps < f then 0 else 1 + (steps - f) / size := by
  split_ifs with hlt
  · have hempty : (Finset.Icc 1 steps).filter (fun j => size ∣ j - f) = ∅ := by
      apply Finset.filter_eq_empty_iff.2
      intro j hj hd
      simp only [Finset.mem_Icc] at hj
      obtain ⟨c, hc⟩ := hd
      have h1 : -size < size * c := by omega
      have h2 : size * c < 0 := by omega
      have c1 : -1 < c := by
        by_contra hcon
        push_neg at hcon
        nlinarith
      have c2 : c < 0 := by
        by_contra hcon
        push_neg at hcon
        nlinarith
      omega
    rw [hempty]
    simp
  · push_neg at hlt
    have q0 : 0 ≤ (steps - f) / size := Int.ediv_nonneg (by omega) (le_of_lt hs)
    have himg : (Finset.Icc 1 steps).filter (fun j => size ∣ j - f)
        = (Finset.Icc 0 ((steps - f) / size)).image (fun t => f + t * size) := by
      ext j
      simp only [Finset.mem_filter, Finset.mem_Icc, Finset.mem_image]
      constructor
      · rintro ⟨⟨j1, j2⟩, c, hc⟩
        have c1 : -1 < c := by
          by_contra hcon
          push_neg at hcon
          nlinarith
        refine ⟨c, ⟨by omega, ?_⟩, by rw [mul_comm]; omega⟩
        rw [Int.le_ediv_iff_mul_le hs]
        rw [mul_comm]; omega
      · rintro ⟨t, ⟨t0, t1⟩, rfl⟩
        have h1 : (steps - f) / size * size ≤ steps - f := Int.ediv_mul_le _ (by omega)
        have h2 : t * size ≤ (steps - f) / size * size :=
          mul_le_mul_of_nonneg_right t1 (le_of_lt hs)
        have h3 : 0 ≤ t * size := mul_nonneg t0 (le_of_lt hs)
        refine ⟨⟨by omega, by omega⟩, t, ?_⟩
        ring
    rw [himg, Finset.card_image_of_injective, Int.card_Icc]
    · rw [Int.toNat_of_nonneg (by omega)]
      ring
    · intro a b hab
      simp only [add_right_inj] at hab
      exact mul_right_cancel₀ (ne_of_gt hs) hab

theorem some_zero_iff_dvd (a size : Int) : (some (a % size) = some (0 : Int)) ↔ size ∣ a := by
  rw [Option.some.injEq]
  exact Int.dvd_iff_emod_eq_zero.symm

/-- A click count `j` lands on zero exactly when it is congruent to the first hit. -/
theorem lands_iff (pos size j : Int) (dir : Char) (hs : 0 < size) (hp0 : 0 ≤ pos)
    (hp1 : pos < size) (hj : 0 ≤ j) :
    ((dir = 'R' ∨ dir = 'r') →
        (applyRotation id pos ⟨dir, j⟩ size = some 0
          ↔ size ∣ j - (if (size - pos) % size = 0 then size else (size - pos) % size)))
      ∧ (¬ (dir = 'R' ∨ dir = 'r') → (dir = 'L' ∨ dir = 'l') →
        (applyRotation id pos ⟨dir, j⟩ size = some 0
          ↔ size ∣ j - (if pos % size = 0 then size else pos % size))) := by
  have happ := applyRotation_eq id pos size ⟨dir, j⟩ (fun _ _ _ => rfl) hs hp0 hp1 hj
  simp only at happ
  constructor
  · intro hR
    rw [happ, if_pos hR, some_zero_iff_dvd]
    have hd : size ∣ (size - pos) - (size - pos) % size := Int.dvd_sub_of_emod_eq rfl
    have hf : size ∣ (if (size - pos) % size = 0 then size else (size - pos) % size) + pos := by
      split_ifs with h0
      · rw [h0] at hd
        obtain ⟨c, hc⟩ := hd
        exact ⟨2 - c, by linarith⟩
      · obtain ⟨c, hc⟩ := hd
        exact ⟨1 - c, by linarith⟩
    generalize (if (size - pos) % size = 0 then size else (size - pos) % size) = f at hf
    constructor
    · intro h
      have := dvd_sub h hf
      have e : pos + j - (f + pos) = j - f := by ring
      rwa [e] at this
    · intro h
      have := dvd_add h hf
      have e : j - f + (f + pos) = pos + j := by ring
      rwa [e] at this
  · intro hR hL
    rw [happ, if_neg hR, if_pos hL, some_zero_iff_dvd]
    have hd : size ∣ pos - pos % size := Int.dvd_sub_of_emod_eq rfl
    have hf : size ∣ pos - (if pos % size = 0 then size else pos % size) := by
      split_ifs with h0
      · rw [h0] at hd
        obtain ⟨c, hc⟩ := hd
        exact ⟨c - 1, by linarith⟩
      · exact hd
    generalize (if pos % size = 0 then size else pos % size) = f at hf
    constructor
    · intro h
      have := dvd_sub hf h
      have e : pos - f - (pos - j) = j - f := by ring
      rwa [e] at this
    · intro h
      have := dvd_sub hf h
      have e : pos - f - (j - f) = pos - j := by ring
      rwa [e] at this

/-- The count of `countZeroHitsDuringRotation` in exact arithmetic. -/
theorem countZeroHits_card (pos size steps : Int) (dir : Char) (hs : 0 < size) (hp0 : 0 ≤ pos)
    (hp1 : pos < size) (hst : 0 ≤ steps) (hdir : dir = 'R' ∨ dir = 'r' ∨ dir = 'L' ∨ dir = 'l') :
    countZeroHitsDuringRotation id pos ⟨dir, steps⟩ size
      = some (((Finset.Icc 1 steps).filter
          (fun j => applyRotation id pos ⟨dir, j⟩ size = some 0)).card : Int) := by
  have hne : size ≠ 0 := by omega
  rw [countZeroHits_eq id pos size ⟨dir, steps⟩ (fun _ _ _ => rfl) hs hp0 hp1 hst]
  simp only
  congr 1
  by_cases hR : dir = 'R' ∨ dir = 'r'
  · rw [if_pos hR]
    have b0 := Int.emod_nonneg (size - pos) hne
    have b1 := Int.emod_lt_of_pos (size - pos) hs
    have hfilter : (Finset.Icc 1 steps).filter
          (fun j => applyRotation id pos ⟨dir, j⟩ size = some 0)
        = (Finset.Icc 1 steps).filter (fun j =>
            size ∣ j - (if (size - pos) % size = 0 then size else (size - pos) % size)) := by
      apply Finset.filter_congr
      intro j hj
      simp only [Finset.mem_Icc] at hj
      exact (lands_iff pos size j dir hs hp0 hp1 (by omega)).1 hR
    rw [hfilter, card_hits size _ steps hs (by split_ifs <;> omega) (by split_ifs <;> omega)]
    rfl
  · have hL : dir = 'L' ∨ dir = 'l' := by tauto
    rw [if_neg hR, if_pos hL]
    have b0 := Int.emod_nonneg pos hne
    have b1 := Int.emod_lt_of_pos pos hs
    have hfilter : (Finset.Icc 1 steps).filter
          (fun j => applyRotation id pos ⟨dir, j⟩ size = some 0)
        = (Finset.Icc 1 steps).filter (fun j =>
            size ∣ j - (if pos % size = 0 then size else pos % size)) := by
      apply Finset.filter_congr
      intro j hj
      simp only [Finset.mem_Icc] at hj
      exact (lands_iff pos size j dir hs hp0 hp1 (by omega)).2 hR hL
    rw [hfilter, card_hits size _ steps hs (by split_ifs <;> omega) (by split_ifs <;> omega)]
    rfl

/-- C16. Zero-crossing count matches the click-by-click simulation: on a dial of
positive size, from a position on the dial, for a non-negative distance and a
direction among `R`, `r`, `L`, `l`, `countZeroHitsDuringRotation` returns the
number of `j` in `1..steps` with `applyRotation pos {dir, j} size = 0`; for any
other direction it returns `0`. This is in exact arithmetic; a 64-bit `int`
gives the same value as long as `size + steps` fits. -/
theorem zero_hits_match_clicks (pos size steps : Int) (dir : Char) (hs : 0 < size)
    (hp0 : 0 ≤ pos) (hp1 : pos < size) (hst : 0 ≤ steps) :
    ((dir = 'R' ∨ dir = 'r' ∨ dir = 'L' ∨ dir = 'l') →
        countZeroHitsDuringRotation id pos ⟨dir, steps⟩ size
          = some (((Finset.Icc 1 steps).filter
              (fun j => applyRotation id pos ⟨dir, j⟩ size = some 0)).card : Int))
      ∧ (¬ (dir = 'R' ∨ dir = 'r' ∨ dir = 'L' ∨ dir = 'l') →
        countZeroHitsDuringRotation id pos ⟨dir, steps⟩ size = some 0)
      ∧ (size + steps < 2 ^ 63 →
        countZeroHitsDuringRotation Day02.wrap64 pos ⟨dir, steps⟩ size
          = countZeroHitsDuringRotation id pos ⟨dir, steps⟩ size) := by
  refine ⟨countZeroHits_card pos size steps dir hs hp0 hp1 hst, ?_, ?_⟩
  · intro hdir
    rw [countZeroHits_eq id pos size ⟨dir, steps⟩ (fun _ _ _ => rfl) hs hp0 hp1 hst]
    simp only
    rw [if_neg (by tauto), if_neg (by tauto)]
  · intro hfit
    rw [countZeroHits_eq id pos size ⟨dir, steps⟩ (fun _ _ _ => rfl) hs hp0 hp1 hst,
      countZeroHits_eq Day02.wrap64 pos size ⟨dir, steps⟩
        (fun x h1 h2 => Day02.wrap64_of_range x (by omega) (by simp only at h2; omega))
        hs hp0 hp1 hst]

/-- Witness of C16 on the dial of size 100 at position 50: turning `L` by 268
clicks passes zero three times (after 50, 150 and 250 clicks). -/
theorem zero_hits_match_clicks_witness :
    ((0 : Int) < 100 ∧ (0 : Int) ≤ 50 ∧ (50 : Int) < 100 ∧ (0 : Int) ≤ 268)
      ∧ countZeroHitsDuringRotation id 50 ⟨'L', 268⟩ 100 = some 3
      ∧ countZeroHitsDuringRotation id 50 ⟨'L', 268⟩ 100
          = some (((Finset.Icc 1 268).filter
              (fun j => applyRotation id 50 ⟨'L', j⟩ 100 = some 0)).card : Int) :=
  ⟨⟨by decide, by decide, by decide, by decide⟩, by decide,
    (zero_hits_match_clicks 50 100 268 'L' (by decide) (by decide) (by decide) (by decide)).1
      (Or.inr (Or.inr (Or.inl rfl)))⟩

/-- The function `countZeroHitsDuringRotation` returns a value on a dial of
non-zero size, in any arithmetic. -/
theorem countZeroHits_some (w : Int → Int) (pos size : Int) (r : rotation) (hs : size ≠ 0) :
    ∃ v, countZeroHitsDuringRotation w pos r size = some v := by
  unfold countZeroHitsDuringRotation Day02.rem Day02.quo
  simp only [if_neg hs, Option.map_some', Option.some_bind]
  split_ifs <;> exact ⟨_, rfl⟩

/-- The positions stay on the dial along a run of `solvePart2`. -/
theorem step2_range (w : Int → Int) (size : Int)
    (hw : ∀ x : Int, -size ≤ x → x ≤ 2 * size → w x = x) (hs : 0 < size)
    (rs : List rotation) (hrs : ∀ r ∈ rs, 0 ≤ r.steps) :
    ∀ st : Int × Int, 0 ≤ st.1 → st.1 < size →
      ∃ st', rs.foldlM (step2 w size) st = some st' ∧ 0 ≤ st'.1 ∧ st'.1 < size := by
  induction rs with
  | nil => intro st h0 h1; exact ⟨st, rfl, h0, h1⟩
  | cons r rs ih =>
    intro st h0 h1
    obtain ⟨v, hv, v0, v1⟩ :=
      applyRotation_range w st.1 size r hw hs h0 h1 (hrs r (List.mem_cons_self _ _))
    obtain ⟨c, hc⟩ := countZeroHits_some w st.1 size r (by omega)
    rw [List.foldlM_cons]
    simp only [step2, hv, hc, Option.map_some', Option.bind_eq_bind, Option.some_bind]
    exact ih (fun r' hr' => hrs r' (List.mem_cons_of_mem _ hr')) _ v0 v1

/-- C17. Dial position invariant: on a dial of positive size, from a position on
the dial, for a rotation with a non-negative distance and any direction byte,
`applyRotation` returns a position in `0..size-1`: `(pos + steps) mod size` for
`R`/`r`, `(pos - steps) mod size` for `L`/`l`, and `pos` otherwise. This is in
exact arithmetic; a 64-bit `int` gives the same value as long as `2 * size`
fits. Hence on the dial of size 100, started at 50, the position after any
number of rotations of `solvePart1` or `solvePart2` is in `0..99`, in exact and
in 64-bit arithmetic. -/
theorem dial_position_invariant (pos size : Int) (r : rotation) (hs : 0 < size)
    (hp0 : 0 ≤ pos) (hp1 : pos < size) (hst : 0 ≤ r.steps) :
    (∃ v, applyRotation id pos r size = some v ∧ 0 ≤ v ∧ v < size
        ∧ v = (if r.dir = 'R' ∨ r.dir = 'r' then (pos + r.steps) % size
               else if r.dir = 'L' ∨ r.dir = 'l' then (pos - r.steps) % size
               else pos))
      ∧ (2 * size < 2 ^ 63 →
          applyRotation Day02.wrap64 pos r size = applyRotation id pos r size)
      ∧ (∀ (w : Int → Int) (pre post : List rotation), (w = id ∨ w = Day02.wrap64) →
          (∀ r' ∈ pre ++ post, 0 ≤ r'.steps) →
          (∃ st, pre.foldlM (step1 w 100) (50, 0) = some st ∧ 0 ≤ st.1 ∧ st.1 ≤ 99)
            ∧ (∃ st, pre.foldlM (step2 w 100) (50, 0) = some st ∧ 0 ≤ st.1 ∧ st.1 ≤ 99)) := by
  refine ⟨?_, ?_, ?_⟩
  · obtain ⟨v, hv, v0, v1⟩ :=
      applyRotation_range id pos size r (fun _ _ _ => rfl) hs hp0 hp1 hst
    refine ⟨v, hv, v0, v1, ?_⟩
    rw [applyRotation_eq id pos size r (fun _ _ _ => rfl) hs hp0 hp1 hst] at hv
    exact (Option.some.inj hv).symm
  · intro hfit
    rw [applyRotation_eq id pos size r (fun _ _ _ => rfl) hs hp0 hp1 hst,
      applyRotation_eq Day02.wrap64 pos size r (wrap64_small size hfit) hs hp0 hp1 hst]
  · intro w pre post hw hpos
    have hw' : ∀ x : Int, -100 ≤ x → x ≤ 2 * 100 → w x = x := by
      rcases hw with rfl | rfl
      · exact fun _ _ _ => rfl
      · exact wrap64_small 100 (by norm_num)
    have hpre : ∀ r' ∈ pre, 0 ≤ r'.steps :=
      fun r' hr' => hpos r' (List.mem_append_left _ hr')
    obtain ⟨s1, e1, a1, b1⟩ :=
      step1_range w 100 hw' (by norm_num) pre hpre (50, 0) (by norm_num) (by norm_num)
    obtain ⟨s2, e2, a2, b2⟩ :=
      step2_range w 100 hw' (by norm_num) pre hpre (50, 0) (by norm_num) (by norm_num)
    exact ⟨⟨s1, e1, a1, by omega⟩, ⟨s2, e2, a2, by omega⟩⟩

/-- Witness of C17 on the dial of size 100 at position 50 with `L68`: the new
position is `82 = (50 - 68) mod 100`. -/
theorem dial_position_invariant_witness :
    ((0 : Int) < 100 ∧ (0 : Int) ≤ 50 ∧ (50 : Int) < 100 ∧ (0 : Int) ≤ 68)
      ∧ applyRotation id 50 ⟨'L', 68⟩ 100 = some 82
      ∧ applyRotation Day02.wrap64 50 ⟨'L', 68⟩ 100 = some 82
      ∧ ∃ v, applyRotation id 50 ⟨'L', 68⟩ 100 = some v ∧ 0 ≤ v ∧ v < 100
          ∧ v = (if ('L' = 'R' ∨ 'L' = 'r') then ((50 : Int) + 68) % 100
                 else if ('L' = 'L' ∨ 'L' = 'l') then ((50 : Int) - 68) % 100
                 else 50) :=
  ⟨⟨by decide, by decide, by decide, by decide⟩, by decide, by decide,
    (dial_position_invariant 50 100 ⟨'L', 68⟩ (by decide) (by decide) (by decide)
      (by decide)).1⟩

end Day01
